import Mathlib

/-!
# Prolly-tree node cursor (go/store/prolly)

A shallow embedding of `node_cursor.go` and `meta_tuple.go`, and of the row
iterator of `diff_table.go`, together with the properties that the specification
states.

* Go pointers to cursor frames become an inductive chain (`nodeCursor.root`,
  `nodeCursor.child`); in-place mutation becomes explicit state passing: every
  operation returns the cursor it leaves behind.
* `(value, error)` results and panics become `Except Fault`. The state a cursor is
  left in when an operation fails is not modelled.
* `for` loops whose end depends on the store take a bound on their iterations
  (`fuel`); the theorems give a bound that is enough.
* Go's `int` and `uint64` are integers and natural numbers here. Where the code
  subtracts two `int` or converts a `uint64` to `int` (`compare`,
  `newCursorAtIndex`) the result is taken modulo `2^64` (`intSub`, `intOfUint64`).
* `node.go` is not among the sources. `Node` is modelled as a level and a list of
  items, and `Node.getPair` is a parameter of every operation that reads a pair.
  The cursor passes its item index `idx` to it, so the theorems assume that it
  returns the items at `idx` and `idx + 1` (`PairsByItem`).
-/

namespace Prolly

/-! ## Data model -/

/-- How a call can fail to return a value. -/
inductive Fault where
  /-- `assertTrue` failed: `panic("assertion failed")`. -/
  | assertion
  /-- A Go runtime panic: index out of range or nil dereference. -/
  | runtime
  /-- A non-nil `error` handed back by the node store. -/
  | store (code : Nat)
  /-- The iteration bound of a modelled `for` loop was used up. -/
  | fuel
deriving DecidableEq

/-- An item of a node: `type nodeItem []byte`, one natural number per byte. -/
abbrev nodeItem := List Nat

/-- The result of `hash.Hash`: the bytes of a content hash. -/
abbrev Hash := List Nat

/-- A key and its value: `type nodePair [2]nodeItem`. -/
structure nodePair where
  key : nodeItem
  value : nodeItem
deriving DecidableEq

/-- The cursor moves over the items of a node two at a time: `const stride = 2`. -/
def stride : Int := 2

/-- Go's `x - y` on the type `int`, 64 bits wide: for Go ints `x` and `y` the
difference modulo `2^64`, taken in the range of `int`, so that `math.MinInt64 - 1`
is `math.MaxInt64`. The idx of a frame is a Go int; integers outside the range of
`int`, which no Go value holds, are subtracted as they are. -/
def intSub (x y : Int) : Int :=
  if -(2 ^ 63) ≤ x ∧ x < 2 ^ 63 ∧ -(2 ^ 63) ≤ y ∧ y < 2 ^ 63 then
    (x - y + 2 ^ 63) % 2 ^ 64 - 2 ^ 63
  else x - y

/-- Go's conversion `int(d)` of a `uint64`: the value modulo `2^64`, taken in the
range of `int`; it is `d` below `2^63` and `d - 2^64` from there on. -/
def intOfUint64 (d : Nat) : Int := ((d : Int) + 2 ^ 63) % 2 ^ 64 - 2 ^ 63

/-- Modelled from the spec: the type `Node` (node.go is not part of the sources).
A node has a level (0 for leaves) and a sequence of items; the pair `i` occupies
the items `2i` and `2i+1`. -/
structure Node where
  level : Nat
  items : List nodeItem
deriving DecidableEq

/-- Modelled from the spec: `Node.nodeCount`, the number of items of the node. -/
def Node.nodeCount (nd : Node) : Int := nd.items.length

/-- Modelled from the spec: `Node.getItem(i)`, defined for `0 ≤ i < nodeCount`;
outside that range the access panics. -/
def Node.getItem (nd : Node) (i : Int) : Except Fault nodeItem :=
  if i < 0 then .error .runtime
  else match nd.items[i.toNat]? with
    | some it => .ok it
    | none => .error .runtime

/-- The pair made of the items at positions `i` and `i+1`. The cursor hands its
item index `idx` to `Node.getPair`; this is the pair that sits at that index. -/
def Node.pairAt (nd : Node) (i : Int) : Except Fault nodePair := do
  let k ← nd.getItem i
  let v ← nd.getItem (i + 1)
  pure ⟨k, v⟩

/-- The interface `NodeStore`: a content-addressed store of nodes. -/
structure NodeStore where
  Read : Hash → Except Fault Node
  Write : Node → Except Fault Hash

/-- The type `compareFn func(left, right nodeItem) int`. -/
abbrev compareFn := nodeItem → nodeItem → Int

/-- The type `searchFn func(item nodeItem, nd Node) (idx int)`. -/
abbrev searchFn := nodeItem → Node → Int

/-! ## meta_tuple.go -/

/-- Modelled from the spec: `val.Tuple.GetField` on the tuple of a meta value,
whose field 0 is the 6-byte count and whose field 1 is the 20-byte ref. -/
def tupleGetField (t : nodeItem) (i : Nat) : List Nat :=
  if i = 0 then t.take 6 else (t.drop 6).take 20

/-- Modelled from the spec: `val.ReadUint48`, unsigned big-endian. -/
def ReadUint48 (b : List Nat) : Nat := b.foldl (fun acc x => acc * 256 + x) 0

/-- Modelled from the spec: `val.WriteUint48`, six bytes unsigned big-endian. -/
def WriteUint48 (n : Nat) : List Nat :=
  [n / 2 ^ 40 % 256, n / 2 ^ 32 % 256, n / 2 ^ 24 % 256, n / 2 ^ 16 % 256, n / 2 ^ 8 % 256, n % 256]

def metaValueCountIdx : Nat := 0

def metaValueRefIdx : Nat := 1

/-- The constructor `newMetaValue(pool, count, ref)`: the tuple of the two fields. -/
def newMetaValue (count : Nat) (ref : Hash) : nodeItem := WriteUint48 count ++ ref

/-- The method `metaValue.GetCumulativeCount`. -/
def GetCumulativeCount (mt : nodeItem) : Nat := ReadUint48 (tupleGetField mt metaValueCountIdx)

/-- The method `metaValue.GetRef`. -/
def GetRef (mt : nodeItem) : Hash := tupleGetField mt metaValueRefIdx

/-- The function `fetchChild`: read the node a meta value refers to. -/
def fetchChild (ns : NodeStore) (mt : nodeItem) : Except Fault Node := ns.Read (GetRef mt)

/-! ## node_cursor.go: the cursor and its accessors -/

/-- The fields of one `nodeCursor` other than its parent pointer. -/
structure Frame where
  nd : Node
  idx : Int
  nrw : NodeStore

/-- The struct `nodeCursor`: a frame with `parent == nil`, or a frame with a parent
cursor one level up. -/
inductive nodeCursor where
  | root (f : Frame)
  | child (f : Frame) (parent : nodeCursor)

namespace nodeCursor

def frame : nodeCursor → Frame
  | root f => f
  | child f _ => f

def nd (cur : nodeCursor) : Node := cur.frame.nd

def idx (cur : nodeCursor) : Int := cur.frame.idx

def nrw (cur : nodeCursor) : NodeStore := cur.frame.nrw

def parent : nodeCursor → Option nodeCursor
  | root _ => none
  | child _ p => some p

/-- Assignment to `cur.idx`. -/
def setIdx (cur : nodeCursor) (i : Int) : nodeCursor :=
  match cur with
  | root f => root { f with idx := i }
  | child f p => child { f with idx := i } p

/-- Assignment to `cur.nd`. -/
def setNd (cur : nodeCursor) (n : Node) : nodeCursor :=
  match cur with
  | root f => root { f with nd := n }
  | child f p => child { f with nd := n } p

/-- The number of frames above this one. -/
def depth : nodeCursor → Nat
  | root _ => 0
  | child _ p => p.depth + 1

/-- The method `valid`; a node is never nil here. -/
def valid (cur : nodeCursor) : Bool :=
  decide (cur.idx ≥ 0) && decide (cur.idx < cur.nd.nodeCount)

def lastKeyIdx (cur : nodeCursor) : Int := cur.nd.nodeCount - stride

def level (cur : nodeCursor) : Nat := cur.nd.level

def isLeaf (cur : nodeCursor) : Bool := cur.level == 0

def firstKey (cur : nodeCursor) : Except Fault nodeItem := cur.nd.getItem 0

def lastKey (cur : nodeCursor) : Except Fault nodeItem := cur.nd.getItem cur.lastKeyIdx

def skipToNodeStart (cur : nodeCursor) : nodeCursor := cur.setIdx 0

def skipToNodeEnd (cur : nodeCursor) : nodeCursor := cur.setIdx cur.lastKeyIdx

def keepInBounds (cur : nodeCursor) : nodeCursor :=
  let c1 := if cur.idx < 0 then cur.skipToNodeStart else cur
  if c1.idx > c1.lastKeyIdx then c1.skipToNodeEnd else c1

def atNodeStart (cur : nodeCursor) : Bool := cur.idx == 0

def atNodeEnd (cur : nodeCursor) : Bool := cur.idx == cur.lastKeyIdx

end nodeCursor

/-- The function `assertTrue`. -/
def assertTrue (b : Bool) : Except Fault Unit :=
  if b then .ok () else .error .assertion

/-- The loop of Go's `sort.Search(n, f)`: `for i < j { h := (i+j)/2; if !f(h) { i = h+1 } else { j = h } }`. -/
def sortSearchLoop (f : Nat → Except Fault Bool) : Nat → Nat → Nat → Except Fault Nat
  | 0, i, _ => .ok i
  | fuel + 1, i, j =>
    if i < j then do
      let h := (i + j) / 2
      let b ← f h
      if !b then sortSearchLoop f fuel (h + 1) j else sortSearchLoop f fuel i h
    else .ok i

/-- Go's `sort.Search(n, f)`; `n` iterations are more than the loop can take. -/
def sortSearch (n : Nat) (f : Nat → Except Fault Bool) : Except Fault Nat :=
  sortSearchLoop f n 0 n

/-- The method `nodeCursor.search`. -/
def nodeCursor.search (cur : nodeCursor) (item : nodeItem) (cb : compareFn) : Except Fault Int := do
  let count := cur.nd.nodeCount
  let i ← sortSearch (count / stride).toNat (fun i => do
    let k ← cur.nd.getItem ((i : Int) * stride)
    pure (decide (cb item k ≤ 0)))
  pure ((i : Int) * stride)

/-- The method `nodeCursor.compare`. With a parent on the receiver and none on
`other`, Go dereferences the nil `other.parent`. The result `cur.idx - other.idx`
is a subtraction of Go ints. -/
def nodeCursor.compare : nodeCursor → nodeCursor → Except Fault Int
  | .root f, other => do
    assertTrue (f.nd.nodeCount == other.nd.nodeCount)
    pure (intSub f.idx other.idx)
  | .child _ _, .root _ => .error .runtime
  | .child f p, .child g q => do
    let r ← nodeCursor.compare p q
    if r ≠ 0 then pure r
    else do
      assertTrue (f.nd.nodeCount == g.nd.nodeCount)
      pure (intSub f.idx g.idx)

/-! ## node_cursor.go: operations that read pairs

`Node.getPair` is not part of the sources; the operations below take it as the
parameter `getPair`. -/

section Ops

variable (getPair : Node → Int → Except Fault nodePair)

/-- The method `nodeCursor.currentPair`: `cur.nd.getPair(cur.idx)`. -/
def nodeCursor.currentPair (cur : nodeCursor) : Except Fault nodePair := getPair cur.nd cur.idx

/-- The loop of `newCursorAtStart`. -/
def newCursorAtStartLoop (nrw : NodeStore) : Nat → nodeCursor → Except Fault nodeCursor
  | 0, _ => .error .fuel
  | fuel + 1, cur =>
    if cur.isLeaf then .ok cur
    else do
      let pr ← cur.currentPair getPair
      let nd ← fetchChild nrw pr.value
      newCursorAtStartLoop nrw fuel (.child ⟨nd, 0, nrw⟩ cur)

/-- The constructor `newCursorAtStart`. -/
def newCursorAtStart (fuel : Nat) (nrw : NodeStore) (nd : Node) : Except Fault nodeCursor :=
  newCursorAtStartLoop getPair nrw fuel (.root ⟨nd, 0, nrw⟩)

/-- The loop of `newCursorAtEnd`. -/
def newCursorAtEndLoop (nrw : NodeStore) : Nat → nodeCursor → Except Fault nodeCursor
  | 0, _ => .error .fuel
  | fuel + 1, cur =>
    if cur.isLeaf then .ok cur
    else do
      let pr ← cur.currentPair getPair
      let nd ← fetchChild nrw pr.value
      newCursorAtEndLoop nrw fuel (nodeCursor.child ⟨nd, 0, nrw⟩ cur).skipToNodeEnd

/-- The constructor `newCursorAtEnd`. -/
def newCursorAtEnd (fuel : Nat) (nrw : NodeStore) (nd : Node) : Except Fault nodeCursor :=
  newCursorAtEndLoop getPair nrw fuel (nodeCursor.root ⟨nd, 0, nrw⟩).skipToNodeEnd

/-- The loop of `newCursorAtItem`. -/
def newCursorAtItemLoop (nrw : NodeStore) (item : nodeItem) (search : searchFn) :
    Nat → nodeCursor → Except Fault nodeCursor
  | 0, _ => .error .fuel
  | fuel + 1, cur =>
    if cur.isLeaf then .ok cur
    else do
      let cur := cur.keepInBounds
      let pr ← cur.currentPair getPair
      let nd ← fetchChild nrw pr.value
      newCursorAtItemLoop nrw item search fuel (.child ⟨nd, search item nd, nrw⟩ cur)

/-- The constructor `newCursorAtItem`. -/
def newCursorAtItem (fuel : Nat) (nrw : NodeStore) (nd : Node) (item : nodeItem)
    (search : searchFn) : Except Fault nodeCursor :=
  newCursorAtItemLoop getPair nrw item search fuel (.root ⟨nd, search item nd, nrw⟩)

/-- The method `nodeCursor.fetchNode`: reload the node from the parent's current
pair and leave `idx = -1` for the caller to set. -/
def nodeCursor.fetchNode : nodeCursor → Except Fault nodeCursor
  | .root _ => .error .assertion
  | .child f p => do
    let pr ← p.currentPair getPair
    let nd ← fetchChild f.nrw pr.value
    pure (.child { f with nd := nd, idx := -1 } p)

/-- The method `nodeCursor.advanceInBounds`. -/
def nodeCursor.advanceInBounds : nodeCursor → Except Fault (Bool × nodeCursor)
  | .root f =>
    if f.idx < f.nd.nodeCount - stride then .ok (true, .root { f with idx := f.idx + stride })
    else if f.idx = f.nd.nodeCount then .ok (false, .root f)
    else do
      assertTrue (f.idx == f.nd.nodeCount - stride)
      pure (false, .root f)
  | .child f p =>
    if f.idx < f.nd.nodeCount - stride then .ok (true, .child { f with idx := f.idx + stride } p)
    else if f.idx = f.nd.nodeCount then .ok (false, .child f p)
    else do
      assertTrue (f.idx == f.nd.nodeCount - stride)
      let (ok, p1) ← nodeCursor.advanceInBounds p
      if ok then do
        let c1 ← nodeCursor.fetchNode getPair (.child f p1)
        pure (true, c1.skipToNodeStart)
      else pure (false, .child f p1)

/-- The method `nodeCursor.advance`. -/
def nodeCursor.advance (cur : nodeCursor) : Except Fault (Bool × nodeCursor) := do
  let (ok, c1) ← cur.advanceInBounds getPair
  if !ok then pure (false, c1.setIdx c1.nd.nodeCount) else pure (true, c1)

/-- The method `nodeCursor.retreatInBounds`. -/
def nodeCursor.retreatInBounds : nodeCursor → Except Fault (Bool × nodeCursor)
  | .root f =>
    if f.idx > 0 then .ok (true, .root { f with idx := f.idx - stride })
    else if f.idx = -stride then .ok (false, .root f)
    else do
      assertTrue (f.idx == 0)
      pure (false, .root f)
  | .child f p =>
    if f.idx > 0 then .ok (true, .child { f with idx := f.idx - stride } p)
    else if f.idx = -stride then .ok (false, .child f p)
    else do
      assertTrue (f.idx == 0)
      let (ok, p1) ← nodeCursor.retreatInBounds p
      if ok then do
        let c1 ← nodeCursor.fetchNode getPair (.child f p1)
        pure (true, c1.skipToNodeEnd)
      else pure (false, .child f p1)

/-- The method `nodeCursor.retreat`. -/
def nodeCursor.retreat (cur : nodeCursor) : Except Fault (Bool × nodeCursor) := do
  let (ok, c1) ← cur.retreatInBounds getPair
  if !ok then pure (false, c1.setIdx (-stride)) else pure (true, c1)

/-- The method `nodeCursor.seek`. The second bound test is only evaluated when the
first one holds (`&&`). -/
def nodeCursor.seek (item : nodeItem) (cb : compareFn) : nodeCursor → Except Fault nodeCursor
  | .root f => do
    let i ← (nodeCursor.root f).search item cb
    pure (.root { f with idx := i })
  | .child f p => do
    let k0 ← f.nd.getItem 0
    let inBounds ← (if cb item k0 ≥ 0 then (do
        let k1 ← f.nd.getItem (f.nd.nodeCount - stride)
        pure (decide (cb item k1 ≤ 0)))
      else pure false)
    if !inBounds then do
      let p1 ← nodeCursor.seek item cb p
      let p2 := p1.keepInBounds
      let pr ← p2.currentPair getPair
      let nd ← fetchChild f.nrw pr.value
      let i ← (nodeCursor.child { f with nd := nd } p2).search item cb
      pure (.child { f with nd := nd, idx := i } p2)
    else do
      let i ← (nodeCursor.child f p).search item cb
      pure (.child { f with idx := i } p)

/-- The inner loop of `newCursorAtIndex`: move right while the remaining distance
is at least the count of the current pair. -/
def newCursorAtIndexSkip : Nat → nodeCursor → Nat → nodeItem → Except Fault (nodeCursor × Nat × nodeItem)
  | 0, _, _, _ => .error .fuel
  | fuel + 1, cur, distance, mv =>
    if distance ≥ GetCumulativeCount mv then do
      let (_, c1) ← cur.advance getPair
      let d1 := distance - GetCumulativeCount mv
      let pr ← c1.currentPair getPair
      newCursorAtIndexSkip fuel c1 d1 pr.value
    else .ok (cur, distance, mv)

/-- The outer loop of `newCursorAtIndex`; it returns the cursor and the distance left. -/
def newCursorAtIndexLoop (nrw : NodeStore) : Nat → nodeCursor → Nat → Except Fault (nodeCursor × Nat)
  | 0, _, _ => .error .fuel
  | fuel + 1, cur, distance =>
    if cur.isLeaf then .ok (cur, distance)
    else do
      let pr ← cur.currentPair getPair
      let (c1, d1, mv) ← newCursorAtIndexSkip getPair (fuel + 1) cur distance pr.value
      let nd ← fetchChild nrw mv
      newCursorAtIndexLoop nrw fuel (.child ⟨nd, 0, nrw⟩ c1) d1

/-- The constructor `newCursorAtIndex`. `idx` is a `uint64`, a number below `2^64`,
and the leaf index is the conversion `int(distance)`, negative from `2^63` on. The
item count of a Go node is an `int` (the result type of `nodeCount`); for a leaf of
`2^63` items or more, which Go cannot hold, the distance is kept as it is. -/
def newCursorAtIndex (fuel : Nat) (nrw : NodeStore) (nd : Node) (idx : Nat) : Except Fault nodeCursor := do
  let (cur, distance) ← newCursorAtIndexLoop getPair nrw fuel (.root ⟨nd, 0, nrw⟩) idx
  pure (cur.setIdx (if cur.nd.nodeCount < 2 ^ 63 then intOfUint64 distance else (distance : Int)))

end Ops

/-! ## The tree a cursor moves over -/

/-- The pairs of an item sequence: items `2i` and `2i+1` form pair `i`. -/
def pairUp : List nodeItem → List nodePair
  | k :: v :: rest => ⟨k, v⟩ :: pairUp rest
  | _ => []

/-- The pairs of a node, in order. -/
def Node.pairs (nd : Node) : List nodePair := pairUp nd.items

/-- The leaf pairs below one pair of a node at level `L`: the pair itself on a
leaf, otherwise the leaf pairs of the node its value refers to. -/
def under (nrw : NodeStore) : Nat → nodePair → List nodePair
  | 0, pr => [pr]
  | L + 1, pr =>
    match fetchChild nrw pr.value with
    | .ok c => c.pairs.flatMap (under nrw L)
    | .error _ => []

/-- The leaf pairs of the tree below a node at level `L`, left to right. -/
def leafPairs (nrw : NodeStore) (L : Nat) (nd : Node) : List nodePair :=
  nd.pairs.flatMap (under nrw L)

/-- Structural well-formedness of the tree below a node at level `L`. -/
def WellFormed (nrw : NodeStore) : Nat → Node → Prop
  | 0, nd => nd.level = 0 ∧ nd.items ≠ [] ∧ nd.items.length % 2 = 0
  | L + 1, nd => nd.level = L + 1 ∧ nd.items ≠ [] ∧ nd.items.length % 2 = 0 ∧
      ∀ pr ∈ nd.pairs, ∃ c, fetchChild nrw pr.value = .ok c ∧ WellFormed nrw L c

/-- The cursor's own frame is on pair `k` of its node. -/
def nodeCursor.onPair (c : nodeCursor) (k : Nat) : Prop :=
  c.idx = 2 * (k : Int) ∧ k < c.nd.pairs.length

/-- The chain of frames lies over a well-formed tree read through `nrw`: the top
frame holds a well-formed node of level `L + depth`, every parent frame is on a
pair of its node, and every frame below holds the node that pair refers to. -/
def nodeCursor.Over (nrw : NodeStore) : Nat → nodeCursor → Prop
  | L, .root f => f.nrw = nrw ∧ WellFormed nrw L f.nd
  | L, .child f p => f.nrw = nrw ∧ nodeCursor.Over nrw (L + 1) p ∧
      ∃ (k : Nat) (pr : nodePair), p.idx = 2 * (k : Int) ∧ p.nd.pairs[k]? = some pr ∧
        fetchChild nrw pr.value = .ok f.nd

/-- The node of the top frame. -/
def nodeCursor.rootNode : nodeCursor → Node
  | .root f => f.nd
  | .child _ p => p.rootNode

/-- Index of the pair the frame is on. -/
def nodeCursor.pairIdx (c : nodeCursor) : Nat := (c.idx / 2).toNat

/-- Leaf pairs below the current pair of the frame. -/
def nodeCursor.here (nrw : NodeStore) (L : Nat) (c : nodeCursor) : List nodePair :=
  match c.nd.pairs[c.pairIdx]? with
  | some pr => under nrw L pr
  | none => []

/-- Leaf pairs of the tree that lie before the current pair. -/
def nodeCursor.before (nrw : NodeStore) : Nat → nodeCursor → List nodePair
  | L, .root f => (f.nd.pairs.take (f.idx / 2).toNat).flatMap (under nrw L)
  | L, .child f p =>
    nodeCursor.before nrw (L + 1) p ++ (f.nd.pairs.take (f.idx / 2).toNat).flatMap (under nrw L)

/-- Leaf pairs of the tree that lie after the current pair. -/
def nodeCursor.after (nrw : NodeStore) : Nat → nodeCursor → List nodePair
  | L, .root f => (f.nd.pairs.drop ((f.idx / 2).toNat + 1)).flatMap (under nrw L)
  | L, .child f p =>
    (f.nd.pairs.drop ((f.idx / 2).toNat + 1)).flatMap (under nrw L) ++ nodeCursor.after nrw (L + 1) p

/-- The contract of `Node.getPair` that the cursor relies on: called with an item
index, it returns the items at that index and the next one. -/
def PairsByItem (getPair : Node → Int → Except Fault nodePair) : Prop :=
  ∀ nd i, getPair nd i = nd.pairAt i

/-- Read the key of the current pair, then call `advance`; repeated `n` times.
Returns the keys read and the results of the `advance` calls. -/
def scanForward (getPair : Node → Int → Except Fault nodePair) :
    Nat → nodeCursor → Except Fault (List nodeItem × List Bool)
  | 0, _ => .ok ([], [])
  | n + 1, c => do
    let pr ← c.currentPair getPair
    let (b, c1) ← c.advance getPair
    let (ks, bs) ← scanForward getPair n c1
    pure (pr.key :: ks, b :: bs)

/-- Read the key of the current pair, then call `retreat`; repeated `n` times. -/
def scanBackward (getPair : Node → Int → Except Fault nodePair) :
    Nat → nodeCursor → Except Fault (List nodeItem × List Bool)
  | 0, _ => .ok ([], [])
  | n + 1, c => do
    let pr ← c.currentPair getPair
    let (b, c1) ← c.retreat getPair
    let (ks, bs) ← scanBackward getPair n c1
    pure (pr.key :: ks, b :: bs)

/-- The keys of the leaf pairs of the tree, left to right. -/
def leafKeys (nrw : NodeStore) (L : Nat) (nd : Node) : List nodeItem :=
  (leafPairs nrw L nd).map (·.key)

/-- The keys of the tree are strictly increasing under the comparator. -/
def KeysIncreasing (cmp : compareFn) (nrw : NodeStore) (L : Nat) (nd : Node) : Prop :=
  (leafKeys nrw L nd).Pairwise (fun a b => cmp a b < 0)

/-- The byte comparator of the scenarios: `bytes.Compare`. -/
def bytesCompare : compareFn
  | [], [] => 0
  | [], _ :: _ => -1
  | _ :: _, [] => 1
  | a :: as, b :: bs => if a < b then -1 else if b < a then 1 else bytesCompare as bs

/-- A comparator of a total order on items: reflexive, sign-symmetric, transitive, and
zero only on equal items. -/
structure LawfulCompare (cmp : compareFn) : Prop where
  refl : ∀ a, cmp a a = 0
  flip : ∀ a b, cmp a b < 0 ↔ 0 < cmp b a
  trans : ∀ a b c, cmp a b ≤ 0 → cmp b c ≤ 0 → cmp a c ≤ 0
  eq : ∀ a b, cmp a b = 0 → a = b

/-- The keys of a node are strictly increasing under the comparator. -/
def Node.KeysSorted (cmp : compareFn) (nd : Node) : Prop :=
  (nd.pairs.map (·.key)).Pairwise (fun a b => cmp a b < 0)

/-- The index `r` is the lower bound of `item` among the keys of the node: `r = 2i`
where every pair before `i` has a key below `item` and pair `i`, if there is one,
has a key that is not below `item`. -/
def IsLowerBound (cmp : compareFn) (item : nodeItem) (nd : Node) (r : Int) : Prop :=
  ∃ i : Nat, r = 2 * (i : Int) ∧ i ≤ nd.pairs.length ∧
    (∀ j pr, j < i → nd.pairs[j]? = some pr → 0 < cmp item pr.key) ∧
    (∀ pr, nd.pairs[i]? = some pr → cmp item pr.key ≤ 0)

/-- The parent/child invariant of a cursor: at every frame with a parent, reading
the store through the ref in the value of the parent's current pair gives the node
of the frame. -/
def nodeCursor.Linked (getPair : Node → Int → Except Fault nodePair) : nodeCursor → Prop
  | .root _ => True
  | .child f p =>
    (do let pr ← p.currentPair getPair; fetchChild f.nrw pr.value) = .ok f.nd ∧
      nodeCursor.Linked getPair p

/-- The own frame of the cursor is in one of the three states of the frame state
machine: before the start, on a pair, or past the end. -/
def nodeCursor.InState (c : nodeCursor) : Prop :=
  c.idx = -stride ∨ (∃ k, c.onPair k) ∨ c.idx = c.nd.nodeCount

/-- Call `advance` up to `n` times, stopping at the first call that returns false;
the boolean tells whether all `n` calls returned true. -/
def advanceTimes (getPair : Node → Int → Except Fault nodePair) :
    Nat → nodeCursor → Except Fault (Bool × nodeCursor)
  | 0, c => .ok (true, c)
  | n + 1, c => do
    let (b, c1) ← c.advance getPair
    if b then advanceTimes getPair n c1 else pure (false, c1)

/-- Call `retreat` up to `n` times, stopping at the first call that returns false;
the boolean tells whether all `n` calls returned true. -/
def retreatTimes (getPair : Node → Int → Except Fault nodePair) :
    Nat → nodeCursor → Except Fault (Bool × nodeCursor)
  | 0, c => .ok (true, c)
  | n + 1, c => do
    let (b, c1) ← c.retreat getPair
    if b then retreatTimes getPair n c1 else pure (false, c1)

/-- The cumulative counts of the tree count leaf items, two for every leaf pair, as
the comment on `GetCumulativeCount` says ("the cumulative number of nodeItems
within the subtree"). -/
def CountsInItems (nrw : NodeStore) : Nat → Node → Prop
  | 0, _ => True
  | L + 1, nd => ∀ pr ∈ nd.pairs, ∃ c, fetchChild nrw pr.value = .ok c ∧
      GetCumulativeCount pr.value = 2 * (leafPairs nrw L c).length ∧ CountsInItems nrw L c

/-- The cumulative counts of the tree count leaf pairs, as the specification reads them. -/
def CountsInPairs (nrw : NodeStore) : Nat → Node → Prop
  | 0, _ => True
  | L + 1, nd => ∀ pr ∈ nd.pairs, ∃ c, fetchChild nrw pr.value = .ok c ∧
      GetCumulativeCount pr.value = (leafPairs nrw L c).length ∧ CountsInPairs nrw L c

/-- The boundary key of every internal pair is the last key of the subtree its
value refers to. -/
def BoundaryKeys (nrw : NodeStore) : Nat → Node → Prop
  | 0, _ => True
  | L + 1, nd => ∀ pr ∈ nd.pairs, ∃ c, fetchChild nrw pr.value = .ok c ∧
      (leafKeys nrw L c).getLast? = some pr.key ∧ BoundaryKeys nrw L c

/-- A well-formed prolly tree in the sense of the specification: well-formed
structure, strictly increasing keys, and boundary keys that are the last keys of
the subtrees. -/
def SearchTree (cmp : compareFn) (nrw : NodeStore) (L : Nat) (nd : Node) : Prop :=
  WellFormed nrw L nd ∧ KeysIncreasing cmp nrw L nd ∧ BoundaryKeys nrw L nd

/-- The frame of the cursor is at the lower bound of `item`: its index is `2i` with
`i` at most the number of pairs, every leaf key before the position is below
`item`, every leaf key after the current pair is not below it, the key of the
current pair (if the frame is on one) is not below it, and a frame past the end
of its node has nothing of the tree after it. -/
def nodeCursor.LowerBoundAt (cmp : compareFn) (nrw : NodeStore) (item : nodeItem) (L : Nat)
    (c : nodeCursor) : Prop :=
  ∃ i : Nat, c.idx = 2 * (i : Int) ∧ i ≤ c.nd.pairs.length ∧
    (∀ q ∈ c.before nrw L, 0 < cmp item q.key) ∧
    (∀ q ∈ c.after nrw L, cmp item q.key ≤ 0) ∧
    (∀ pr, c.nd.pairs[i]? = some pr → cmp item pr.key ≤ 0) ∧
    (i = c.nd.pairs.length → c.after nrw L = [])

/-- A `searchFn` that searches a node the way `nodeCursor.search` does, with the
comparator `cb`; the store of the frame it goes through is never read. -/
def searchOf (cb : compareFn) : searchFn := fun item nd =>
  match (nodeCursor.root ⟨nd, 0, ⟨fun _ => .error .runtime, fun _ => .error .runtime⟩⟩).search
    item cb with
  | .ok r => r
  | .error _ => 0

/-! ## node_cursor.go: `newLeafCursorAtItem` and `copy` -/

/-- The loop of `newLeafCursorAtItem`: the one frame of the cursor is reused, its
node is replaced by the child and its index by the result of the search there. -/
def newLeafCursorAtItemLoop (getPair : Node → Int → Except Fault nodePair) (nrw : NodeStore)
    (item : nodeItem) (search : searchFn) : Nat → nodeCursor → Except Fault nodeCursor
  | 0, _ => .error .fuel
  | fuel + 1, cur =>
    if cur.isLeaf then .ok cur
    else do
      let cur := cur.keepInBounds
      let pr ← cur.currentPair getPair
      let nd ← fetchChild nrw pr.value
      newLeafCursorAtItemLoop getPair nrw item search fuel ((cur.setNd nd).setIdx (search item nd))

/-- The constructor `newLeafCursorAtItem`. -/
def newLeafCursorAtItem (getPair : Node → Int → Except Fault nodePair) (fuel : Nat)
    (nrw : NodeStore) (nd : Node) (item : nodeItem) (search : searchFn) :
    Except Fault nodeCursor :=
  newLeafCursorAtItemLoop getPair nrw item search fuel (.root ⟨nd, search item nd, nrw⟩)

/-- The method `nodeCursor.copy`: the fields of every frame of `other` are assigned
to the frame of the receiver at the same height; the result is the receiver after
the assignments. Only fields of the receiver's frames are assigned, `other` is
read. The two assertions fail when one chain ends before the other. -/
def nodeCursor.copy : nodeCursor → nodeCursor → Except Fault nodeCursor
  | .root _, .root g => .ok (.root ⟨g.nd, g.idx, g.nrw⟩)
  | .root _, .child _ _ => .error .assertion
  | .child _ _, .root _ => .error .assertion
  | .child _ p, .child g q => do
    let p1 ← nodeCursor.copy p q
    pure (.child ⟨g.nd, g.idx, g.nrw⟩ p1)

/-! ## Index sequences, frame states and counts -/

/-- Modelled from the spec: `Node.getPair` as rule P1 of the specification words
it, with a pair index: `getPair(i) = (getItem(2i), getItem(2i+1))`. -/
def Node.getPairP1 (nd : Node) (i : Int) : Except Fault nodePair := nd.pairAt (2 * i)

/-- The indexes of the frames of a cursor, from the root frame down to its own. -/
def nodeCursor.idxs : nodeCursor → List Int
  | .root f => [f.idx]
  | .child f p => p.idxs ++ [f.idx]

/-- Lexicographic comparison of two index sequences: the difference at the first
position where they differ, 0 when there is none. -/
def lexDiff : List Int → List Int → Int
  | x :: xs, y :: ys => if x ≠ y then x - y else lexDiff xs ys
  | _, _ => 0

/-- Every idx of the cursor lies between `-stride` and `math.MaxInt64 - 2`, as do
the idx of frames in the three states of the frame state machine over nodes of at
most `math.MaxInt64 - 2` items. The difference of two such idx is a Go int. -/
def nodeCursor.IdxInRange (c : nodeCursor) : Prop :=
  ∀ i ∈ c.idxs, -stride ≤ i ∧ i ≤ 2 ^ 63 - 3

/-- Every frame of the cursor reads through the store `nrw`. -/
def nodeCursor.Through (nrw : NodeStore) : nodeCursor → Prop
  | .root f => f.nrw = nrw
  | .child f p => f.nrw = nrw ∧ nodeCursor.Through nrw p

/-- Every frame of the cursor reads through `nrw`, holds a well-formed node of the
tree (of level `L` for the own frame and one more for every step to a parent) and
is in one of the three states of the frame state machine. -/
def nodeCursor.FramesInState (nrw : NodeStore) : Nat → nodeCursor → Prop
  | L, .root f => f.nrw = nrw ∧ WellFormed nrw L f.nd ∧ (nodeCursor.root f).InState
  | L, .child f p => f.nrw = nrw ∧ WellFormed nrw L f.nd ∧ (nodeCursor.child f p).InState ∧
      nodeCursor.FramesInState nrw (L + 1) p

/-- Modelled from the spec: `Node.cumulativeCount` of an internal node, the sum of
the counts in the values of its pairs. -/
def Node.internalCount (nd : Node) : Nat :=
  (nd.pairs.map fun pr => GetCumulativeCount pr.value).sum

/-! ## meta_tuple.go: `writeNewChild` -/

/-- Modelled from the spec: `makeProllyNode(pool, level, items...)`, the node with
that level and those items. -/
def makeProllyNode (level : Nat) (items : List nodeItem) : Node := ⟨level, items⟩

def metaPairCount : Nat := 2

/-- The function `writeNewChild`. `Node.cumulativeCount` is not part of the sources
and is the parameter `cumulativeCount`; `val.CloneTuple` copies the bytes of the
key; the index `len(items) - metaPairCount` is out of range for a single item. -/
def writeNewChild (cumulativeCount : Node → Nat) (ns : NodeStore) (level : Nat)
    (items : List nodeItem) : Except Fault (Node × nodePair) := do
  let child := makeProllyNode level items
  let ref ← ns.Write child
  if items.length = 0 then pure (child, ⟨[], []⟩)
  else do
    let lastKey ← (if items.length < metaPairCount then .error .runtime
      else (items[items.length - metaPairCount]?).elim (.error .runtime) .ok :
        Except Fault nodeItem)
    let metaKey := lastKey
    let metaVal := newMetaValue (cumulativeCount child) ref
    pure (child, ⟨metaKey, metaVal⟩)

/-! ## diff_table.go -/

def diffTypeAdded : String := "added"

def diffTypeModified : String := "modified"

def diffTypeRemoved : String := "removed"

/-- A dolt row as far as `diffRowItr.Next` handles it: the values of its columns by tag. -/
abbrev Row := List (Nat × String)

/-- The type `sql.Row`, a slice of column values. -/
abbrev SqlRow := List String

/-- The struct `commitInfo`; `date` may be nil. -/
structure commitInfo where
  name : String
  date : Option String
  nameTag : Nat
  dateTag : Nat

/-- The struct `diffRowItr`. The diff source, the joiner and the row conversions are
not part of the sources, so the iterator carries them as functions: `NextDiff`
for `itr.diffSrc.NextDiff()` on the state `diffSrc` of the source, `Split` for
`itr.joiner.Split`, whose map is given by its entries at the keys `diff.To` and
`diff.From`, `SetColVal` for `Row.SetColVal` with the schema of the iterator,
and `DoltRowToSqlRow` for `sqlutil.DoltRowToSqlRow`. -/
structure diffRowItr (Src : Type) where
  diffSrc : Src
  NextDiff : Src → Except String (Row × Src)
  Split : Row → Except String (Option Row × Option Row)
  SetColVal : Row → Nat → String → Except String Row
  DoltRowToSqlRow : Row → Except String SqlRow
  fromCommitInfo : commitInfo
  toCommitInfo : commitInfo

/-- The method `diffRowItr.Next`; it returns the row and the iterator with the state
the diff source is left in. -/
def diffRowItr.Next {Src : Type} (itr : diffRowItr Src) :
    Except String (SqlRow × diffRowItr Src) := do
  let (r, src) ← itr.NextDiff itr.diffSrc
  let toAndFromRows ← itr.Split r
  let hasTo := toAndFromRows.1.isSome
  let hasFrom := toAndFromRows.2.isSome
  let r ← itr.SetColVal r itr.toCommitInfo.nameTag itr.toCommitInfo.name
  let r ← itr.SetColVal r itr.fromCommitInfo.nameTag itr.fromCommitInfo.name
  let r ← (match itr.toCommitInfo.date with
    | some d => itr.SetColVal r itr.toCommitInfo.dateTag d
    | none => pure r)
  let r ← (match itr.fromCommitInfo.date with
    | some d => itr.SetColVal r itr.fromCommitInfo.dateTag d
    | none => pure r)
  let sqlRow ← itr.DoltRowToSqlRow r
  let sqlRow :=
    if hasTo && hasFrom then sqlRow ++ [diffTypeModified]
    else if hasTo && !hasFrom then sqlRow ++ [diffTypeAdded]
    else sqlRow ++ [diffTypeRemoved]
  pure (sqlRow, { itr with diffSrc := src })

/-! ## Cursor structs in memory

The cursor operations above pass cursor values. `clone` is about which structs
two cursors share, so here the structs live in a memory and `parent` is an
address. -/

/-- A `nodeCursor` struct in memory: the fields `nd`, `idx`, `nrw`, and the pointer
`parent` as the address of another struct, or nil. -/
structure Cell where
  frame : Frame
  parent : Option Nat

/-- The memory that holds the cursor structs: an address is a position in the
list, a new struct is put at the end. -/
abbrev Heap := List Cell

/-- The cursor that the struct at address `a` stands for, read through the parent
pointers; `n` bounds the length of the chain. -/
def Heap.load (h : Heap) : Nat → Nat → Option nodeCursor
  | 0, _ => none
  | n + 1, a =>
    match h[a]? with
    | none => none
    | some cell =>
      match cell.parent with
      | none => some (.root cell.frame)
      | some p => (Heap.load h n p).map (.child cell.frame)

/-- The addresses of the structs of the cursor at address `a`, its own first. -/
def Heap.chain (h : Heap) : Nat → Nat → List Nat
  | 0, _ => []
  | n + 1, a =>
    match h[a]? with
    | none => []
    | some cell =>
      match cell.parent with
      | none => [a]
      | some p => a :: Heap.chain h n p

/-- The method `nodeCursor.clone` on the struct at address `a`: a new struct `cln`
with the fields of the receiver and a nil parent; when the receiver has a parent,
`cln.parent` is set to the clone of that parent. The result is the memory after
the call and the address `&cln`. -/
def Heap.clone (h : Heap) : Nat → Nat → Option (Heap × Nat)
  | 0, _ => none
  | n + 1, a =>
    match h[a]? with
    | none => none
    | some cur =>
      let cln := h.length
      let h0 := h ++ [⟨cur.frame, none⟩]
      match cur.parent with
      | none => some (h0, cln)
      | some p =>
        match Heap.clone h0 n p with
        | none => none
        | some (h1, p1) => some (h1.set cln ⟨cur.frame, some p1⟩, cln)

/-- The memory after a method has assigned the fields of the frames of `c` to the
structs at the addresses `as`, the own frame first. The methods of the cursor
assign to `nd`, `idx` and `nrw` of the receiver and of its parents; no method
assigns to a `parent` pointer. -/
def Heap.store (h : Heap) : List Nat → nodeCursor → Heap
  | [], _ => h
  | a :: _, .root f =>
    match h[a]? with
    | none => h
    | some cell => h.set a { cell with frame := f }
  | a :: as, .child f p =>
    match h[a]? with
    | none => h
    | some cell => Heap.store (h.set a { cell with frame := f }) as p

/-! ## Ancestor frames, levels and readable trees -/

/-- The frame `k` steps up the parent chain; the top frame when the chain is shorter. -/
def nodeCursor.up : Nat → nodeCursor → nodeCursor
  | 0, c => c
  | _ + 1, .root f => .root f
  | k + 1, .child _ p => nodeCursor.up k p

/-- The levels of the nodes in the frames of a cursor, the own frame first. -/
def nodeCursor.levels : nodeCursor → List Nat
  | .root f => [f.nd.level]
  | .child f p => f.nd.level :: p.levels

/-- Every internal node of the tree below `nd`, a node of level `L`, refers only to
readable non-empty nodes one level down. Nothing is asked of the items of `nd`
itself. -/
def ChildrenReadable (nrw : NodeStore) : Nat → Node → Prop
  | 0, nd => nd.level = 0
  | L + 1, nd => nd.level = L + 1 ∧
      ∀ pr ∈ nd.pairs, ∃ c, fetchChild nrw pr.value = .ok c ∧ c.items ≠ [] ∧
        ChildrenReadable nrw L c

/-! ## diff_table.go: the partitions -/

/-- How a call made by the partition iterator can fail: it returns an `error` value,
given by its message, or it panics. -/
inductive DiffFault where
  | error (msg : String)
  | panic
deriving DecidableEq

/-- The error `io.EOF`. -/
def ioEOF : DiffFault := .error "EOF"

/-- The format `PrimaryKeyChangeWarning` filled in by `fmt.Sprintf` with the two
commit names. -/
def PrimaryKeyChangeWarning (fromName toName : String) : String :=
  "cannot render full diff between commits " ++ fromName ++ " and " ++ toName ++
    " due to primary key set change"

def PrimaryKeyChanceWarningCode : Nat := 1105

/-- A warning recorded by `ctx.Warn(code, msg)`. -/
structure Warning where
  code : Nat
  msg : String
deriving DecidableEq

/-- A schema as far as the partitions look at it; `schema.Schema` is not part of the
sources. -/
abbrev Schema := List String

/-- A `doltdb.Table` behind a non-nil pointer, given by what `GetSchema` returns. -/
structure Table where
  GetSchema : Except DiffFault Schema

/-- The struct `diffPartition`; its fields `to` and `from`, pointers that may be
nil, are `toTable` and `fromTable` here. -/
structure diffPartition where
  toTable : Option Table
  fromTable : Option Table
  toName : String
  fromName : String
  toDate : Option String
  fromDate : Option String

/-- The method `diffPartition.isDiffablePartition`. `schema.ArePrimaryKeySetsDiffable`
is not part of the sources and is a parameter; `dp.to.GetSchema` on a nil `dp.to`
dereferences nil. -/
def diffPartition.isDiffablePartition (ArePrimaryKeySetsDiffable : Schema → Schema → Bool)
    (dp : diffPartition) : Except DiffFault Bool :=
  match dp.fromTable with
  | none => .ok true
  | some fromTbl =>
    match fromTbl.GetSchema with
    | .error e => .error e
    | .ok fromSch =>
      match dp.toTable with
      | none => .error .panic
      | some toTbl =>
        match toTbl.GetSchema with
        | .error e => .error e
        | .ok toSch => .ok (ArePrimaryKeySetsDiffable fromSch toSch)

/-- A `doltdb.RootValue`, given by what its two methods return for a table name. -/
structure RootValue where
  GetTableInsensitive : String → Except DiffFault (Option Table)
  GetTableHash : String → Except DiffFault Hash

/-- A `doltdb.Commit`, given by what its methods return; of the commit meta only
the time is used. A commit hash is given by its string `cmHash.String()`. -/
structure Commit where
  GetRootValue : Except DiffFault RootValue
  GetCommitMeta : Except DiffFault String
  ParentHashes : Except DiffFault (List String)

/-- The struct `tblInfoAtCommit`. -/
structure tblInfoAtCommit where
  name : String
  date : Option String
  tbl : Option Table
  tblHash : Hash

/-- The struct `diffPartitions`. The commit iterator is given by the results that
its calls of `Next` still return, after which it returns `io.EOF`; the map
`cmHashToTblInfo` is a function on commit hashes. -/
structure diffPartitions where
  tblName : String
  cmItr : List (Except DiffFault (String × Commit))
  cmHashToTblInfo : String → tblInfoAtCommit
  selectFunc : diffPartition → Except DiffFault Bool

/-- The method `diffPartitions.processCommit`; it returns the partition, or nil, and
the iterator with the new entries of the map. -/
def diffPartitions.processCommit (dp : diffPartitions) (cmHash : String) (cm : Commit)
    (root : RootValue) (tbl : Option Table) :
    Except DiffFault (Option diffPartition × diffPartitions) := do
  let tblHash ← root.GetTableHash dp.tblName
  let toInfoForCommit := dp.cmHashToTblInfo cmHash
  let cmHashStr := cmHash
  let ts ← cm.GetCommitMeta
  let nextPartition ← (if tblHash ≠ toInfoForCommit.tblHash then do
      let partition : diffPartition :=
        ⟨toInfoForCommit.tbl, tbl, toInfoForCommit.name, cmHashStr, toInfoForCommit.date, some ts⟩
      let selected ← dp.selectFunc partition
      pure (if selected then some partition else none)
    else pure none)
  let newInfo : tblInfoAtCommit := ⟨cmHashStr, some ts, tbl, tblHash⟩
  let parentHashes ← cm.ParentHashes
  pure (nextPartition, { dp with
    cmHashToTblInfo := fun h => if h ∈ parentHashes then newInfo else dp.cmHashToTblInfo h })

/-- The loop of `diffPartitions.Next` over the results the commit iterator still
returns. The result is what `Next` returns, the iterator it leaves, and the
warnings of the context. -/
def diffPartitions.NextLoop (ArePrimaryKeySetsDiffable : Schema → Schema → Bool) :
    List (Except DiffFault (String × Commit)) → diffPartitions → List Warning →
      Except DiffFault diffPartition × diffPartitions × List Warning
  | [], dp, ws => (.error ioEOF, { dp with cmItr := [] }, ws)
  | .error e :: rest, dp, ws => (.error e, { dp with cmItr := rest }, ws)
  | .ok (cmHash, cm) :: rest, dp, ws =>
    match cm.GetRootValue with
    | .error e => (.error e, { dp with cmItr := rest }, ws)
    | .ok root =>
      match root.GetTableInsensitive dp.tblName with
      | .error e => (.error e, { dp with cmItr := rest }, ws)
      | .ok tbl =>
        match diffPartitions.processCommit { dp with cmItr := rest } cmHash cm root tbl with
        | .error e => (.error e, { dp with cmItr := rest }, ws)
        | .ok (none, dp1) => diffPartitions.NextLoop ArePrimaryKeySetsDiffable rest dp1 ws
        | .ok (some next, dp1) =>
          match next.isDiffablePartition ArePrimaryKeySetsDiffable with
          | .error e => (.error e, dp1, ws)
          | .ok canDiff =>
            if !canDiff then
              (.error ioEOF, dp1, ws ++ [⟨PrimaryKeyChanceWarningCode,
                PrimaryKeyChangeWarning next.fromName next.toName⟩])
            else (.ok next, dp1, ws)

/-- The method `diffPartitions.Next`, with the warnings of the context before the call. -/
def diffPartitions.Next (ArePrimaryKeySetsDiffable : Schema → Schema → Bool)
    (dp : diffPartitions) (ws : List Warning) :
    Except DiffFault diffPartition × diffPartitions × List Warning :=
  diffPartitions.NextLoop ArePrimaryKeySetsDiffable dp.cmItr dp ws

/-- The next selected partition: the partition of the first commit for which
`processCommit` hands one back, with the iterator as it is then; an error when a
call fails before that or the commits run out. -/
def diffPartitions.selected :
    List (Except DiffFault (String × Commit)) → diffPartitions →
      Except DiffFault (diffPartition × diffPartitions)
  | [], _ => .error ioEOF
  | .error e :: _, _ => .error e
  | .ok (cmHash, cm) :: rest, dp =>
    match cm.GetRootValue with
    | .error e => .error e
    | .ok root =>
      match root.GetTableInsensitive dp.tblName with
      | .error e => .error e
      | .ok tbl =>
        match diffPartitions.processCommit { dp with cmItr := rest } cmHash cm root tbl with
        | .error e => .error e
        | .ok (none, dp1) => diffPartitions.selected rest dp1
        | .ok (some next, dp1) => .ok (next, dp1)

/-! ## Examples -/

/-- The hash under which the scenario store keeps leaf `k`. -/
def exHash (k : Nat) : Hash := List.replicate 19 0 ++ [k]

/-- Leaf `k` of the scenario tree: two pairs, with the keys `a..j` spread over five leaves. -/
def exLeaf (k : Nat) : Node := ⟨0, [[97 + 2 * k], [1], [98 + 2 * k], [2]]⟩

/-- The store of the scenario tree. -/
def exStore : NodeStore where
  Read h :=
    match (List.range 5).find? (fun k => exHash k = h) with
    | some k => .ok (exLeaf k)
    | none => .error (.store 0)
  Write _ := .error (.store 1)

/-- The root of the scenario tree of the specification: five leaves with the keys
`a,b | c,d | e,f | g,h | i,j`; every meta value carries the number of pairs of
its leaf. -/
def exRoot : Node :=
  ⟨1, (List.range 5).flatMap fun k => [[98 + 2 * k], newMetaValue 2 (exHash k)]⟩

/-- The cursor over the scenario tree whose root frame is on the pair of leaf `k`
and whose leaf frame holds leaf `k` at item index `i`. -/
def exCursor (k : Nat) (i : Int) : nodeCursor :=
  .child ⟨exLeaf k, i, exStore⟩ (.root ⟨exRoot, 2 * (k : Int), exStore⟩)

/-- The scenario tree with cumulative counts in items: four items in every leaf. -/
def exRootItems : Node :=
  ⟨1, (List.range 5).flatMap fun k => [[98 + 2 * k], newMetaValue 4 (exHash k)]⟩

/-- The cursor over `exRootItems` with the root frame on leaf `k` and the leaf frame
at item index `i`. -/
def exCursorItems (k : Nat) (i : Int) : nodeCursor :=
  .child ⟨exLeaf k, i, exStore⟩ (.root ⟨exRootItems, 2 * (k : Int), exStore⟩)

/-- A store that keeps nothing and answers every write with the hash of leaf 0. -/
def exWriteStore : NodeStore where
  Read _ := .error (.store 0)
  Write _ := .ok (exHash 0)

/-- An iterator over two diff rows of a table with the key column 0 and the value
column 1, joined with the tags 10 and 11 for the `to` side and 20 and 21 for the
`from` side: one row with both sides and one with the `to` side only. -/
def exDiffItr : diffRowItr (List Row) where
  diffSrc := [[(10, "k1"), (11, "new"), (20, "k1"), (21, "old")], [(10, "k2"), (11, "v2")]]
  NextDiff src :=
    match src with
    | [] => .error "EOF"
    | r :: rest => .ok (r, rest)
  Split r :=
    let toRow := r.filter fun c => c.1 / 10 = 1
    let fromRow := r.filter fun c => c.1 / 10 = 2
    .ok (if toRow = [] then none else some toRow, if fromRow = [] then none else some fromRow)
  SetColVal r tag v := .ok (r ++ [(tag, v)])
  DoltRowToSqlRow r := .ok (r.map fun c => c.2)
  fromCommitInfo := ⟨"c1", none, 30, 31⟩
  toCommitInfo := ⟨"c2", some "2021-12-01", 40, 41⟩

/-- The items of an internal node with two children whose counts are `2^47` each. -/
def exBigItems : List nodeItem :=
  [[1], newMetaValue (2 ^ 47) (exHash 0), [2], newMetaValue (2 ^ 47) (exHash 1)]

/-- A memory with the two structs of the cursor on the key `b` of the scenario
tree: the root frame at address 0, the leaf frame at address 1. -/
def exHeap : Heap :=
  [⟨⟨exRoot, 0, exStore⟩, none⟩, ⟨⟨exLeaf 0, 2, exStore⟩, some 0⟩]

/-- An internal node without items. -/
def exEmptyRoot : Node := ⟨1, []⟩

/-- Primary key sets taken as diffable when the two schemas list the same key columns. -/
def exDiffable : Schema → Schema → Bool := fun a b => a == b

/-- A table with the single key column `pk`. -/
def exTable (pk : String) : Table := ⟨.ok [pk]⟩

/-- A commit whose root holds the table with the key column `pk` under the table
hash `[h]`, with the commit time `ts` and the parent commits `parents`. -/
def exCommit (pk : String) (h : Nat) (ts : String) (parents : List String) : Commit :=
  ⟨.ok ⟨fun _ => .ok (some (exTable pk)), fun _ => .ok [h]⟩, .ok ts, .ok parents⟩

/-- The partitions of a table `t` with the key column `id` in the working set and
in the head commit `c2`, and the key column `pk` in the parent commit `c1`. -/
def exPartitions : diffPartitions where
  tblName := "t"
  cmItr := [.ok ("c2", exCommit "id" 2 "day2" ["c1"]), .ok ("c1", exCommit "pk" 1 "day1" [])]
  cmHashToTblInfo := fun h =>
    if h = "c2" then ⟨"WORKING", none, some (exTable "id"), [3]⟩ else ⟨"", none, none, []⟩
  selectFunc := fun _ => .ok true

/-- The first partition of `exPartitions`: the working set against the commit `c2`. -/
def exPartition1 : diffPartition :=
  ⟨some (exTable "id"), some (exTable "id"), "WORKING", "c2", none, some "day2"⟩

/-- The second partition of `exPartitions`: the commit `c2` against the commit `c1`. -/
def exPartition2 : diffPartition :=
  ⟨some (exTable "id"), some (exTable "pk"), "c2", "c1", some "day2", some "day1"⟩

/-- The iterator `exPartitions` after its first partition. -/
def exPartitionsLater : diffPartitions :=
  (exPartitions.Next exDiffable []).2.1

/-! ## Lemmas -/

variable {getPair : Node → Int → Except Fault nodePair}

theorem pairUp_length : ∀ (l : List nodeItem), (pairUp l).length = l.length / 2
  | [] => rfl
  | [_] => by simp [pairUp]
  | _ :: _ :: rest => by
    simp only [pairUp, List.length_cons, pairUp_length rest]
    omega

theorem pairUp_getElem? : ∀ (k : Nat) (l : List nodeItem) (pr : nodePair),
    (pairUp l)[k]? = some pr ↔ l[2 * k]? = some pr.key ∧ l[2 * k + 1]? = some pr.value
  | _, [], pr => by simp [pairUp]
  | _, [_], pr => by simp [pairUp]
  | 0, a :: b :: rest, pr => by
    cases pr
    simp [pairUp]
  | k + 1, a :: b :: rest, pr => by
    have ih := pairUp_getElem? k rest pr
    have e1 : 2 * (k + 1) = (2 * k + 1) + 1 := by ring
    have e2 : 2 * (k + 1) + 1 = (2 * k + 1 + 1) + 1 := by ring
    simp only [pairUp, List.getElem?_cons_succ, e1] 
    simpa using ih


theorem Node.pairs_length (nd : Node) : (nd.pairs.length : Int) = nd.nodeCount / 2 := by
  simp [Node.pairs, pairUp_length, Node.nodeCount]

theorem Node.getItem_natCast (nd : Node) (i : Nat) :
    nd.getItem (i : Int) = (nd.items[i]?).elim (.error .runtime) .ok := by
  have h : ¬ ((i : Int) < 0) := by omega
  simp only [Node.getItem, h, if_false, Int.toNat_ofNat]
  cases nd.items[i]? <;> rfl

theorem Node.pairAt_eq_ok (nd : Node) (k : Nat) (pr : nodePair) :
    nd.pairAt (2 * (k : Int)) = .ok pr ↔ nd.pairs[k]? = some pr := by
  have h1 : (2 * (k : Int)) = ((2 * k : Nat) : Int) := by push_cast; ring
  have h2 : (2 * (k : Int)) + 1 = ((2 * k + 1 : Nat) : Int) := by push_cast; ring
  rw [Node.pairs, pairUp_getElem?, Node.pairAt, h2, h1, Node.getItem_natCast, Node.getItem_natCast]
  cases pr with
  | mk a b =>
  cases h : nd.items[2 * k]? <;> cases h' : nd.items[2 * k + 1]? <;>
    simp [bind, Except.bind, pure, Except.pure]

@[simp] theorem nodeCursor.nd_root (f : Frame) : (nodeCursor.root f).nd = f.nd := rfl
@[simp] theorem nodeCursor.nd_child (f : Frame) (p : nodeCursor) : (nodeCursor.child f p).nd = f.nd := rfl
@[simp] theorem nodeCursor.idx_root (f : Frame) : (nodeCursor.root f).idx = f.idx := rfl
@[simp] theorem nodeCursor.idx_child (f : Frame) (p : nodeCursor) : (nodeCursor.child f p).idx = f.idx := rfl
@[simp] theorem nodeCursor.nd_setIdx (c : nodeCursor) (i : Int) : (c.setIdx i).nd = c.nd := by
  cases c <;> rfl
@[simp] theorem nodeCursor.idx_setIdx (c : nodeCursor) (i : Int) : (c.setIdx i).idx = i := by
  cases c <;> rfl

theorem WellFormed.shape {nrw : NodeStore} : ∀ {L : Nat} {nd : Node}, WellFormed nrw L nd →
    nd.level = L ∧ nd.items ≠ [] ∧ nd.items.length % 2 = 0
  | 0, _, h => h
  | _ + 1, _, h => ⟨h.1, h.2.1, h.2.2.1⟩

theorem WellFormed.pairs_pos {nrw : NodeStore} {L : Nat} {nd : Node} (h : WellFormed nrw L nd) :
    0 < nd.pairs.length := by
  obtain ⟨_, h1, h2⟩ := h.shape
  rw [Node.pairs, pairUp_length]
  have : 0 < nd.items.length := List.length_pos.mpr h1
  omega

theorem WellFormed.nodeCount {nrw : NodeStore} {L : Nat} {nd : Node} (h : WellFormed nrw L nd) :
    nd.nodeCount = 2 * (nd.pairs.length : Int) := by
  obtain ⟨_, _, h2⟩ := h.shape
  rw [Node.pairs, pairUp_length, Node.nodeCount]
  omega

theorem WellFormed.child {nrw : NodeStore} {L : Nat} {nd c : Node} {pr : nodePair} {k : Nat}
    (h : WellFormed nrw (L + 1) nd) (hk : nd.pairs[k]? = some pr)
    (hc : fetchChild nrw pr.value = .ok c) : WellFormed nrw L c := by
  obtain ⟨c1, h1, h2⟩ := h.2.2.2 pr (List.getElem?_mem hk)
  rw [hc] at h1
  cases h1
  exact h2

theorem nodeCursor.Over_root {nrw : NodeStore} {L : Nat} {f : Frame} :
    (nodeCursor.root f).Over nrw L ↔ f.nrw = nrw ∧ WellFormed nrw L f.nd := by
  simp only [nodeCursor.Over]

theorem nodeCursor.Over_child {nrw : NodeStore} {L : Nat} {f : Frame} {p : nodeCursor} :
    (nodeCursor.child f p).Over nrw L ↔ f.nrw = nrw ∧ p.Over nrw (L + 1) ∧
      ∃ (k : Nat) (pr : nodePair), p.idx = 2 * (k : Int) ∧ p.nd.pairs[k]? = some pr ∧
        fetchChild nrw pr.value = .ok f.nd := by
  simp only [nodeCursor.Over]

theorem nodeCursor.Over.wf {nrw : NodeStore} : ∀ {c : nodeCursor} {L : Nat},
    c.Over nrw L → WellFormed nrw L c.nd
  | .root _, _, h => (nodeCursor.Over_root.mp h).2
  | .child _ _, _, h => by
    obtain ⟨_, hp, k, pr, _, hk, hc⟩ := nodeCursor.Over_child.mp h
    exact (nodeCursor.Over.wf hp).child hk hc

theorem nodeCursor.Over.nrw_eq {nrw : NodeStore} {c : nodeCursor} {L : Nat} (h : c.Over nrw L) :
    c.nrw = nrw := by
  cases c with
  | root f => exact (nodeCursor.Over_root.mp h).1
  | child f p => exact (nodeCursor.Over_child.mp h).1

theorem flatMap_drop_succ {α β : Type} (g : α → List β) (l : List α) (k : Nat) (a : α)
    (h : l[k]? = some a) : (l.drop k).flatMap g = g a ++ (l.drop (k + 1)).flatMap g := by
  have hk : k < l.length := by
    by_contra hc
    rw [List.getElem?_eq_none (by omega)] at h
    cases h
  have ha : l[k] = a := by
    rw [List.getElem?_eq_getElem hk] at h
    exact Option.some.inj h
  rw [List.drop_eq_getElem_cons hk, List.flatMap_cons, ha]

theorem flatMap_take_succ {α β : Type} (g : α → List β) (l : List α) (k : Nat) (a : α)
    (h : l[k]? = some a) : (l.take (k + 1)).flatMap g = (l.take k).flatMap g ++ g a := by
  rw [List.take_succ, h]
  simp [List.flatMap_append]

theorem nodeCursor.onPair.pairIdx {c : nodeCursor} {k : Nat} (h : c.onPair k) : c.pairIdx = k := by
  unfold nodeCursor.pairIdx
  rw [h.1]
  omega

theorem nodeCursor.onPair.get {c : nodeCursor} {k : Nat} (h : c.onPair k) :
    ∃ pr, c.nd.pairs[k]? = some pr :=
  ⟨c.nd.pairs.get ⟨k, h.2⟩, List.getElem?_eq_getElem h.2⟩

theorem nodeCursor.currentPair_eq (hgp : PairsByItem getPair) {c : nodeCursor} {k : Nat}
    {pr : nodePair} (hk : c.idx = 2 * (k : Int)) (hpr : c.nd.pairs[k]? = some pr) :
    c.currentPair getPair = .ok pr := by
  rw [nodeCursor.currentPair, hgp, hk]
  exact (Node.pairAt_eq_ok _ _ _).mpr hpr

theorem nodeCursor.here_eq {nrw : NodeStore} {L : Nat} {c : nodeCursor} {k : Nat} {pr : nodePair}
    (hk : c.idx = 2 * (k : Int)) (hpr : c.nd.pairs[k]? = some pr) :
    c.here nrw L = under nrw L pr := by
  have : c.pairIdx = k := by
    unfold nodeCursor.pairIdx
    omega
  simp [nodeCursor.here, this, hpr]

theorem under_succ {nrw : NodeStore} {L : Nat} {pr : nodePair} {c : Node}
    (h : fetchChild nrw pr.value = .ok c) : under nrw (L + 1) pr = leafPairs nrw L c := by
  simp [under, h, leafPairs]


theorem nodeCursor.advanceInBounds_root_step {f : Frame} (h : f.idx < f.nd.nodeCount - stride) :
    (nodeCursor.root f).advanceInBounds getPair =
      .ok (true, .root { f with idx := f.idx + stride }) := by
  simp [nodeCursor.advanceInBounds, h]

theorem nodeCursor.advanceInBounds_child_step {f : Frame} {p : nodeCursor}
    (h : f.idx < f.nd.nodeCount - stride) :
    (nodeCursor.child f p).advanceInBounds getPair =
      .ok (true, .child { f with idx := f.idx + stride } p) := by
  simp [nodeCursor.advanceInBounds, h]

theorem nodeCursor.advanceInBounds_root_last {f : Frame} (h : f.idx = f.nd.nodeCount - stride) :
    (nodeCursor.root f).advanceInBounds getPair = .ok (false, .root f) := by
  have h1 : ¬ f.idx < f.nd.nodeCount - stride := by omega
  have h2 : ¬ f.idx = f.nd.nodeCount := by unfold stride at h; omega
  have h3 : (f.idx == f.nd.nodeCount - stride) = true := by simp [h]
  simp [nodeCursor.advanceInBounds, h1, h2, h3, assertTrue, bind, Except.bind, pure, Except.pure]

theorem nodeCursor.advanceInBounds_child_last {f : Frame} {p : nodeCursor}
    (h : f.idx = f.nd.nodeCount - stride) :
    (nodeCursor.child f p).advanceInBounds getPair =
      match p.advanceInBounds getPair with
      | .ok (true, p1) =>
        (nodeCursor.fetchNode getPair (.child f p1)).map fun c1 => (true, c1.skipToNodeStart)
      | .ok (false, p1) => .ok (false, .child f p1)
      | .error e => .error e := by
  have h1 : ¬ f.idx < f.nd.nodeCount - stride := by omega
  have h2 : ¬ f.idx = f.nd.nodeCount := by unfold stride at h; omega
  have h3 : (f.idx == f.nd.nodeCount - stride) = true := by simp [h]
  rw [nodeCursor.advanceInBounds]
  simp only [h1, h2, h3, if_false, assertTrue, if_true, bind, Except.bind, pure, Except.pure]
  cases hp : p.advanceInBounds getPair with
  | error e => rfl
  | ok r =>
    obtain ⟨b, p1⟩ := r
    cases b
    · rfl
    · simp only [if_true]
      cases nodeCursor.fetchNode getPair (.child f p1) <;> rfl

theorem nodeCursor.fetchNode_child (hgp : PairsByItem getPair) {f : Frame} {p : nodeCursor}
    {k : Nat} {pr : nodePair} {c : Node} (hk : p.idx = 2 * (k : Int))
    (hpr : p.nd.pairs[k]? = some pr) (hc : fetchChild f.nrw pr.value = .ok c) :
    nodeCursor.fetchNode getPair (.child f p) = .ok (.child { f with nd := c, idx := -1 } p) := by
  simp [nodeCursor.fetchNode, nodeCursor.currentPair_eq hgp hk hpr, hc, bind, Except.bind, pure,
    Except.pure]


theorem nodeCursor.after_root {nrw : NodeStore} {L : Nat} {f : Frame} {k : Nat}
    (h : f.idx = 2 * (k : Int)) :
    (nodeCursor.root f).after nrw L = (f.nd.pairs.drop (k + 1)).flatMap (under nrw L) := by
  have : (f.idx / 2).toNat = k := by omega
  simp only [nodeCursor.after, this]

theorem nodeCursor.after_child {nrw : NodeStore} {L : Nat} {f : Frame} {p : nodeCursor} {k : Nat}
    (h : f.idx = 2 * (k : Int)) :
    (nodeCursor.child f p).after nrw L =
      (f.nd.pairs.drop (k + 1)).flatMap (under nrw L) ++ p.after nrw (L + 1) := by
  have : (f.idx / 2).toNat = k := by omega
  simp only [nodeCursor.after, this]

theorem nodeCursor.before_root {nrw : NodeStore} {L : Nat} {f : Frame} {k : Nat}
    (h : f.idx = 2 * (k : Int)) :
    (nodeCursor.root f).before nrw L = (f.nd.pairs.take k).flatMap (under nrw L) := by
  have : (f.idx / 2).toNat = k := by omega
  simp only [nodeCursor.before, this]

theorem nodeCursor.before_child {nrw : NodeStore} {L : Nat} {f : Frame} {p : nodeCursor} {k : Nat}
    (h : f.idx = 2 * (k : Int)) :
    (nodeCursor.child f p).before nrw L =
      p.before nrw (L + 1) ++ (f.nd.pairs.take k).flatMap (under nrw L) := by
  have : (f.idx / 2).toNat = k := by omega
  simp only [nodeCursor.before, this]

theorem drop_flatMap_nil {α β : Type} (g : α → List β) (l : List α) (k : Nat)
    (h : l.length ≤ k) : (l.drop k).flatMap g = [] := by
  rw [List.drop_eq_nil_of_le h]
  rfl

theorem take_flatMap_all {α β : Type} (g : α → List β) (l : List α) (k : Nat) (a : α)
    (h : l[k]? = some a) (hl : l.length = k + 1) :
    (l.take k).flatMap g ++ g a = l.flatMap g := by
  rw [← flatMap_take_succ g l k a h, ← hl, List.take_length]

/-- What `advanceInBounds` does on a frame that is on a pair: either it moves to
the next pair of the tree at the level of the frame, or nothing is left after the
current pair and the cursor is not changed. -/
theorem nodeCursor.advanceInBounds_spec (hgp : PairsByItem getPair) {nrw : NodeStore} :
    ∀ (c : nodeCursor) (L k : Nat), c.Over nrw L → c.onPair k →
      (∃ c1 k1, c.advanceInBounds getPair = .ok (true, c1) ∧ c1.Over nrw L ∧ c1.onPair k1 ∧
        c1.depth = c.depth ∧ c1.rootNode = c.rootNode ∧
        c1.here nrw L ++ c1.after nrw L = c.after nrw L ∧
        c1.before nrw L = c.before nrw L ++ c.here nrw L) ∨
      (c.advanceInBounds getPair = .ok (false, c) ∧ c.after nrw L = [] ∧
        c.idx = c.nd.nodeCount - stride) := by
  intro c
  induction c with
  | root f =>
    intro L k hov hon
    obtain ⟨hidx, hlt⟩ := hon
    simp only [nodeCursor.idx_root, nodeCursor.nd_root] at hidx hlt
    have hcount := hov.wf.nodeCount
    simp only [nodeCursor.nd_root] at hcount
    obtain ⟨pr, hpr⟩ : ∃ pr, f.nd.pairs[k]? = some pr := ⟨_, List.getElem?_eq_getElem hlt⟩
    by_cases hk : k + 1 < f.nd.pairs.length
    · left
      obtain ⟨pr1, hpr1⟩ : ∃ pr, f.nd.pairs[k + 1]? = some pr := ⟨_, List.getElem?_eq_getElem hk⟩
      have hidx1 : f.idx + stride = 2 * ((k + 1 : Nat) : Int) := by
        unfold stride; push_cast; omega
      refine ⟨.root { f with idx := f.idx + stride }, k + 1, ?_, ?_, ⟨hidx1, hk⟩, rfl, rfl, ?_, ?_⟩
      · apply nodeCursor.advanceInBounds_root_step
        unfold stride; omega
      · exact nodeCursor.Over_root.mpr (nodeCursor.Over_root.mp hov)
      · rw [nodeCursor.here_eq (c := .root { f with idx := f.idx + stride }) hidx1 hpr1,
          nodeCursor.after_root (f := { f with idx := f.idx + stride }) hidx1,
          nodeCursor.after_root hidx]
        exact (flatMap_drop_succ _ _ _ _ hpr1).symm
      · rw [nodeCursor.here_eq (c := .root f) hidx hpr,
          nodeCursor.before_root (f := { f with idx := f.idx + stride }) hidx1,
          nodeCursor.before_root hidx]
        exact flatMap_take_succ _ _ _ _ hpr
    · right
      have hidx2 : f.idx = f.nd.nodeCount - stride := by unfold stride; omega
      refine ⟨nodeCursor.advanceInBounds_root_last hidx2, ?_, hidx2⟩
      rw [nodeCursor.after_root hidx]
      exact drop_flatMap_nil _ _ _ (by omega)
  | child f p ih =>
    intro L k hov hon
    obtain ⟨hidx, hlt⟩ := hon
    simp only [nodeCursor.idx_child, nodeCursor.nd_child] at hidx hlt
    have hcount := hov.wf.nodeCount
    simp only [nodeCursor.nd_child] at hcount
    obtain ⟨hnrw, hpov, kp, prp, hpidx, hprp, hfetch⟩ := nodeCursor.Over_child.mp hov
    obtain ⟨pr, hpr⟩ : ∃ pr, f.nd.pairs[k]? = some pr := ⟨_, List.getElem?_eq_getElem hlt⟩
    by_cases hk : k + 1 < f.nd.pairs.length
    · left
      obtain ⟨pr1, hpr1⟩ : ∃ pr, f.nd.pairs[k + 1]? = some pr := ⟨_, List.getElem?_eq_getElem hk⟩
      have hidx1 : f.idx + stride = 2 * ((k + 1 : Nat) : Int) := by
        unfold stride; push_cast; omega
      refine ⟨.child { f with idx := f.idx + stride } p, k + 1, ?_, ?_, ⟨hidx1, hk⟩, rfl, rfl,
        ?_, ?_⟩
      · apply nodeCursor.advanceInBounds_child_step
        unfold stride; omega
      · exact nodeCursor.Over_child.mpr ⟨hnrw, hpov, kp, prp, hpidx, hprp, hfetch⟩
      · rw [nodeCursor.here_eq (c := .child { f with idx := f.idx + stride } p) hidx1 hpr1,
          nodeCursor.after_child (f := { f with idx := f.idx + stride }) hidx1,
          nodeCursor.after_child hidx, ← List.append_assoc]
        exact congrArg (· ++ p.after nrw (L + 1)) (flatMap_drop_succ _ _ _ _ hpr1).symm
      · rw [nodeCursor.here_eq (c := .child f p) hidx hpr,
          nodeCursor.before_child (f := { f with idx := f.idx + stride }) hidx1,
          nodeCursor.before_child hidx, List.append_assoc]
        exact congrArg (p.before nrw (L + 1) ++ ·) (flatMap_take_succ _ _ _ _ hpr)
    · have hidx2 : f.idx = f.nd.nodeCount - stride := by unfold stride; omega
      have hlen : f.nd.pairs.length = k + 1 := by omega
      have hown : (f.nd.pairs.drop (k + 1)).flatMap (under nrw L) = [] :=
        drop_flatMap_nil _ _ _ (by omega)
      have hhere_p : p.here nrw (L + 1) = leafPairs nrw L f.nd := by
        rw [nodeCursor.here_eq hpidx hprp, under_succ hfetch]
      have hplt : kp < p.nd.pairs.length := by
        by_contra hc
        rw [List.getElem?_eq_none (by omega)] at hprp
        cases hprp
      rcases ih (L + 1) kp hpov ⟨hpidx, hplt⟩ with
        ⟨p1, k1, hadv, hov1, hon1, hdep, hroot, hlist, hbef⟩ | ⟨hadv, hafter, _⟩
      · left
        obtain ⟨pr1, hpr1⟩ := hon1.get
        obtain ⟨c1, hc1, hwf1⟩ := (hov1.wf).2.2.2 pr1 (List.getElem?_mem hpr1)
        have hpos := hwf1.pairs_pos
        obtain ⟨q0, hq0⟩ : ∃ q, c1.pairs[0]? = some q := ⟨_, List.getElem?_eq_getElem hpos⟩
        have hfn := nodeCursor.fetchNode_child hgp (f := f) hon1.1 hpr1 (hnrw ▸ hc1)
        have h0 : (0 : Int) = 2 * ((0 : Nat) : Int) := by simp
        refine ⟨.child { f with nd := c1, idx := 0 } p1, 0, ?_, ?_, ⟨h0, hpos⟩, ?_, ?_, ?_, ?_⟩
        · rw [nodeCursor.advanceInBounds_child_last hidx2, hadv]
          simp only [hfn, Except.map]
          rfl
        · exact nodeCursor.Over_child.mpr ⟨hnrw, hov1, k1, pr1, hon1.1, hpr1, hc1⟩
        · simp only [nodeCursor.depth, hdep]
        · simp only [nodeCursor.rootNode, hroot]
        · rw [nodeCursor.here_eq (c := .child { f with nd := c1, idx := 0 } p1) h0 hq0,
            nodeCursor.after_child (f := { f with nd := c1, idx := 0 }) h0,
            nodeCursor.after_child hidx, hown, List.nil_append, ← hlist,
            nodeCursor.here_eq hon1.1 hpr1, under_succ hc1, leafPairs, ← List.append_assoc]
          exact congrArg (· ++ p1.after nrw (L + 1)) (flatMap_drop_succ _ _ _ _ hq0).symm
        · rw [nodeCursor.before_child (f := { f with nd := c1, idx := 0 }) h0,
            nodeCursor.before_child hidx, nodeCursor.here_eq (c := .child f p) hidx hpr, hbef,
            hhere_p]
          simp only [List.take_zero, List.flatMap_nil, List.append_nil, List.append_assoc]
          rw [take_flatMap_all _ _ _ _ hpr hlen]
          rfl
      · right
        refine ⟨?_, ?_, hidx2⟩
        · rw [nodeCursor.advanceInBounds_child_last hidx2, hadv]
        · rw [nodeCursor.after_child hidx, hown, hafter]
          rfl

theorem nodeCursor.retreatInBounds_root_step {f : Frame} (h : f.idx > 0) :
    (nodeCursor.root f).retreatInBounds getPair =
      .ok (true, .root { f with idx := f.idx - stride }) := by
  simp [nodeCursor.retreatInBounds, h]

theorem nodeCursor.retreatInBounds_child_step {f : Frame} {p : nodeCursor} (h : f.idx > 0) :
    (nodeCursor.child f p).retreatInBounds getPair =
      .ok (true, .child { f with idx := f.idx - stride } p) := by
  simp [nodeCursor.retreatInBounds, h]

theorem nodeCursor.retreatInBounds_root_first {f : Frame} (h : f.idx = 0) :
    (nodeCursor.root f).retreatInBounds getPair = .ok (false, .root f) := by
  have h1 : ¬ f.idx > 0 := by omega
  have h2 : ¬ f.idx = -stride := by unfold stride; omega
  have h3 : (f.idx == 0) = true := by simp [h]
  simp [nodeCursor.retreatInBounds, h1, h2, h3, assertTrue, bind, Except.bind, pure, Except.pure]

theorem nodeCursor.retreatInBounds_child_first {f : Frame} {p : nodeCursor} (h : f.idx = 0) :
    (nodeCursor.child f p).retreatInBounds getPair =
      match p.retreatInBounds getPair with
      | .ok (true, p1) =>
        (nodeCursor.fetchNode getPair (.child f p1)).map fun c1 => (true, c1.skipToNodeEnd)
      | .ok (false, p1) => .ok (false, .child f p1)
      | .error e => .error e := by
  have h1 : ¬ f.idx > 0 := by omega
  have h2 : ¬ f.idx = -stride := by unfold stride; omega
  have h3 : (f.idx == 0) = true := by simp [h]
  rw [nodeCursor.retreatInBounds]
  simp only [h1, h2, h3, if_false, assertTrue, if_true, bind, Except.bind, pure, Except.pure]
  cases hp : p.retreatInBounds getPair with
  | error e => rfl
  | ok r =>
    obtain ⟨b, p1⟩ := r
    cases b
    · rfl
    · simp only [if_true]
      cases nodeCursor.fetchNode getPair (.child f p1) <;> rfl

theorem getElem?_last_of_pos {α : Type} (l : List α) (h : 0 < l.length) :
    ∃ a, l[l.length - 1]? = some a :=
  ⟨_, List.getElem?_eq_getElem (by omega)⟩

/-- What `retreatInBounds` does on a frame that is on a pair: either it moves to
the previous pair of the tree at the level of the frame, or nothing lies before the
current pair and the cursor is not changed. -/
theorem nodeCursor.retreatInBounds_spec (hgp : PairsByItem getPair) {nrw : NodeStore} :
    ∀ (c : nodeCursor) (L k : Nat), c.Over nrw L → c.onPair k →
      (∃ c1 k1, c.retreatInBounds getPair = .ok (true, c1) ∧ c1.Over nrw L ∧ c1.onPair k1 ∧
        c1.depth = c.depth ∧ c1.rootNode = c.rootNode ∧
        c1.before nrw L ++ c1.here nrw L = c.before nrw L ∧
        c1.after nrw L = c.here nrw L ++ c.after nrw L) ∨
      (c.retreatInBounds getPair = .ok (false, c) ∧ c.before nrw L = [] ∧ c.idx = 0) := by
  intro c
  induction c with
  | root f =>
    intro L k hov hon
    obtain ⟨hidx, hlt⟩ := hon
    simp only [nodeCursor.idx_root, nodeCursor.nd_root] at hidx hlt
    obtain ⟨pr, hpr⟩ : ∃ pr, f.nd.pairs[k]? = some pr := ⟨_, List.getElem?_eq_getElem hlt⟩
    cases k with
    | succ j =>
      left
      obtain ⟨pr1, hpr1⟩ : ∃ pr, f.nd.pairs[j]? = some pr :=
        ⟨_, List.getElem?_eq_getElem (Nat.lt_of_succ_lt hlt)⟩
      have hidx1 : f.idx - stride = 2 * (j : Int) := by
        unfold stride; push_cast at hidx; omega
      refine ⟨.root { f with idx := f.idx - stride }, j, ?_, ?_, ⟨hidx1, Nat.lt_of_succ_lt hlt⟩,
        rfl, rfl, ?_, ?_⟩
      · apply nodeCursor.retreatInBounds_root_step
        push_cast at hidx; omega
      · exact nodeCursor.Over_root.mpr (nodeCursor.Over_root.mp hov)
      · rw [nodeCursor.here_eq (c := .root { f with idx := f.idx - stride }) hidx1 hpr1,
          nodeCursor.before_root (f := { f with idx := f.idx - stride }) hidx1,
          nodeCursor.before_root hidx]
        exact (flatMap_take_succ _ _ _ _ hpr1).symm
      · rw [nodeCursor.here_eq (c := .root f) hidx hpr,
          nodeCursor.after_root (f := { f with idx := f.idx - stride }) hidx1,
          nodeCursor.after_root hidx]
        exact flatMap_drop_succ _ _ _ _ hpr
    | zero =>
      right
      have hidx2 : f.idx = 0 := by simpa using hidx
      refine ⟨nodeCursor.retreatInBounds_root_first hidx2, ?_, hidx2⟩
      rw [nodeCursor.before_root hidx]
      rfl
  | child f p ih =>
    intro L k hov hon
    obtain ⟨hidx, hlt⟩ := hon
    simp only [nodeCursor.idx_child, nodeCursor.nd_child] at hidx hlt
    obtain ⟨hnrw, hpov, kp, prp, hpidx, hprp, hfetch⟩ := nodeCursor.Over_child.mp hov
    obtain ⟨pr, hpr⟩ : ∃ pr, f.nd.pairs[k]? = some pr := ⟨_, List.getElem?_eq_getElem hlt⟩
    cases k with
    | succ j =>
      left
      obtain ⟨pr1, hpr1⟩ : ∃ pr, f.nd.pairs[j]? = some pr :=
        ⟨_, List.getElem?_eq_getElem (Nat.lt_of_succ_lt hlt)⟩
      have hidx1 : f.idx - stride = 2 * (j : Int) := by
        unfold stride; push_cast at hidx; omega
      refine ⟨.child { f with idx := f.idx - stride } p, j, ?_, ?_,
        ⟨hidx1, Nat.lt_of_succ_lt hlt⟩, rfl, rfl, ?_, ?_⟩
      · apply nodeCursor.retreatInBounds_child_step
        push_cast at hidx; omega
      · exact nodeCursor.Over_child.mpr ⟨hnrw, hpov, kp, prp, hpidx, hprp, hfetch⟩
      · rw [nodeCursor.here_eq (c := .child { f with idx := f.idx - stride } p) hidx1 hpr1,
          nodeCursor.before_child (f := { f with idx := f.idx - stride }) hidx1,
          nodeCursor.before_child hidx, List.append_assoc]
        exact congrArg (p.before nrw (L + 1) ++ ·) (flatMap_take_succ _ _ _ _ hpr1).symm
      · rw [nodeCursor.here_eq (c := .child f p) hidx hpr,
          nodeCursor.after_child (f := { f with idx := f.idx - stride }) hidx1,
          nodeCursor.after_child hidx, ← List.append_assoc]
        exact congrArg (· ++ p.after nrw (L + 1)) (flatMap_drop_succ _ _ _ _ hpr)
    | zero =>
      have hidx2 : f.idx = 0 := by simpa using hidx
      have hhere_p : p.here nrw (L + 1) = leafPairs nrw L f.nd := by
        rw [nodeCursor.here_eq hpidx hprp, under_succ hfetch]
      have hplt : kp < p.nd.pairs.length := by
        by_contra hc
        rw [List.getElem?_eq_none (by omega)] at hprp
        cases hprp
      rcases ih (L + 1) kp hpov ⟨hpidx, hplt⟩ with
        ⟨p1, k1, hret, hov1, hon1, hdep, hroot, hbef, haft⟩ | ⟨hret, hbefore, _⟩
      · left
        obtain ⟨pr1, hpr1⟩ := hon1.get
        obtain ⟨c1, hc1, hwf1⟩ := (hov1.wf).2.2.2 pr1 (List.getElem?_mem hpr1)
        have hpos := hwf1.pairs_pos
        obtain ⟨q, hq⟩ := getElem?_last_of_pos c1.pairs hpos
        have hfn := nodeCursor.fetchNode_child hgp (f := f) hon1.1 hpr1 (hnrw ▸ hc1)
        have hcnt := hwf1.nodeCount
        have hl : c1.nodeCount - stride = 2 * ((c1.pairs.length - 1 : Nat) : Int) := by
          unfold stride; omega
        refine ⟨.child { f with nd := c1, idx := c1.nodeCount - stride } p1, c1.pairs.length - 1,
          ?_, ?_, ⟨hl, Nat.sub_lt hpos Nat.one_pos⟩, ?_, ?_, ?_, ?_⟩
        · rw [nodeCursor.retreatInBounds_child_first hidx2, hret]
          simp only [hfn, Except.map]
          rfl
        · exact nodeCursor.Over_child.mpr ⟨hnrw, hov1, k1, pr1, hon1.1, hpr1, hc1⟩
        · simp only [nodeCursor.depth, hdep]
        · simp only [nodeCursor.rootNode, hroot]
        · rw [nodeCursor.here_eq (c := .child { f with nd := c1, idx := c1.nodeCount - stride } p1)
              hl hq,
            nodeCursor.before_child (f := { f with nd := c1, idx := c1.nodeCount - stride }) hl,
            nodeCursor.before_child hidx, ← hbef, nodeCursor.here_eq hon1.1 hpr1, under_succ hc1]
          simp only [List.take_zero, List.flatMap_nil, List.append_nil, List.append_assoc]
          rw [take_flatMap_all _ _ _ _ hq (by omega)]
          rfl
        · rw [nodeCursor.after_child (f := { f with nd := c1, idx := c1.nodeCount - stride }) hl,
            drop_flatMap_nil _ _ _ (by simp only; omega), List.nil_append, haft, hhere_p,
            nodeCursor.here_eq (c := .child f p) hidx hpr, nodeCursor.after_child hidx,
            ← List.append_assoc]
          exact congrArg (· ++ p.after nrw (L + 1)) (flatMap_drop_succ _ _ _ _ hpr)
      · right
        refine ⟨?_, ?_, hidx2⟩
        · rw [nodeCursor.retreatInBounds_child_first hidx2, hret]
        · rw [nodeCursor.before_child hidx, hbefore]
          rfl

theorem flatMap_split {α β : Type} (g : α → List β) (l : List α) (k : Nat) (a : α)
    (h : l[k]? = some a) :
    (l.take k).flatMap g ++ g a ++ (l.drop (k + 1)).flatMap g = l.flatMap g := by
  rw [← flatMap_take_succ _ _ _ _ h, ← List.flatMap_append, List.take_append_drop]

theorem nodeCursor.cover {nrw : NodeStore} : ∀ (c : nodeCursor) (L k : Nat),
    c.Over nrw L → c.onPair k →
    c.before nrw L ++ c.here nrw L ++ c.after nrw L = leafPairs nrw (L + c.depth) c.rootNode := by
  intro c
  induction c with
  | root f =>
    intro L k hov hon
    obtain ⟨pr, hpr⟩ := hon.get
    rw [nodeCursor.here_eq hon.1 hpr, nodeCursor.before_root (f := f) hon.1,
      nodeCursor.after_root (f := f) hon.1]
    have hpr1 : f.nd.pairs[k]? = some pr := hpr
    rw [flatMap_split _ _ _ _ hpr1]
    rfl
  | child f p ih =>
    intro L k hov hon
    obtain ⟨pr, hpr⟩ := hon.get
    obtain ⟨hnrw, hpov, kp, prp, hpidx, hprp, hfetch⟩ := nodeCursor.Over_child.mp hov
    have hplt : kp < p.nd.pairs.length := by
      by_contra hc
      rw [List.getElem?_eq_none (by omega)] at hprp
      cases hprp
    have ihp := ih (L + 1) kp hpov ⟨hpidx, hplt⟩
    have e : L + (nodeCursor.child f p).depth = L + 1 + p.depth := by
      simp only [nodeCursor.depth]; omega
    rw [e, nodeCursor.rootNode, ← ihp, nodeCursor.here_eq hpidx hprp, under_succ hfetch,
      nodeCursor.here_eq hon.1 hpr, nodeCursor.before_child (f := f) hon.1,
      nodeCursor.after_child (f := f) hon.1]
    have hpr1 : f.nd.pairs[k]? = some pr := hpr
    rw [leafPairs, ← flatMap_split _ _ _ _ hpr1]
    simp only [List.append_assoc]

theorem WellFormed.isLeaf_iff {nrw : NodeStore} {L : Nat} {c : nodeCursor}
    (h : WellFormed nrw L c.nd) : c.isLeaf = true ↔ L = 0 := by
  simp [nodeCursor.isLeaf, nodeCursor.level, h.shape.1]

theorem WellFormed.leafPairs_pos {nrw : NodeStore} : ∀ {L : Nat} {nd : Node},
    WellFormed nrw L nd → 0 < (leafPairs nrw L nd).length
  | 0, nd, h => by
    have := h.pairs_pos
    obtain ⟨q, hq⟩ : ∃ q, nd.pairs[0]? = some q := ⟨_, List.getElem?_eq_getElem this⟩
    rw [leafPairs, ← List.take_append_drop 0 nd.pairs, List.flatMap_append,
      flatMap_drop_succ _ _ _ _ hq]
    simp [under]
  | L + 1, nd, h => by
    have := h.pairs_pos
    obtain ⟨q, hq⟩ : ∃ q, nd.pairs[0]? = some q := ⟨_, List.getElem?_eq_getElem this⟩
    obtain ⟨c, hc, hwf⟩ := h.2.2.2 q (List.getElem?_mem hq)
    have ih := WellFormed.leafPairs_pos hwf
    rw [leafPairs, ← List.take_append_drop 0 nd.pairs, List.flatMap_append,
      flatMap_drop_succ _ _ _ _ hq, under_succ hc]
    simp only [List.take_zero, List.flatMap_nil, List.nil_append, List.length_append]
    omega

theorem newCursorAtStartLoop_spec (hgp : PairsByItem getPair) {nrw : NodeStore} :
    ∀ (L fuel : Nat) (cur : nodeCursor), L < fuel → cur.Over nrw L → cur.onPair 0 →
      cur.before nrw L = [] →
      ∃ c0, newCursorAtStartLoop getPair nrw fuel cur = .ok c0 ∧ c0.Over nrw 0 ∧ c0.onPair 0 ∧
        c0.before nrw 0 = [] ∧ c0.rootNode = cur.rootNode ∧ c0.depth = cur.depth + L := by
  intro L
  induction L with
  | zero =>
    intro fuel cur hf hov hon hb
    obtain ⟨n, rfl⟩ : ∃ n, fuel = n + 1 := ⟨fuel - 1, by omega⟩
    refine ⟨cur, ?_, hov, hon, hb, rfl, rfl⟩
    simp [newCursorAtStartLoop, (hov.wf.isLeaf_iff).mpr rfl]
  | succ L ih =>
    intro fuel cur hf hov hon hb
    obtain ⟨n, rfl⟩ : ∃ n, fuel = n + 1 := ⟨fuel - 1, by omega⟩
    obtain ⟨pr, hpr⟩ := hon.get
    obtain ⟨c, hc, hwf⟩ := hov.wf.2.2.2 pr (List.getElem?_mem hpr)
    have hleaf : cur.isLeaf = false := by
      cases h : cur.isLeaf
      · rfl
      · exact absurd ((hov.wf.isLeaf_iff).mp h) (by omega)
    have h0 : (0 : Int) = 2 * ((0 : Nat) : Int) := by simp
    have hov1 : (nodeCursor.child ⟨c, 0, nrw⟩ cur).Over nrw L :=
      nodeCursor.Over_child.mpr ⟨rfl, hov, 0, pr, hon.1, hpr, hc⟩
    have hb1 : (nodeCursor.child ⟨c, 0, nrw⟩ cur).before nrw L = [] := by
      rw [nodeCursor.before_child (f := ⟨c, 0, nrw⟩) h0, hb]
      rfl
    obtain ⟨c0, h1, h2, h3, h4, h5, h6⟩ := ih n (.child ⟨c, 0, nrw⟩ cur) (by omega) hov1
      ⟨h0, hwf.pairs_pos⟩ hb1
    refine ⟨c0, ?_, h2, h3, h4, h5, ?_⟩
    · simp [newCursorAtStartLoop, hleaf, nodeCursor.currentPair_eq hgp hon.1 hpr, hc, h1, bind,
        Except.bind]
    · rw [h6, nodeCursor.depth]; omega


theorem nodeCursor.advance_eq {c : nodeCursor} {b : Bool} {c1 : nodeCursor}
    (h : c.advanceInBounds getPair = .ok (b, c1)) :
    c.advance getPair = .ok (b, if b then c1 else c1.setIdx c1.nd.nodeCount) := by
  cases b <;> simp [nodeCursor.advance, h, bind, Except.bind, pure, Except.pure]

theorem nodeCursor.retreat_eq {c : nodeCursor} {b : Bool} {c1 : nodeCursor}
    (h : c.retreatInBounds getPair = .ok (b, c1)) :
    c.retreat getPair = .ok (b, if b then c1 else c1.setIdx (-stride)) := by
  cases b <;> simp [nodeCursor.retreat, h, bind, Except.bind, pure, Except.pure]

theorem scanForward_spec (hgp : PairsByItem getPair) {nrw : NodeStore} :
    ∀ (n : Nat) (c : nodeCursor) (k : Nat), c.Over nrw 0 → c.onPair k →
      (c.here nrw 0 ++ c.after nrw 0).length = n + 1 →
      scanForward getPair (n + 1) c =
        .ok ((c.here nrw 0 ++ c.after nrw 0).map (·.key), List.replicate n true ++ [false]) := by
  intro n
  induction n with
  | zero =>
    intro c k hov hon hlen
    obtain ⟨pr, hpr⟩ := hon.get
    have hcp := nodeCursor.currentPair_eq hgp hon.1 hpr
    have hhere : c.here nrw 0 = [pr] := by rw [nodeCursor.here_eq hon.1 hpr]; rfl
    rcases nodeCursor.advanceInBounds_spec hgp c 0 k hov hon with
      ⟨c1, k1, hadv, hov1, hon1, _, _, hlist, _⟩ | ⟨hadv, hafter, _⟩
    · obtain ⟨pr1, hpr1⟩ := hon1.get
      have hhere1 : c1.here nrw 0 = [pr1] := by rw [nodeCursor.here_eq hon1.1 hpr1]; rfl
      rw [hhere, ← hlist, hhere1] at hlen
      simp at hlen
    · rw [hhere, hafter]
      simp [scanForward, hcp, nodeCursor.advance_eq hadv, bind, Except.bind, pure, Except.pure]
  | succ m ih =>
    intro c k hov hon hlen
    obtain ⟨pr, hpr⟩ := hon.get
    have hcp := nodeCursor.currentPair_eq hgp hon.1 hpr
    have hhere : c.here nrw 0 = [pr] := by rw [nodeCursor.here_eq hon.1 hpr]; rfl
    rcases nodeCursor.advanceInBounds_spec hgp c 0 k hov hon with
      ⟨c1, k1, hadv, hov1, hon1, _, _, hlist, _⟩ | ⟨hadv, hafter, _⟩
    · have hlen1 : (c1.here nrw 0 ++ c1.after nrw 0).length = m + 1 := by
        rw [hhere, ← hlist] at hlen
        simpa using hlen
      have := ih c1 k1 hov1 hon1 hlen1
      rw [scanForward, hcp, nodeCursor.advance_eq hadv]
      simp only [bind, Except.bind, pure, Except.pure, if_true, this, hhere, ← hlist]
      simp [List.replicate_succ]
    · rw [hhere, hafter] at hlen
      simp at hlen

theorem exRoot_wellFormed : WellFormed exStore 1 exRoot := by
  refine ⟨rfl, by decide, by decide, ?_⟩
  intro pr hpr
  have hp : exRoot.pairs = (List.range 5).map fun k => ⟨[98 + 2 * k], newMetaValue 2 (exHash k)⟩ := by
    decide
  rw [hp] at hpr
  simp only [List.mem_map, List.mem_range] at hpr
  obtain ⟨k, hk, rfl⟩ := hpr
  interval_cases k <;> exact ⟨_, rfl, rfl, by decide, by decide⟩

theorem exRoot_leafKeys : leafKeys exStore 1 exRoot =
    [[97], [98], [99], [100], [101], [102], [103], [104], [105], [106]] := by
  decide

theorem exRoot_keysIncreasing : KeysIncreasing bytesCompare exStore 1 exRoot := by
  unfold KeysIncreasing
  rw [exRoot_leafKeys]
  decide

theorem nodeCursor.skipToNodeEnd_child (f : Frame) (p : nodeCursor) :
    (nodeCursor.child f p).skipToNodeEnd = .child { f with idx := f.nd.nodeCount - stride } p := rfl

theorem nodeCursor.skipToNodeEnd_root (f : Frame) :
    (nodeCursor.root f).skipToNodeEnd = .root { f with idx := f.nd.nodeCount - stride } := rfl

theorem WellFormed.lastIdx {nrw : NodeStore} {L : Nat} {nd : Node} (h : WellFormed nrw L nd) :
    nd.nodeCount - stride = 2 * ((nd.pairs.length - 1 : Nat) : Int) := by
  have h1 := h.nodeCount
  have h2 := h.pairs_pos
  unfold stride
  omega

theorem newCursorAtEndLoop_spec (hgp : PairsByItem getPair) {nrw : NodeStore} :
    ∀ (L fuel : Nat) (cur : nodeCursor), L < fuel → cur.Over nrw L →
      cur.onPair (cur.nd.pairs.length - 1) → cur.after nrw L = [] →
      ∃ c0, newCursorAtEndLoop getPair nrw fuel cur = .ok c0 ∧ c0.Over nrw 0 ∧
        c0.onPair (c0.nd.pairs.length - 1) ∧
        c0.after nrw 0 = [] ∧ c0.rootNode = cur.rootNode ∧ c0.depth = cur.depth + L := by
  intro L
  induction L with
  | zero =>
    intro fuel cur hf hov hon hb
    obtain ⟨n, rfl⟩ : ∃ n, fuel = n + 1 := ⟨fuel - 1, by omega⟩
    refine ⟨cur, ?_, hov, hon, hb, rfl, rfl⟩
    simp [newCursorAtEndLoop, (hov.wf.isLeaf_iff).mpr rfl]
  | succ L ih =>
    intro fuel cur hf hov hon hb
    obtain ⟨n, rfl⟩ : ∃ n, fuel = n + 1 := ⟨fuel - 1, by omega⟩
    obtain ⟨pr, hpr⟩ := hon.get
    obtain ⟨c, hc, hwf⟩ := hov.wf.2.2.2 pr (List.getElem?_mem hpr)
    have hleaf : cur.isLeaf = false := by
      cases h : cur.isLeaf
      · rfl
      · exact absurd ((hov.wf.isLeaf_iff).mp h) (by omega)
    have hl := hwf.lastIdx
    have hpos := hwf.pairs_pos
    have hov1 : (nodeCursor.child ⟨c, c.nodeCount - stride, nrw⟩ cur).Over nrw L :=
      nodeCursor.Over_child.mpr ⟨rfl, hov, _, pr, hon.1, hpr, hc⟩
    have hb1 : (nodeCursor.child ⟨c, c.nodeCount - stride, nrw⟩ cur).after nrw L = [] := by
      rw [nodeCursor.after_child (f := ⟨c, c.nodeCount - stride, nrw⟩) hl, hb,
        drop_flatMap_nil _ _ _ (by simp only; omega)]
      rfl
    obtain ⟨c0, h1, h2, h3, h4, h5, h6⟩ := ih n (.child ⟨c, c.nodeCount - stride, nrw⟩ cur)
      (by omega) hov1 ⟨hl, Nat.sub_lt hpos Nat.one_pos⟩ hb1
    refine ⟨c0, ?_, h2, h3, h4, h5, ?_⟩
    · simp only [newCursorAtEndLoop, hleaf, nodeCursor.currentPair_eq hgp hon.1 hpr, hc, bind,
        Except.bind, nodeCursor.skipToNodeEnd_child]
      exact h1
    · rw [h6, nodeCursor.depth]; omega

theorem scanBackward_spec (hgp : PairsByItem getPair) {nrw : NodeStore} :
    ∀ (n : Nat) (c : nodeCursor) (k : Nat), c.Over nrw 0 → c.onPair k →
      (c.before nrw 0 ++ c.here nrw 0).length = n + 1 →
      scanBackward getPair (n + 1) c =
        .ok (((c.before nrw 0 ++ c.here nrw 0).map (·.key)).reverse,
          List.replicate n true ++ [false]) := by
  intro n
  induction n with
  | zero =>
    intro c k hov hon hlen
    obtain ⟨pr, hpr⟩ := hon.get
    have hcp := nodeCursor.currentPair_eq hgp hon.1 hpr
    have hhere : c.here nrw 0 = [pr] := by rw [nodeCursor.here_eq hon.1 hpr]; rfl
    rcases nodeCursor.retreatInBounds_spec hgp c 0 k hov hon with
      ⟨c1, k1, hret, hov1, hon1, _, _, hlist, _⟩ | ⟨hret, hbefore, _⟩
    · obtain ⟨pr1, hpr1⟩ := hon1.get
      have hhere1 : c1.here nrw 0 = [pr1] := by rw [nodeCursor.here_eq hon1.1 hpr1]; rfl
      rw [hhere, ← hlist, hhere1] at hlen
      simp at hlen
    · rw [hhere, hbefore]
      simp [scanBackward, hcp, nodeCursor.retreat_eq hret, bind, Except.bind, pure, Except.pure]
  | succ m ih =>
    intro c k hov hon hlen
    obtain ⟨pr, hpr⟩ := hon.get
    have hcp := nodeCursor.currentPair_eq hgp hon.1 hpr
    have hhere : c.here nrw 0 = [pr] := by rw [nodeCursor.here_eq hon.1 hpr]; rfl
    rcases nodeCursor.retreatInBounds_spec hgp c 0 k hov hon with
      ⟨c1, k1, hret, hov1, hon1, _, _, hlist, _⟩ | ⟨hret, hbefore, _⟩
    · have hlen1 : (c1.before nrw 0 ++ c1.here nrw 0).length = m + 1 := by
        rw [hhere, ← hlist] at hlen
        simp only [List.length_append, List.length_singleton] at hlen ⊢
        omega
      have := ih c1 k1 hov1 hon1 hlen1
      rw [scanBackward, hcp, nodeCursor.retreat_eq hret]
      simp only [bind, Except.bind, pure, Except.pure, if_true, this, hhere, ← hlist]
      simp [List.replicate_succ]
    · rw [hhere, hbefore] at hlen
      simp at hlen

theorem sortSearchLoop_spec (p : Nat → Bool) (n : Nat) (f : Nat → Except Fault Bool)
    (hf : ∀ i, i < n → f i = .ok (p i))
    (hmono : ∀ i j, i ≤ j → j < n → p i = true → p j = true) :
    ∀ (fuel lo hi : Nat), lo ≤ hi → hi ≤ n → hi - lo ≤ fuel →
      (∀ j, j < lo → p j = false) → (∀ j, hi ≤ j → j < n → p j = true) →
      ∃ r, sortSearchLoop f fuel lo hi = .ok r ∧ r ≤ n ∧
        (∀ j, j < r → p j = false) ∧ (∀ j, r ≤ j → j < n → p j = true) := by
  intro fuel
  induction fuel with
  | zero =>
    intro lo hi h1 h2 h3 hlo hhi
    have : lo = hi := by omega
    subst this
    exact ⟨lo, rfl, h2, hlo, hhi⟩
  | succ fuel ih =>
    intro lo hi h1 h2 h3 hlo hhi
    by_cases hlt : lo < hi
    · have hh : (lo + hi) / 2 < n := by omega
      rw [sortSearchLoop]
      simp only [hlt, if_true, hf _ hh, bind, Except.bind]
      cases hp : p ((lo + hi) / 2)
      · simp only [Bool.not_false, if_true]
        refine ih ((lo + hi) / 2 + 1) hi (by omega) h2 (by omega) ?_ hhi
        intro j hj
        cases hpj : p j
        · rfl
        · have := hmono j ((lo + hi) / 2) (by omega) hh hpj
          rw [hp] at this
          cases this
      · simp only [Bool.not_true, Bool.false_eq_true, if_false]
        refine ih lo ((lo + hi) / 2) (by omega) (by omega) (by omega) hlo ?_
        intro j hj hjn
        exact hmono _ j hj hjn hp
    · have : lo = hi := by omega
      subst this
      refine ⟨lo, ?_, h2, hlo, hhi⟩
      simp [sortSearchLoop, hlt]

theorem Node.getItem_key {nd : Node} {j : Nat} {pr : nodePair} (h : nd.pairs[j]? = some pr) :
    nd.getItem ((j : Int) * stride) = .ok pr.key := by
  have h1 := ((pairUp_getElem? j nd.items pr).mp h).1
  have e : (j : Int) * stride = ((2 * j : Nat) : Int) := by unfold stride; push_cast; ring
  rw [e, Node.getItem_natCast, h1]
  rfl

theorem nodeCursor.search_of_trans {cmp : compareFn}
    (htrans : ∀ a b c, cmp a b ≤ 0 → cmp b c ≤ 0 → cmp a c ≤ 0)
    (cur : nodeCursor) (item : nodeItem) (hs : cur.nd.KeysSorted cmp) :
    ∃ r, cur.search item cmp = .ok r ∧ IsLowerBound cmp item cur.nd r := by
  have hn : (cur.nd.nodeCount / stride).toNat = cur.nd.pairs.length := by
    have := cur.nd.pairs_length
    unfold stride
    omega
  let key : Nat → nodeItem := fun i => ((cur.nd.pairs[i]?).map (·.key)).getD []
  have hkey : ∀ i pr, cur.nd.pairs[i]? = some pr → key i = pr.key := by
    intro i pr h
    simp [key, h]
  have hf : ∀ i, i < cur.nd.pairs.length →
      (do let k ← cur.nd.getItem ((i : Int) * stride); pure (decide (cmp item k ≤ 0)) :
        Except Fault Bool) = .ok (decide (cmp item (key i) ≤ 0)) := by
    intro i hi
    have hpr : cur.nd.pairs[i]? = some (cur.nd.pairs.get ⟨i, hi⟩) := List.getElem?_eq_getElem hi
    rw [Node.getItem_key hpr, hkey i _ hpr]
    rfl
  have hmono : ∀ i j, i ≤ j → j < cur.nd.pairs.length →
      decide (cmp item (key i) ≤ 0) = true → decide (cmp item (key j) ≤ 0) = true := by
    intro i j hij hj hi
    rcases Nat.eq_or_lt_of_le hij with rfl | hlt
    · exact hi
    · have hpi : cur.nd.pairs[i]? = some (cur.nd.pairs.get ⟨i, by omega⟩) :=
        List.getElem?_eq_getElem (by omega)
      have hpj : cur.nd.pairs[j]? = some (cur.nd.pairs.get ⟨j, hj⟩) := List.getElem?_eq_getElem hj
      rw [hkey i _ hpi] at hi
      rw [hkey j _ hpj]
      have hlt2 : cmp (cur.nd.pairs.get ⟨i, by omega⟩).key (cur.nd.pairs.get ⟨j, hj⟩).key < 0 := by
        have := List.pairwise_iff_getElem.mp hs i j (by simp; omega) (by simpa using hj) hlt
        simpa using this
      exact decide_eq_true (htrans _ _ _ (of_decide_eq_true hi) (le_of_lt hlt2))
  obtain ⟨r, hr, hrn, hlow, hhigh⟩ := sortSearchLoop_spec _ cur.nd.pairs.length _ hf hmono
    cur.nd.pairs.length 0 cur.nd.pairs.length (Nat.zero_le _) (le_refl _) (by omega)
    (fun j hj => absurd hj (Nat.not_lt_zero _)) (fun j h1 h2 => absurd h2 (by omega))
  refine ⟨(r : Int) * stride, ?_, r, by unfold stride; ring, hrn, ?_, ?_⟩
  · simp only [bind, Except.bind, pure, Except.pure] at hr
    simp only [nodeCursor.search, sortSearch, hn, hr, bind, Except.bind, pure, Except.pure]
  · intro j pr hj hpr
    have := hlow j hj
    rw [hkey j pr hpr] at this
    have h2 := of_decide_eq_false this
    omega
  · intro pr hpr
    have hlt : r < cur.nd.pairs.length := by
      by_contra hcon
      rw [List.getElem?_eq_none (by omega)] at hpr
      cases hpr
    have := hhigh r (le_refl _) hlt
    rw [hkey r pr hpr] at this
    exact of_decide_eq_true this


theorem nodeCursor.search_isLowerBound {cmp : compareFn} (hc : LawfulCompare cmp)
    (cur : nodeCursor) (item : nodeItem) (hs : cur.nd.KeysSorted cmp) :
    ∃ r, cur.search item cmp = .ok r ∧ IsLowerBound cmp item cur.nd r :=
  nodeCursor.search_of_trans hc.trans cur item hs

theorem Node.pair_of_getItem {nd : Node} (heven : nd.nodeCount % 2 = 0) {i : Nat} {k : nodeItem}
    (h : nd.getItem (2 * (i : Int)) = .ok k) : ∃ pr, nd.pairs[i]? = some pr ∧ pr.key = k := by
  have e : (2 * (i : Int)) = ((2 * i : Nat) : Int) := by push_cast; ring
  rw [e, Node.getItem_natCast] at h
  cases hi : nd.items[2 * i]? with
  | none => rw [hi] at h; cases h
  | some a =>
    rw [hi] at h
    cases h
    have hlt : 2 * i < nd.items.length := by
      by_contra hc
      rw [List.getElem?_eq_none (by omega)] at hi
      cases hi
    have hlt1 : 2 * i + 1 < nd.items.length := by
      unfold Node.nodeCount at heven
      omega
    refine ⟨⟨k, nd.items.get ⟨2 * i + 1, hlt1⟩⟩, ?_, rfl⟩
    exact (pairUp_getElem? i nd.items _).mpr ⟨hi, List.getElem?_eq_getElem hlt1⟩

theorem Node.getItem_of_pair {nd : Node} {i : Nat} {pr : nodePair} (h : nd.pairs[i]? = some pr) :
    nd.getItem (2 * (i : Int)) = .ok pr.key := by
  have := Node.getItem_key h
  have e : (i : Int) * stride = 2 * (i : Int) := by unfold stride; ring
  rwa [e] at this

theorem bytesCompare_refl : ∀ a, bytesCompare a a = 0
  | [] => rfl
  | a :: as => by simp [bytesCompare, bytesCompare_refl as]

theorem bytesCompare_flip : ∀ a b, bytesCompare a b < 0 ↔ 0 < bytesCompare b a
  | [], [] => by simp [bytesCompare]
  | [], _ :: _ => by simp [bytesCompare]
  | _ :: _, [] => by simp [bytesCompare]
  | a :: as, b :: bs => by
    have ih := bytesCompare_flip as bs
    simp only [bytesCompare]
    split_ifs <;> omega

theorem bytesCompare_flip_le : ∀ a b, bytesCompare a b ≤ 0 ↔ 0 ≤ bytesCompare b a
  | [], [] => by simp [bytesCompare]
  | [], _ :: _ => by simp [bytesCompare]
  | _ :: _, [] => by simp [bytesCompare]
  | a :: as, b :: bs => by
    have ih := bytesCompare_flip_le as bs
    simp only [bytesCompare]
    split_ifs <;> omega

theorem bytesCompare_trans : ∀ a b c, bytesCompare a b ≤ 0 → bytesCompare b c ≤ 0 →
    bytesCompare a c ≤ 0
  | [], _, [] => by simp [bytesCompare]
  | [], _, _ :: _ => by simp [bytesCompare]
  | _ :: _, [], _ => by simp [bytesCompare]
  | _ :: _, _ :: _, [] => by simp [bytesCompare]
  | a :: as, b :: bs, c :: cs => by
    have ih := bytesCompare_trans as bs cs
    simp only [bytesCompare]
    split_ifs <;> omega

theorem bytesCompare_eq : ∀ a b, bytesCompare a b = 0 → a = b
  | [], [] => fun _ => rfl
  | [], _ :: _ => by simp [bytesCompare]
  | _ :: _, [] => by simp [bytesCompare]
  | a :: as, b :: bs => by
    have ih := bytesCompare_eq as bs
    simp only [bytesCompare]
    split_ifs with h1 h2
    · simp
    · simp
    · intro h
      rw [ih h, show a = b by omega]

theorem bytesCompare_lawful : LawfulCompare bytesCompare :=
  ⟨bytesCompare_refl, bytesCompare_flip, bytesCompare_trans, bytesCompare_eq⟩

theorem bind_ok_iff {α β : Type} {x : Except Fault α} {f : α → Except Fault β} {b : β} :
    (x >>= f) = .ok b ↔ ∃ a, x = .ok a ∧ f a = .ok b := by
  cases x <;> simp [bind, Except.bind]

theorem nodeCursor.Linked_setIdx {c : nodeCursor} {i : Int} :
    (c.setIdx i).Linked getPair ↔ c.Linked getPair := by
  cases c <;> simp [nodeCursor.setIdx, nodeCursor.Linked]

theorem nodeCursor.Linked_keepInBounds {c : nodeCursor} :
    c.keepInBounds.Linked getPair ↔ c.Linked getPair := by
  unfold nodeCursor.keepInBounds nodeCursor.skipToNodeStart nodeCursor.skipToNodeEnd
  simp only []
  split_ifs <;> simp [nodeCursor.Linked_setIdx]

theorem nodeCursor.Linked_child_of {f : Frame} {p : nodeCursor} {pr : nodePair} {nd : Node}
    {i : Int} (hp : p.Linked getPair) (h1 : p.currentPair getPair = .ok pr)
    (h2 : fetchChild f.nrw pr.value = .ok nd) :
    (nodeCursor.child { f with nd := nd, idx := i } p).Linked getPair := by
  refine ⟨?_, hp⟩
  simp [h1, h2, bind, Except.bind]

theorem newCursorAtStartLoop_linked {nrw : NodeStore} : ∀ (fuel : Nat) (cur c : nodeCursor),
    cur.Linked getPair → newCursorAtStartLoop getPair nrw fuel cur = .ok c → c.Linked getPair := by
  intro fuel
  induction fuel with
  | zero => intro cur c _ h; simp [newCursorAtStartLoop] at h
  | succ n ih =>
    intro cur c hl h
    rw [newCursorAtStartLoop] at h
    split_ifs at h with hleaf
    · cases h; exact hl
    · obtain ⟨pr, hpr, h⟩ := bind_ok_iff.mp h
      obtain ⟨nd, hnd, h⟩ := bind_ok_iff.mp h
      exact ih _ c (nodeCursor.Linked_child_of (f := ⟨nd, 0, nrw⟩) hl hpr hnd) h

theorem newCursorAtEndLoop_linked {nrw : NodeStore} : ∀ (fuel : Nat) (cur c : nodeCursor),
    cur.Linked getPair → newCursorAtEndLoop getPair nrw fuel cur = .ok c → c.Linked getPair := by
  intro fuel
  induction fuel with
  | zero => intro cur c _ h; simp [newCursorAtEndLoop] at h
  | succ n ih =>
    intro cur c hl h
    rw [newCursorAtEndLoop] at h
    split_ifs at h with hleaf
    · cases h; exact hl
    · obtain ⟨pr, hpr, h⟩ := bind_ok_iff.mp h
      obtain ⟨nd, hnd, h⟩ := bind_ok_iff.mp h
      refine ih _ c ?_ h
      rw [nodeCursor.skipToNodeEnd, nodeCursor.Linked_setIdx]
      exact nodeCursor.Linked_child_of (f := ⟨nd, 0, nrw⟩) hl hpr hnd

theorem newCursorAtItemLoop_linked {nrw : NodeStore} {item : nodeItem} {search : searchFn} :
    ∀ (fuel : Nat) (cur c : nodeCursor), cur.Linked getPair →
      newCursorAtItemLoop getPair nrw item search fuel cur = .ok c → c.Linked getPair := by
  intro fuel
  induction fuel with
  | zero => intro cur c _ h; simp [newCursorAtItemLoop] at h
  | succ n ih =>
    intro cur c hl h
    rw [newCursorAtItemLoop] at h
    split_ifs at h with hleaf
    · cases h; exact hl
    · obtain ⟨pr, hpr, h⟩ := bind_ok_iff.mp h
      obtain ⟨nd, hnd, h⟩ := bind_ok_iff.mp h
      exact ih _ c (nodeCursor.Linked_child_of (f := ⟨nd, search item nd, nrw⟩)
        (nodeCursor.Linked_keepInBounds.mpr hl) hpr hnd) h

theorem nodeCursor.fetchNode_linked {f : Frame} {p c1 : nodeCursor} (hp : p.Linked getPair)
    (h : nodeCursor.fetchNode getPair (.child f p) = .ok c1) : c1.Linked getPair := by
  rw [nodeCursor.fetchNode] at h
  obtain ⟨pr, hpr, h⟩ := bind_ok_iff.mp h
  obtain ⟨nd, hnd, h⟩ := bind_ok_iff.mp h
  cases h
  exact nodeCursor.Linked_child_of hp hpr hnd

/-- When `advanceInBounds` returns false it has changed no frame. -/
theorem nodeCursor.advanceInBounds_false : ∀ (c c1 : nodeCursor),
    c.advanceInBounds getPair = .ok (false, c1) → c1 = c := by
  intro c
  induction c with
  | root f =>
    intro c1 h
    rw [nodeCursor.advanceInBounds] at h
    split_ifs at h
    · cases h
    · cases h; rfl
    · obtain ⟨_, _, h⟩ := bind_ok_iff.mp h
      cases h; rfl
  | child f p ih =>
    intro c1 h
    rw [nodeCursor.advanceInBounds] at h
    split_ifs at h
    · cases h
    · cases h; rfl
    · obtain ⟨_, _, h⟩ := bind_ok_iff.mp h
      obtain ⟨⟨b, p1⟩, hp, h⟩ := bind_ok_iff.mp h
      cases b
      · simp only [Bool.false_eq_true, if_false, pure, Except.pure] at h
        cases h
        rw [ih p1 hp]
      · simp only [if_true] at h
        obtain ⟨_, _, h⟩ := bind_ok_iff.mp h
        cases h

/-- When `retreatInBounds` returns false it has changed no frame. -/
theorem nodeCursor.retreatInBounds_false : ∀ (c c1 : nodeCursor),
    c.retreatInBounds getPair = .ok (false, c1) → c1 = c := by
  intro c
  induction c with
  | root f =>
    intro c1 h
    rw [nodeCursor.retreatInBounds] at h
    split_ifs at h
    · cases h
    · cases h; rfl
    · obtain ⟨_, _, h⟩ := bind_ok_iff.mp h
      cases h; rfl
  | child f p ih =>
    intro c1 h
    rw [nodeCursor.retreatInBounds] at h
    split_ifs at h
    · cases h
    · cases h; rfl
    · obtain ⟨_, _, h⟩ := bind_ok_iff.mp h
      obtain ⟨⟨b, p1⟩, hp, h⟩ := bind_ok_iff.mp h
      cases b
      · simp only [Bool.false_eq_true, if_false, pure, Except.pure] at h
        cases h
        rw [ih p1 hp]
      · simp only [if_true] at h
        obtain ⟨_, _, h⟩ := bind_ok_iff.mp h
        cases h

theorem nodeCursor.advanceInBounds_linked : ∀ (c c1 : nodeCursor) (b : Bool),
    c.Linked getPair → c.advanceInBounds getPair = .ok (b, c1) → c1.Linked getPair := by
  intro c
  induction c with
  | root f =>
    intro c1 b _ h
    rw [nodeCursor.advanceInBounds] at h
    split_ifs at h
    · cases h; trivial
    · cases h; trivial
    · obtain ⟨_, _, h⟩ := bind_ok_iff.mp h
      cases h; trivial
  | child f p ih =>
    intro c1 b hl h
    rw [nodeCursor.advanceInBounds] at h
    split_ifs at h
    · cases h; exact hl
    · cases h; exact hl
    · obtain ⟨_, _, h⟩ := bind_ok_iff.mp h
      obtain ⟨⟨b1, p1⟩, hp, h⟩ := bind_ok_iff.mp h
      cases b1
      · simp only [Bool.false_eq_true, if_false, pure, Except.pure] at h
        cases h
        rw [nodeCursor.advanceInBounds_false p p1 hp]
        exact hl
      · simp only [if_true] at h
        obtain ⟨c2, hc2, h⟩ := bind_ok_iff.mp h
        cases h
        rw [nodeCursor.skipToNodeStart, nodeCursor.Linked_setIdx]
        exact nodeCursor.fetchNode_linked (ih p1 true hl.2 hp) hc2

theorem nodeCursor.retreatInBounds_linked : ∀ (c c1 : nodeCursor) (b : Bool),
    c.Linked getPair → c.retreatInBounds getPair = .ok (b, c1) → c1.Linked getPair := by
  intro c
  induction c with
  | root f =>
    intro c1 b _ h
    rw [nodeCursor.retreatInBounds] at h
    split_ifs at h
    · cases h; trivial
    · cases h; trivial
    · obtain ⟨_, _, h⟩ := bind_ok_iff.mp h
      cases h; trivial
  | child f p ih =>
    intro c1 b hl h
    rw [nodeCursor.retreatInBounds] at h
    split_ifs at h
    · cases h; exact hl
    · cases h; exact hl
    · obtain ⟨_, _, h⟩ := bind_ok_iff.mp h
      obtain ⟨⟨b1, p1⟩, hp, h⟩ := bind_ok_iff.mp h
      cases b1
      · simp only [Bool.false_eq_true, if_false, pure, Except.pure] at h
        cases h
        rw [nodeCursor.retreatInBounds_false p p1 hp]
        exact hl
      · simp only [if_true] at h
        obtain ⟨c2, hc2, h⟩ := bind_ok_iff.mp h
        cases h
        rw [nodeCursor.skipToNodeEnd, nodeCursor.Linked_setIdx]
        exact nodeCursor.fetchNode_linked (ih p1 true hl.2 hp) hc2

theorem nodeCursor.seek_linked {item : nodeItem} {cb : compareFn} : ∀ (c c1 : nodeCursor),
    c.Linked getPair → nodeCursor.seek getPair item cb c = .ok c1 → c1.Linked getPair := by
  intro c
  induction c with
  | root f =>
    intro c1 _ h
    rw [nodeCursor.seek] at h
    obtain ⟨_, _, h⟩ := bind_ok_iff.mp h
    cases h
    trivial
  | child f p ih =>
    intro c1 hl h
    rw [nodeCursor.seek] at h
    obtain ⟨k0, _, h⟩ := bind_ok_iff.mp h
    obtain ⟨inb, _, h⟩ := bind_ok_iff.mp h
    cases inb
    · simp only [Bool.not_false, if_true] at h
      obtain ⟨p1, hp1, h⟩ := bind_ok_iff.mp h
      obtain ⟨pr, hpr, h⟩ := bind_ok_iff.mp h
      obtain ⟨nd, hnd, h⟩ := bind_ok_iff.mp h
      obtain ⟨i, _, h⟩ := bind_ok_iff.mp h
      cases h
      exact nodeCursor.Linked_child_of (nodeCursor.Linked_keepInBounds.mpr (ih p1 hl.2 hp1)) hpr hnd
    · simp only [Bool.not_true, Bool.false_eq_true, if_false] at h
      obtain ⟨i, _, h⟩ := bind_ok_iff.mp h
      cases h
      exact hl

theorem nodeCursor.setIdx_self (c : nodeCursor) : c.setIdx c.idx = c := by
  cases c <;> rfl

theorem nodeCursor.advanceInBounds_step (c : nodeCursor) (h : c.idx < c.nd.nodeCount - stride) :
    c.advanceInBounds getPair = .ok (true, c.setIdx (c.idx + stride)) := by
  cases c with
  | root f => exact nodeCursor.advanceInBounds_root_step h
  | child f p => exact nodeCursor.advanceInBounds_child_step h

theorem nodeCursor.advanceInBounds_pastEnd (c : nodeCursor) (h : c.idx = c.nd.nodeCount) :
    c.advanceInBounds getPair = .ok (false, c) := by
  have h1 : ¬ c.idx < c.nd.nodeCount - stride := by unfold stride; omega
  cases c with
  | root f =>
    simp only [nodeCursor.idx_root, nodeCursor.nd_root] at h h1
    rw [nodeCursor.advanceInBounds, if_neg h1, if_pos h]
  | child f p =>
    simp only [nodeCursor.idx_child, nodeCursor.nd_child] at h h1
    rw [nodeCursor.advanceInBounds, if_neg h1, if_pos h]

theorem nodeCursor.retreatInBounds_step (c : nodeCursor) (h : c.idx > 0) :
    c.retreatInBounds getPair = .ok (true, c.setIdx (c.idx - stride)) := by
  cases c with
  | root f => exact nodeCursor.retreatInBounds_root_step h
  | child f p => exact nodeCursor.retreatInBounds_child_step h

theorem nodeCursor.retreatInBounds_beforeStart (c : nodeCursor) (h : c.idx = -stride) :
    c.retreatInBounds getPair = .ok (false, c) := by
  have h1 : ¬ c.idx > 0 := by unfold stride at h; omega
  cases c with
  | root f =>
    simp only [nodeCursor.idx_root] at h h1
    rw [nodeCursor.retreatInBounds, if_neg h1, if_pos h]
  | child f p =>
    simp only [nodeCursor.idx_child] at h h1
    rw [nodeCursor.retreatInBounds, if_neg h1, if_pos h]

theorem nodeCursor.onPair.valid {c : nodeCursor} {k : Nat} {nrw : NodeStore} {L : Nat}
    (h : c.onPair k) (hwf : WellFormed nrw L c.nd) : c.valid = true := by
  have := hwf.nodeCount
  obtain ⟨h1, h2⟩ := h
  simp only [nodeCursor.valid, Bool.and_eq_true, decide_eq_true_eq]
  omega

theorem nodeCursor.Over_setIdx {nrw : NodeStore} {L : Nat} {c : nodeCursor} {i : Int} :
    (c.setIdx i).Over nrw L ↔ c.Over nrw L := by
  cases c <;> simp [nodeCursor.setIdx, nodeCursor.Over]

theorem exCursor_over (k : Nat) (i : Int) (hk : k < 5) : (exCursor k i).Over exStore 0 := by
  refine nodeCursor.Over_child.mpr ⟨rfl, nodeCursor.Over_root.mpr ⟨rfl, exRoot_wellFormed⟩, k,
    ⟨[98 + 2 * k], newMetaValue 2 (exHash k)⟩, rfl, ?_, ?_⟩
  · interval_cases k <;> rfl
  · interval_cases k <;> rfl

theorem Frame.eta_idx (f : Frame) (i : Int) (h : i = f.idx) : { f with idx := i } = f := by
  cases f
  simp only [h]

/-- One step back undoes one step forward. -/
theorem nodeCursor.retreat_after_advance (hgp : PairsByItem getPair) {nrw : NodeStore} :
    ∀ (c c1 : nodeCursor) (L k : Nat), c.Over nrw L → c.onPair k →
      c.advanceInBounds getPair = .ok (true, c1) →
      c1.retreatInBounds getPair = .ok (true, c) := by
  intro c
  induction c with
  | root f =>
    intro c1 L k hov hon hadv
    have hcount := hov.wf.nodeCount
    obtain ⟨hidx, hlt⟩ := hon
    simp only [nodeCursor.idx_root, nodeCursor.nd_root] at hidx hlt hcount
    by_cases hk : f.idx < f.nd.nodeCount - stride
    · rw [nodeCursor.advanceInBounds_root_step hk] at hadv
      cases hadv
      rw [nodeCursor.retreatInBounds_root_step (by simp only; unfold stride; omega)]
      simp only [add_sub_cancel_right]
    · rw [nodeCursor.advanceInBounds_root_last (by unfold stride at hk ⊢; omega)] at hadv
      cases hadv
  | child f p ih =>
    intro c1 L k hov hon hadv
    have hcount := hov.wf.nodeCount
    obtain ⟨hidx, hlt⟩ := hon
    obtain ⟨hnrw, hpov, kp, prp, hpidx, hprp, hfetch⟩ := nodeCursor.Over_child.mp hov
    simp only [nodeCursor.idx_child, nodeCursor.nd_child] at hidx hlt hcount
    by_cases hk : f.idx < f.nd.nodeCount - stride
    · rw [nodeCursor.advanceInBounds_child_step hk] at hadv
      cases hadv
      rw [nodeCursor.retreatInBounds_child_step (by simp only; unfold stride; omega)]
      simp only [add_sub_cancel_right]
    · have hlast : f.idx = f.nd.nodeCount - stride := by unfold stride at hk ⊢; omega
      have hplt : kp < p.nd.pairs.length := by
        by_contra hc
        rw [List.getElem?_eq_none (by omega)] at hprp
        cases hprp
      rw [nodeCursor.advanceInBounds_child_last hlast] at hadv
      rcases nodeCursor.advanceInBounds_spec hgp p (L + 1) kp hpov ⟨hpidx, hplt⟩ with
        ⟨p1, k1, hpadv, hov1, hon1, _⟩ | ⟨hpadv, _, _⟩
      · rw [hpadv] at hadv
        simp only [] at hadv
        obtain ⟨pr1, hpr1⟩ := hon1.get
        obtain ⟨nd1, hc1, hwf1⟩ := (hov1.wf).2.2.2 pr1 (List.getElem?_mem hpr1)
        rw [nodeCursor.fetchNode_child hgp (f := f) hon1.1 hpr1 (hnrw ▸ hc1)] at hadv
        simp only [Except.map, nodeCursor.skipToNodeStart, nodeCursor.setIdx] at hadv
        cases hadv
        rw [nodeCursor.retreatInBounds_child_first rfl,
          ih p1 (L + 1) kp hpov ⟨hpidx, hplt⟩ hpadv]
        simp only []
        rw [nodeCursor.fetchNode_child hgp hpidx hprp (hnrw ▸ hfetch)]
        simp only [Except.map, nodeCursor.skipToNodeEnd, nodeCursor.setIdx,
          nodeCursor.lastKeyIdx, nodeCursor.nd_child]
        rw [Frame.eta_idx f _ hlast.symm]
      · rw [hpadv] at hadv
        cases hadv

theorem retreatTimes_snoc : ∀ (n : Nat) (x y z : nodeCursor),
    retreatTimes getPair n x = .ok (true, y) → y.retreat getPair = .ok (true, z) →
    retreatTimes getPair (n + 1) x = .ok (true, z) := by
  intro n
  induction n with
  | zero =>
    intro x y z h1 h2
    simp only [retreatTimes] at h1
    cases h1
    simp [retreatTimes, h2, bind, Except.bind]
  | succ n ih =>
    intro x y z h1 h2
    rw [retreatTimes] at h1
    obtain ⟨⟨b, x1⟩, hx, h1⟩ := bind_ok_iff.mp h1
    cases b
    · simp [pure, Except.pure] at h1
    · simp only [if_true] at h1
      rw [retreatTimes, hx]
      simp only [bind, Except.bind, if_true]
      exact ih x1 y z h1 h2

theorem take_flatMap_length_mono {α β : Type} (g : α → List β) (l : List α) {a b : Nat}
    (h : a ≤ b) : ((l.take a).flatMap g).length ≤ ((l.take b).flatMap g).length := by
  have e : l.take b = (l.take b).take a ++ (l.take b).drop a := (List.take_append_drop a _).symm
  rw [e, List.flatMap_append, List.length_append, List.take_take, Nat.min_eq_left h]
  omega

theorem take_succ_flatMap_length {α β : Type} (g : α → List β) (l : List α) (k : Nat) (a : α)
    (h : l[k]? = some a) :
    ((l.take (k + 1)).flatMap g).length = ((l.take k).flatMap g).length + (g a).length := by
  rw [flatMap_take_succ g l k a h, List.length_append]

theorem node_idx_unique {α β : Type} (g : α → List β) (l : List α) {k k1 : Nat} {a a1 : α}
    (hk : l[k]? = some a) (hk1 : l[k1]? = some a1) {b x : Nat}
    (h1 : b + ((l.take k).flatMap g).length ≤ x)
    (h2 : x < b + ((l.take k).flatMap g).length + (g a).length)
    (h3 : b + ((l.take k1).flatMap g).length ≤ x)
    (h4 : x < b + ((l.take k1).flatMap g).length + (g a1).length) : k = k1 := by
  have e := take_succ_flatMap_length g l k a hk
  have e1 := take_succ_flatMap_length g l k1 a1 hk1
  rcases Nat.lt_trichotomy k k1 with h | h | h
  · have := take_flatMap_length_mono g l (show k + 1 ≤ k1 by omega)
    omega
  · exact h
  · have := take_flatMap_length_mono g l (show k1 + 1 ≤ k by omega)
    omega

theorem Frame.ext_of {f g : Frame} (h1 : f.nd = g.nd) (h2 : f.idx = g.idx) (h3 : f.nrw = g.nrw) :
    f = g := by
  cases f; cases g
  simp only at h1 h2 h3
  subst h1 h2 h3
  rfl

theorem nodeCursor.Over.parent_onPair {nrw : NodeStore} {L : Nat} {f : Frame} {p : nodeCursor}
    (h : (nodeCursor.child f p).Over nrw L) :
    ∃ (k : Nat) (pr : nodePair), p.onPair k ∧ p.nd.pairs[k]? = some pr ∧
      fetchChild nrw pr.value = .ok f.nd := by
  obtain ⟨_, _, kp, prp, hpidx, hprp, hfetch⟩ := nodeCursor.Over_child.mp h
  have hplt : kp < p.nd.pairs.length := by
    by_contra hc
    rw [List.getElem?_eq_none (by omega)] at hprp
    cases hprp
  exact ⟨kp, prp, ⟨hpidx, hplt⟩, hprp, hfetch⟩

/-- Two cursors over the same tree whose current pairs cover a common leaf position
are the same cursor. -/
theorem nodeCursor.interval_unique {nrw : NodeStore} (x : Nat) :
    ∀ (c c1 : nodeCursor) (L k k1 : Nat), c.Over nrw L → c1.Over nrw L → c.onPair k →
      c1.onPair k1 → c.rootNode = c1.rootNode → c.depth = c1.depth →
      (c.before nrw L).length ≤ x → x < (c.before nrw L).length + (c.here nrw L).length →
      (c1.before nrw L).length ≤ x → x < (c1.before nrw L).length + (c1.here nrw L).length →
      c = c1 := by
  intro c
  induction c with
  | root f =>
    intro c1 L k k1 hov hov1 hon hon1 hroot hdep h1 h2 h3 h4
    cases c1 with
    | child f1 p1 => simp [nodeCursor.depth] at hdep
    | root f1 =>
      have hnd : f.nd = f1.nd := hroot
      obtain ⟨pr, hpr⟩ := hon.get
      obtain ⟨pr1, hpr1⟩ := hon1.get
      simp only [nodeCursor.nd_root] at hpr hpr1
      rw [nodeCursor.before_root (f := f) hon.1] at h1 h2
      rw [nodeCursor.here_eq hon.1 hpr] at h2
      rw [nodeCursor.before_root (f := f1) hon1.1, ← hnd] at h3 h4
      rw [nodeCursor.here_eq hon1.1 hpr1] at h4
      rw [← hnd] at hpr1
      have hk := node_idx_unique (under nrw L) f.nd.pairs hpr hpr1 (b := 0) (x := x)
        (by omega) (by omega) (by omega) (by omega)
      have hidx : f.idx = f1.idx := by
        have := hon.1
        have := hon1.1
        simp only [nodeCursor.idx_root] at *
        omega
      rw [Frame.ext_of hnd hidx ((nodeCursor.Over_root.mp hov).1.trans
        (nodeCursor.Over_root.mp hov1).1.symm)]
  | child f p ih =>
    intro c1 L k k1 hov hov1 hon hon1 hroot hdep h1 h2 h3 h4
    cases c1 with
    | root f1 => simp [nodeCursor.depth] at hdep
    | child f1 p1 =>
      obtain ⟨kp, prp, honp, hprp, hfetch⟩ := hov.parent_onPair
      obtain ⟨kp1, prp1, honp1, hprp1, hfetch1⟩ := hov1.parent_onPair
      obtain ⟨hnrw, hpov, _⟩ := nodeCursor.Over_child.mp hov
      obtain ⟨hnrw1, hpov1, _⟩ := nodeCursor.Over_child.mp hov1
      obtain ⟨pr, hpr⟩ := hon.get
      obtain ⟨pr1, hpr1⟩ := hon1.get
      simp only [nodeCursor.nd_child] at hpr hpr1
      rw [nodeCursor.before_child (f := f) hon.1, List.length_append] at h1 h2
      rw [nodeCursor.here_eq hon.1 hpr] at h2
      rw [nodeCursor.before_child (f := f1) hon1.1, List.length_append] at h3 h4
      rw [nodeCursor.here_eq hon1.1 hpr1] at h4
      have hhp : (p.here nrw (L + 1)).length = (f.nd.pairs.flatMap (under nrw L)).length := by
        rw [nodeCursor.here_eq honp.1 hprp, under_succ hfetch, leafPairs]
      have hhp1 : (p1.here nrw (L + 1)).length = (f1.nd.pairs.flatMap (under nrw L)).length := by
        rw [nodeCursor.here_eq honp1.1 hprp1, under_succ hfetch1, leafPairs]
      have hs := take_succ_flatMap_length (under nrw L) f.nd.pairs k pr hpr
      have hs1 := take_succ_flatMap_length (under nrw L) f1.nd.pairs k1 pr1 hpr1
      have hm : ((f.nd.pairs.take (k + 1)).flatMap (under nrw L)).length ≤
          (f.nd.pairs.flatMap (under nrw L)).length := by
        have := take_flatMap_length_mono (under nrw L) f.nd.pairs
          (show k + 1 ≤ f.nd.pairs.length from hon.2)
        rwa [List.take_length] at this
      have hm1 : ((f1.nd.pairs.take (k1 + 1)).flatMap (under nrw L)).length ≤
          (f1.nd.pairs.flatMap (under nrw L)).length := by
        have := take_flatMap_length_mono (under nrw L) f1.nd.pairs
          (show k1 + 1 ≤ f1.nd.pairs.length from hon1.2)
        rwa [List.take_length] at this
      have hpp : p = p1 := ih p1 (L + 1) kp kp1 hpov hpov1 honp honp1 hroot
        (by simpa [nodeCursor.depth] using hdep) (by omega) (by omega) (by omega) (by omega)
      subst hpp
      have hkp : kp = kp1 := by
        have := honp.1
        have := honp1.1
        omega
      subst hkp
      rw [hprp] at hprp1
      cases hprp1
      rw [hfetch] at hfetch1
      have hnd : f.nd = f1.nd := Except.ok.inj hfetch1
      rw [← hnd] at hpr1 h3 h4
      have hk := node_idx_unique (under nrw L) f.nd.pairs hpr hpr1
        (b := (p.before nrw (L + 1)).length) (x := x) (by omega) (by omega) (by omega) (by omega)
      have hidx : f.idx = f1.idx := by
        have := hon.1
        have := hon1.1
        simp only [nodeCursor.idx_child] at *
        omega
      rw [Frame.ext_of hnd hidx (hnrw.trans hnrw1.symm)]

theorem nodeCursor.Over.inherit {nrw : NodeStore} (P : Nat → Node → Prop)
    (hP : ∀ L nd pr c, P (L + 1) nd → pr ∈ nd.pairs → fetchChild nrw pr.value = .ok c → P L c) :
    ∀ (c : nodeCursor) (L : Nat), c.Over nrw L → P (L + c.depth) c.rootNode → P L c.nd := by
  intro c
  induction c with
  | root f => intro L _ h; exact h
  | child f p ih =>
    intro L hov h
    obtain ⟨kp, prp, honp, hprp, hfetch⟩ := hov.parent_onPair
    obtain ⟨_, hpov, _⟩ := nodeCursor.Over_child.mp hov
    have e : L + (nodeCursor.child f p).depth = L + 1 + p.depth := by
      simp only [nodeCursor.depth]; omega
    rw [e] at h
    exact hP L p.nd prp f.nd (ih (L + 1) hpov h) (List.getElem?_mem hprp) hfetch

theorem CountsInItems.subtree_counts {nrw : NodeStore} (L : Nat) (nd : Node) (pr : nodePair) (c : Node)
    (h : CountsInItems nrw (L + 1) nd) (hpr : pr ∈ nd.pairs)
    (hc : fetchChild nrw pr.value = .ok c) : CountsInItems nrw L c := by
  obtain ⟨c1, h1, _, h3⟩ := h pr hpr
  rw [hc] at h1
  rw [Except.ok.inj h1]
  exact h3

theorem CountsInItems.count {nrw : NodeStore} {L : Nat} {nd : Node} {pr : nodePair}
    (h : CountsInItems nrw (L + 1) nd) (hpr : pr ∈ nd.pairs) :
    GetCumulativeCount pr.value = 2 * (under nrw (L + 1) pr).length := by
  obtain ⟨c1, h1, h2, _⟩ := h pr hpr
  rw [h2, under_succ h1]

theorem WellFormed.under_pos {nrw : NodeStore} : ∀ {L : Nat} {nd : Node} {pr : nodePair},
    WellFormed nrw L nd → pr ∈ nd.pairs → 0 < (under nrw L pr).length
  | 0, _, _, _, _ => by simp [under]
  | L + 1, _, pr, h, hpr => by
    obtain ⟨c, hc, hwf⟩ := h.2.2.2 pr hpr
    rw [under_succ hc]
    exact hwf.leafPairs_pos

theorem leafPairs_zero_length (nrw : NodeStore) (l : List nodePair) :
    (l.flatMap (under nrw 0)).length = l.length := by
  induction l with
  | nil => rfl
  | cons a l ih => simp [List.flatMap_cons, under, ih]

theorem advanceTimes_rank (hgp : PairsByItem getPair) {nrw : NodeStore} :
    ∀ (n : Nat) (c : nodeCursor) (k : Nat), c.Over nrw 0 → c.onPair k →
      n ≤ (c.after nrw 0).length →
      ∃ c1 k1, advanceTimes getPair n c = .ok (true, c1) ∧ c1.Over nrw 0 ∧ c1.onPair k1 ∧
        c1.depth = c.depth ∧ c1.rootNode = c.rootNode ∧
        (c1.before nrw 0).length = (c.before nrw 0).length + n := by
  intro n
  induction n with
  | zero =>
    intro c k hov hon _
    exact ⟨c, k, rfl, hov, hon, rfl, rfl, rfl⟩
  | succ n ih =>
    intro c k hov hon hn
    obtain ⟨pr, hpr⟩ := hon.get
    have hhere : c.here nrw 0 = [pr] := by rw [nodeCursor.here_eq hon.1 hpr]; rfl
    rcases nodeCursor.advanceInBounds_spec hgp c 0 k hov hon with
      ⟨c2, k2, hadv, hov2, hon2, hdep, hroot, hlist, hbef⟩ | ⟨_, hafter, _⟩
    · obtain ⟨pr2, hpr2⟩ := hon2.get
      have hhere2 : c2.here nrw 0 = [pr2] := by rw [nodeCursor.here_eq hon2.1 hpr2]; rfl
      have hlen : n ≤ (c2.after nrw 0).length := by
        rw [← hlist, hhere2] at hn
        simp only [List.length_append, List.length_singleton] at hn
        omega
      obtain ⟨c1, k1, h1, h2, h3, h4, h5, h6⟩ := ih c2 k2 hov2 hon2 hlen
      refine ⟨c1, k1, ?_, h2, h3, h4.trans hdep, h5.trans hroot, ?_⟩
      · rw [advanceTimes, nodeCursor.advance_eq hadv]
        simp only [bind, Except.bind, if_true]
        exact h1
      · rw [h6, hbef, hhere]
        simp only [List.length_append, List.length_singleton]
        omega
    · rw [hafter] at hn
      simp at hn

theorem intSub_self (x : Int) : intSub x x = 0 := by
  unfold intSub
  split_ifs <;> omega

theorem intSub_eq_zero {x y : Int} : intSub x y = 0 ↔ x = y := by
  unfold intSub
  split_ifs <;> omega

/-- A difference within the range of `int` is not changed by the subtraction of Go. -/
theorem intSub_of_fits {x y : Int} (h1 : -(2 ^ 63) ≤ x - y) (h2 : x - y < 2 ^ 63) :
    intSub x y = x - y := by
  unfold intSub
  split_ifs <;> omega

theorem intOfUint64_eq (d : Nat) (h : d < 2 ^ 64) :
    intOfUint64 d = if d < 2 ^ 63 then (d : Int) else (d : Int) - 2 ^ 64 := by
  unfold intOfUint64
  split_ifs <;> omega

/-- A distance that is an index into the leaf is the leaf idx `newCursorAtIndex` sets. -/
theorem intOfUint64_index {nd : Node} {d : Nat} (h : (d : Int) < nd.nodeCount) :
    (if nd.nodeCount < 2 ^ 63 then intOfUint64 d else (d : Int)) = (d : Int) := by
  split_ifs with h1
  · unfold intOfUint64
    omega
  · rfl

theorem nodeCursor.compare_self : ∀ (c : nodeCursor), c.compare c = .ok 0
  | .root f => by
    simp [nodeCursor.compare, assertTrue, bind, Except.bind, pure, Except.pure, intSub_self]
  | .child f p => by
    simp [nodeCursor.compare, nodeCursor.compare_self p, assertTrue, bind, Except.bind, pure,
      Except.pure, intSub_self]

theorem newCursorAtIndexSkip_spec (hgp : PairsByItem getPair) {nrw : NodeStore} (L : Nat)
    (R : Node) (D : Nat)
    (hcounts : ∀ (c : nodeCursor), c.Over nrw (L + 1) → c.rootNode = R → c.depth = D →
      CountsInItems nrw (L + 1) c.nd) :
    ∀ (fuel : Nat) (cur : nodeCursor) (k : Nat) (pr : nodePair) (d : Nat),
      cur.Over nrw (L + 1) → cur.rootNode = R → cur.depth = D → cur.onPair k →
      cur.nd.pairs[k]? = some pr →
      d < 2 * (cur.here nrw (L + 1) ++ cur.after nrw (L + 1)).length → d / 2 < fuel →
      ∃ c1 k1 pr1 d1, newCursorAtIndexSkip getPair fuel cur d pr.value = .ok (c1, d1, pr1.value) ∧
        c1.Over nrw (L + 1) ∧ c1.onPair k1 ∧ c1.nd.pairs[k1]? = some pr1 ∧
        d1 < 2 * (c1.here nrw (L + 1)).length ∧ d1 % 2 = d % 2 ∧ d1 ≤ d ∧
        2 * (c1.before nrw (L + 1)).length + d1 = 2 * (cur.before nrw (L + 1)).length + d ∧
        c1.depth = D ∧ c1.rootNode = R := by
  intro fuel
  induction fuel with
  | zero => intro cur k pr d _ _ _ _ _ _ hf; omega
  | succ fuel ih =>
    intro cur k pr d hov hR hD hon hpr hd hf
    have hcnt := (hcounts cur hov hR hD).count (List.getElem?_mem hpr)
    have hhere : cur.here nrw (L + 1) = under nrw (L + 1) pr := nodeCursor.here_eq hon.1 hpr
    have hpos := hov.wf.under_pos (List.getElem?_mem hpr)
    by_cases hge : d ≥ GetCumulativeCount pr.value
    · rcases nodeCursor.advanceInBounds_spec hgp cur (L + 1) k hov hon with
        ⟨c2, k2, hadv, hov2, hon2, hdep, hroot, hlist, hbef⟩ | ⟨_, hafter, _⟩
      · obtain ⟨pr2, hpr2⟩ := hon2.get
        have hd2 : d - GetCumulativeCount pr.value <
            2 * (c2.here nrw (L + 1) ++ c2.after nrw (L + 1)).length := by
          rw [hlist]
          rw [List.length_append, hhere] at hd
          omega
        obtain ⟨c1, k1, pr1, d1, h1, h2, h3, h4, h5, h6, hle, h7, h8, h9⟩ :=
          ih c2 k2 pr2 (d - GetCumulativeCount pr.value) hov2 (hroot.trans hR) (hdep.trans hD)
            hon2 hpr2 hd2 (by omega)
        refine ⟨c1, k1, pr1, d1, ?_, h2, h3, h4, h5, by omega, by omega, ?_, h8, h9⟩
        · rw [newCursorAtIndexSkip]
          simp only [hge, if_true, nodeCursor.advance_eq hadv, bind, Except.bind,
            nodeCursor.currentPair_eq hgp hon2.1 hpr2]
          exact h1
        · rw [h7, hbef, List.length_append, hhere]
          omega
      · rw [hafter, List.append_nil, hhere] at hd
        omega
    · refine ⟨cur, k, pr, d, ?_, hov, hon, hpr, ?_, rfl, le_refl _, rfl, hD, hR⟩
      · rw [newCursorAtIndexSkip]
        simp only [hge, if_false]
      · rw [hhere]
        omega

theorem nodeCursor.before_setIdx {nrw : NodeStore} {L : Nat} (c : nodeCursor) (k : Nat) :
    (c.setIdx (2 * (k : Int))).before nrw L =
      (c.setIdx 0).before nrw L ++ (c.nd.pairs.take k).flatMap (under nrw L) := by
  have h0 : (0 : Int) = 2 * ((0 : Nat) : Int) := by simp
  cases c with
  | root f =>
    simp only [nodeCursor.setIdx]
    rw [nodeCursor.before_root (f := { f with idx := 2 * (k : Int) }) rfl,
      nodeCursor.before_root (f := { f with idx := 0 }) h0]
    rfl
  | child f p =>
    simp only [nodeCursor.setIdx]
    rw [nodeCursor.before_child (f := { f with idx := 2 * (k : Int) }) rfl,
      nodeCursor.before_child (f := { f with idx := 0 }) h0]
    simp

theorem nodeCursor.here_after_ge (nrw : NodeStore) (L : Nat) (c : nodeCursor)
    (hon : c.onPair 0) :
    (leafPairs nrw L c.nd).length ≤ (c.here nrw L ++ c.after nrw L).length := by
  obtain ⟨pr, hpr⟩ := hon.get
  have hsplit := flatMap_drop_succ (under nrw L) c.nd.pairs 0 pr hpr
  rw [List.drop_zero] at hsplit
  rw [nodeCursor.here_eq hon.1 hpr, leafPairs, hsplit]
  cases c with
  | root f =>
    rw [nodeCursor.after_root (f := f) hon.1]
    rfl
  | child f p =>
    rw [nodeCursor.after_child (f := f) hon.1]
    simp only [List.length_append, nodeCursor.nd_child]
    omega

theorem newCursorAtIndexLoop_spec (hgp : PairsByItem getPair) {nrw : NodeStore} (R : Node)
    (Lr : Nat) (hc : CountsInItems nrw Lr R) :
    ∀ (L fuel : Nat) (cur : nodeCursor) (d : Nat), cur.Over nrw L → cur.rootNode = R →
      L + cur.depth = Lr → cur.onPair 0 → d < 2 * (leafPairs nrw L cur.nd).length → d % 2 = 0 →
      L + d / 2 < fuel →
      ∃ c d1, newCursorAtIndexLoop getPair nrw fuel cur d = .ok (c, d1) ∧
        (c.setIdx (d1 : Int)).Over nrw 0 ∧ (c.setIdx (d1 : Int)).onPair (d1 / 2) ∧
        (c.setIdx (d1 : Int)).rootNode = R ∧ (c.setIdx (d1 : Int)).depth = Lr ∧
        2 * ((c.setIdx (d1 : Int)).before nrw 0).length = 2 * (cur.before nrw L).length + d := by
  intro L
  induction L with
  | zero =>
    intro fuel cur d hov hR hD hon hd heven hf
    obtain ⟨n, rfl⟩ : ∃ n, fuel = n + 1 := ⟨fuel - 1, by omega⟩
    have hlen : (leafPairs nrw 0 cur.nd).length = cur.nd.pairs.length :=
      leafPairs_zero_length nrw _
    have hd2 : (d : Int) = 2 * ((d / 2 : Nat) : Int) := by omega
    have hself : cur.setIdx 0 = cur := by
      have := hon.1
      simp only [Nat.cast_zero, mul_zero] at this
      rw [← this, nodeCursor.setIdx_self]
    refine ⟨cur, d, ?_, nodeCursor.Over_setIdx.mpr hov, ⟨?_, ?_⟩, ?_, ?_, ?_⟩
    · simp [newCursorAtIndexLoop, (hov.wf.isLeaf_iff).mpr rfl]
    · simp only [nodeCursor.idx_setIdx]; exact hd2
    · simp only [nodeCursor.nd_setIdx]; omega
    · cases cur <;> exact hR
    · cases cur <;> simpa using hD
    · rw [hd2, nodeCursor.before_setIdx, hself, List.length_append, leafPairs_zero_length,
        List.length_take]
      omega
  | succ L ih =>
    intro fuel cur d hov hR hD hon hd heven hf
    obtain ⟨n, rfl⟩ : ∃ n, fuel = n + 1 := ⟨fuel - 1, by omega⟩
    obtain ⟨pr, hpr⟩ := hon.get
    have hleaf : cur.isLeaf = false := by
      cases h : cur.isLeaf
      · rfl
      · exact absurd ((hov.wf.isLeaf_iff).mp h) (by omega)
    have hcounts : ∀ (c : nodeCursor), c.Over nrw (L + 1) → c.rootNode = R →
        c.depth = cur.depth → CountsInItems nrw (L + 1) c.nd := by
      intro c hcov hcR hcD
      refine nodeCursor.Over.inherit (CountsInItems nrw) CountsInItems.subtree_counts c (L + 1) hcov ?_
      rw [hcR, hcD, hD]
      exact hc
    have hge := nodeCursor.here_after_ge nrw (L + 1) cur hon
    obtain ⟨c1, k1, pr1, d1, h1, hov1, hon1, hpr1, hd1, hpar, hle, hbef, hdep, hroot⟩ :=
      newCursorAtIndexSkip_spec hgp L R cur.depth hcounts (n + 1) cur 0 pr d hov hR rfl hon hpr
        (by omega) (by omega)
    obtain ⟨nd, hnd, hwf⟩ := (hov1.wf).2.2.2 pr1 (List.getElem?_mem hpr1)
    have h0 : (0 : Int) = 2 * ((0 : Nat) : Int) := by simp
    have hovc : (nodeCursor.child ⟨nd, 0, nrw⟩ c1).Over nrw L :=
      nodeCursor.Over_child.mpr ⟨rfl, hov1, k1, pr1, hon1.1, hpr1, hnd⟩
    rw [nodeCursor.here_eq hon1.1 hpr1, under_succ hnd] at hd1
    obtain ⟨c, d2, h2, h3, h4, h5, h6, h7⟩ := ih n (.child ⟨nd, 0, nrw⟩ c1) d1 hovc hroot
      (by simp only [nodeCursor.depth]; omega) ⟨h0, hwf.pairs_pos⟩ hd1 (by omega)
      (by have := Nat.div_le_div_right (c := 2) hle; omega)
    refine ⟨c, d2, ?_, h3, h4, h5, h6, ?_⟩
    · rw [newCursorAtIndexLoop]
      simp only [hleaf, Bool.false_eq_true, if_false, nodeCursor.currentPair_eq hgp hon.1 hpr,
        bind, Except.bind, h1, hnd]
      exact h2
    · rw [h7, nodeCursor.before_child (f := ⟨nd, 0, nrw⟩) h0]
      simp only [List.take_zero, List.flatMap_nil, List.append_nil]
      omega


theorem exRootItems_wellFormed : WellFormed exStore 1 exRootItems := by
  refine ⟨rfl, by decide, by decide, ?_⟩
  intro pr hpr
  have hp : exRootItems.pairs =
      (List.range 5).map fun k => ⟨[98 + 2 * k], newMetaValue 4 (exHash k)⟩ := by
    decide
  rw [hp] at hpr
  simp only [List.mem_map, List.mem_range] at hpr
  obtain ⟨k, hk, rfl⟩ := hpr
  interval_cases k <;> exact ⟨_, rfl, rfl, by decide, by decide⟩

theorem exRootItems_counts : CountsInItems exStore 1 exRootItems := by
  intro pr hpr
  have hp : exRootItems.pairs =
      (List.range 5).map fun k => ⟨[98 + 2 * k], newMetaValue 4 (exHash k)⟩ := by
    decide
  rw [hp] at hpr
  simp only [List.mem_map, List.mem_range] at hpr
  obtain ⟨k, hk, rfl⟩ := hpr
  interval_cases k <;> exact ⟨_, rfl, by decide, trivial⟩

theorem exRoot_countsInPairs : CountsInPairs exStore 1 exRoot := by
  intro pr hpr
  have hp : exRoot.pairs = (List.range 5).map fun k => ⟨[98 + 2 * k], newMetaValue 2 (exHash k)⟩ := by
    decide
  rw [hp] at hpr
  simp only [List.mem_map, List.mem_range] at hpr
  obtain ⟨k, hk, rfl⟩ := hpr
  interval_cases k <;> exact ⟨_, rfl, by decide, trivial⟩

theorem LawfulCompare.gt_of_le {cmp : compareFn} (hc : LawfulCompare cmp) {x a b : nodeItem}
    (h1 : 0 < cmp x b) (h2 : cmp a b ≤ 0) : 0 < cmp x a := by
  by_contra h
  have := hc.trans x a b (by omega) h2
  omega

theorem LawfulCompare.le_of_lt {cmp : compareFn} (hc : LawfulCompare cmp) {x a b : nodeItem}
    (h1 : cmp x a ≤ 0) (h2 : cmp a b < 0) : cmp x b ≤ 0 :=
  hc.trans x a b h1 (Int.le_of_lt h2)

theorem LawfulCompare.flip_le {cmp : compareFn} (hc : LawfulCompare cmp) {a b : nodeItem}
    (h : 0 ≤ cmp a b) : cmp b a ≤ 0 := by
  by_contra h1
  have := (hc.flip a b).mpr (by omega)
  omega

theorem mem_pairs_getElem? {l : List nodePair} {pr : nodePair} (h : pr ∈ l) :
    ∃ k : Nat, l[k]? = some pr := by
  obtain ⟨k, hk, he⟩ := List.getElem_of_mem h
  exact ⟨k, by rw [List.getElem?_eq_getElem hk, he]⟩

theorem leafPairs_split {nrw : NodeStore} {L : Nat} {nd : Node} {k : Nat} {pr : nodePair}
    (h : nd.pairs[k]? = some pr) :
    leafPairs nrw L nd = (nd.pairs.take k).flatMap (under nrw L) ++ under nrw L pr ++
      (nd.pairs.drop (k + 1)).flatMap (under nrw L) :=
  (flatMap_split _ _ _ _ h).symm

theorem KeysIncreasing.subtree_keys {cmp : compareFn} {nrw : NodeStore} {L : Nat} {nd c : Node}
    {pr : nodePair} (h : KeysIncreasing cmp nrw (L + 1) nd) (hpr : pr ∈ nd.pairs)
    (hc : fetchChild nrw pr.value = .ok c) : KeysIncreasing cmp nrw L c := by
  obtain ⟨k, hk⟩ := mem_pairs_getElem? hpr
  unfold KeysIncreasing leafKeys at h ⊢
  rw [leafPairs_split hk, under_succ hc] at h
  refine List.Pairwise.sublist ?_ h
  exact List.Sublist.map _ ((List.sublist_append_right _ _).trans (List.sublist_append_left _ _))

theorem SearchTree.subtree {cmp : compareFn} {nrw : NodeStore} (L : Nat) (nd : Node) (pr : nodePair)
    (c : Node) (h : SearchTree cmp nrw (L + 1) nd) (hpr : pr ∈ nd.pairs)
    (hc : fetchChild nrw pr.value = .ok c) : SearchTree cmp nrw L c := by
  obtain ⟨h1, h2, h3⟩ := h
  obtain ⟨c1, hc1, hw⟩ := h1.2.2.2 pr hpr
  obtain ⟨c2, hc2, _, hb⟩ := h3 pr hpr
  rw [hc] at hc1 hc2
  rw [← Except.ok.inj hc1] at hw
  rw [← Except.ok.inj hc2] at hb
  exact ⟨hw, h2.subtree_keys hpr hc, hb⟩

theorem nodeCursor.Over.searchTree {cmp : compareFn} {nrw : NodeStore} {c : nodeCursor} {L : Nat}
    (hov : c.Over nrw L) (h : SearchTree cmp nrw (L + c.depth) c.rootNode) :
    SearchTree cmp nrw L c.nd :=
  nodeCursor.Over.inherit (SearchTree cmp nrw) SearchTree.subtree c L hov h

theorem pairwise_le_last {cmp : compareFn} (hc : LawfulCompare cmp) {l : List nodeItem}
    {z : nodeItem} (h : l.Pairwise (fun a b => cmp a b < 0)) (hz : l.getLast? = some z) :
    ∀ a ∈ l, cmp a z ≤ 0 := by
  obtain ⟨ys, rfl⟩ := List.getLast?_eq_some_iff.mp hz
  intro a ha
  rcases List.mem_append.mp ha with h1 | h1
  · exact le_of_lt ((List.pairwise_append.mp h).2.2 a h1 z (List.mem_singleton.mpr rfl))
  · rw [List.mem_singleton.mp h1, hc.refl]

theorem under_last {cmp : compareFn} {nrw : NodeStore} : ∀ {L : Nat} {nd : Node} {pr : nodePair},
    SearchTree cmp nrw L nd → pr ∈ nd.pairs →
    ((under nrw L pr).map (·.key)).getLast? = some pr.key
  | 0, _, _, _, _ => rfl
  | L + 1, _, pr, h, hpr => by
    obtain ⟨c, hc, hl, _⟩ := h.2.2 pr hpr
    rw [under_succ hc]
    exact hl

theorem under_keys_le {cmp : compareFn} (hc : LawfulCompare cmp) {nrw : NodeStore} {L : Nat}
    {nd : Node} {pr : nodePair} (h : SearchTree cmp nrw L nd) (hpr : pr ∈ nd.pairs) :
    ∀ q ∈ under nrw L pr, cmp q.key pr.key ≤ 0 := by
  intro q hq
  have hlast := under_last h hpr
  have hsorted : ((under nrw L pr).map (·.key)).Pairwise (fun a b => cmp a b < 0) := by
    obtain ⟨k, hk⟩ := mem_pairs_getElem? hpr
    have := h.2.1
    unfold KeysIncreasing leafKeys at this
    rw [leafPairs_split hk] at this
    refine List.Pairwise.sublist ?_ this
    exact List.Sublist.map _ ((List.sublist_append_right _ _).trans (List.sublist_append_left _ _))
  exact pairwise_le_last hc hsorted hlast q.key (List.mem_map.mpr ⟨q, hq, rfl⟩)

theorem keys_after_pair {cmp : compareFn} {nrw : NodeStore} {L : Nat} {nd : Node} {i : Nat}
    {pr : nodePair} (h : SearchTree cmp nrw L nd) (hpr : nd.pairs[i]? = some pr) :
    ∀ q ∈ (nd.pairs.drop (i + 1)).flatMap (under nrw L), cmp pr.key q.key < 0 := by
  intro q hq
  have hlast := under_last h (List.getElem?_mem hpr)
  have hmem : pr.key ∈ (under nrw L pr).map (·.key) := List.mem_of_getLast?_eq_some hlast
  have := h.2.1
  unfold KeysIncreasing leafKeys at this
  rw [leafPairs_split hpr, List.map_append, List.map_append] at this
  exact (List.pairwise_append.mp this).2.2 pr.key
    (List.mem_append.mpr (Or.inr hmem)) q.key (List.mem_map.mpr ⟨q, hq, rfl⟩)

theorem mem_take_flatMap {α β : Type} {g : α → List β} {l : List α} {i : Nat} {q : β}
    (h : q ∈ (l.take i).flatMap g) : ∃ j a, j < i ∧ l[j]? = some a ∧ q ∈ g a := by
  obtain ⟨a, ha, hq⟩ := List.mem_flatMap.mp h
  obtain ⟨j, hj, he⟩ := List.getElem_of_mem ha
  have hj2 : j < i ∧ j < l.length := by
    simp only [List.length_take] at hj
    omega
  refine ⟨j, a, hj2.1, ?_, hq⟩
  rw [List.getElem_take] at he
  rw [List.getElem?_eq_getElem hj2.2, he]

theorem node_low {cmp : compareFn} (hc : LawfulCompare cmp) {nrw : NodeStore} {L : Nat}
    {nd : Node} {item : nodeItem} {i : Nat} (h : SearchTree cmp nrw L nd)
    (hlow : ∀ j pr, j < i → nd.pairs[j]? = some pr → 0 < cmp item pr.key) :
    ∀ q ∈ (nd.pairs.take i).flatMap (under nrw L), 0 < cmp item q.key := by
  intro q hq
  obtain ⟨j, pr, hj, hpr, hqu⟩ := mem_take_flatMap hq
  exact hc.gt_of_le (hlow j pr hj hpr) (under_keys_le hc h (List.getElem?_mem hpr) q hqu)

theorem node_high {cmp : compareFn} (hc : LawfulCompare cmp) {nrw : NodeStore} {L : Nat}
    {nd : Node} {item : nodeItem} {i : Nat} (h : SearchTree cmp nrw L nd)
    (hhigh : ∀ pr, nd.pairs[i]? = some pr → cmp item pr.key ≤ 0) :
    ∀ q ∈ (nd.pairs.drop (i + 1)).flatMap (under nrw L), cmp item q.key ≤ 0 := by
  intro q hq
  by_cases hi : i < nd.pairs.length
  · have hpr : nd.pairs[i]? = some (nd.pairs.get ⟨i, hi⟩) := List.getElem?_eq_getElem hi
    exact hc.le_of_lt (hhigh _ hpr) (keys_after_pair h hpr q hq)
  · rw [drop_flatMap_nil _ _ _ (by omega)] at hq
    cases hq

theorem SearchTree.keysSorted {cmp : compareFn} {nrw : NodeStore} {L : Nat} {nd : Node}
    (h : SearchTree cmp nrw L nd) : nd.KeysSorted cmp := by
  unfold Node.KeysSorted
  rw [List.pairwise_iff_getElem]
  intro i j hi hj hij
  simp only [List.length_map] at hi hj
  simp only [List.getElem_map]
  have hpi : nd.pairs[i]? = some nd.pairs[i] := List.getElem?_eq_getElem hi
  have hpj : nd.pairs[j]? = some nd.pairs[j] := List.getElem?_eq_getElem hj
  have hlast := under_last h (List.getElem?_mem hpj)
  obtain ⟨q, hq, hqk⟩ := List.mem_map.mp (List.mem_of_getLast?_eq_some hlast)
  have hmem : q ∈ (nd.pairs.drop (i + 1)).flatMap (under nrw L) := by
    refine List.mem_flatMap.mpr ⟨nd.pairs[j], ?_, hq⟩
    refine List.mem_drop_iff_getElem.mpr ⟨j - (i + 1), by omega, ?_⟩
    congr 1
    omega
  have := keys_after_pair h hpi q hmem
  rwa [hqk] at this

theorem LawfulCompare.lt_of_lt_of_le {cmp : compareFn} (hc : LawfulCompare cmp)
    {a b x : nodeItem} (h1 : cmp a b < 0) (h2 : cmp b x ≤ 0) : cmp a x < 0 := by
  by_contra h
  have h3 := hc.flip_le (show 0 ≤ cmp a x by omega)
  have h4 := hc.trans b x a h2 h3
  have := (hc.flip a b).mp h1
  omega

theorem nodeCursor.after_setIdx {nrw : NodeStore} {L : Nat} (c : nodeCursor) (k : Nat) :
    (c.setIdx (2 * (k : Int))).after nrw L =
      (c.nd.pairs.drop (k + 1)).flatMap (under nrw L) ++
        (c.setIdx (2 * (c.nd.pairs.length : Int))).after nrw L := by
  cases c with
  | root f =>
    simp only [nodeCursor.setIdx, nodeCursor.nd_root]
    rw [nodeCursor.after_root (f := { f with idx := 2 * (k : Int) }) rfl,
      nodeCursor.after_root (f := { f with idx := 2 * (f.nd.pairs.length : Int) }) rfl,
      drop_flatMap_nil _ _ (f.nd.pairs.length + 1) (by simp)]
    simp
  | child f p =>
    simp only [nodeCursor.setIdx, nodeCursor.nd_child]
    rw [nodeCursor.after_child (f := { f with idx := 2 * (k : Int) }) rfl,
      nodeCursor.after_child (f := { f with idx := 2 * (f.nd.pairs.length : Int) }) rfl,
      drop_flatMap_nil _ _ (f.nd.pairs.length + 1) (by simp)]
    simp

theorem lowerBoundAt_root {cmp : compareFn} (hc : LawfulCompare cmp) {nrw : NodeStore}
    {item : nodeItem} {L : Nat} {f : Frame} (h : SearchTree cmp nrw L f.nd)
    (hlb : IsLowerBound cmp item f.nd f.idx) :
    (nodeCursor.root f).LowerBoundAt cmp nrw item L := by
  obtain ⟨i, hi, hle, hlow, hhigh⟩ := hlb
  refine ⟨i, hi, hle, ?_, ?_, hhigh, ?_⟩
  · rw [nodeCursor.before_root hi]
    exact node_low hc h hlow
  · rw [nodeCursor.after_root hi]
    exact node_high hc h hhigh
  · intro he
    have he1 : i = f.nd.pairs.length := he
    rw [nodeCursor.after_root hi]
    exact drop_flatMap_nil _ _ _ (by omega)

theorem lowerBoundAt_child {cmp : compareFn} (hc : LawfulCompare cmp) {nrw : NodeStore}
    {item : nodeItem} {L : Nat} {f : Frame} {p : nodeCursor} {k : Nat} {prk : nodePair}
    (hp : SearchTree cmp nrw (L + 1) p.nd) (hk : p.nd.pairs[k]? = some prk)
    (hfetch : fetchChild nrw prk.value = .ok f.nd)
    (hlb : IsLowerBound cmp item f.nd f.idx)
    (b1 : ∀ q ∈ p.before nrw (L + 1), 0 < cmp item q.key)
    (b2 : ∀ q ∈ p.after nrw (L + 1), cmp item q.key ≤ 0)
    (b3 : cmp item prk.key ≤ 0 ∨ p.after nrw (L + 1) = []) :
    (nodeCursor.child f p).LowerBoundAt cmp nrw item L := by
  have h := SearchTree.subtree L p.nd prk f.nd hp (List.getElem?_mem hk) hfetch
  obtain ⟨i, hi, hle, hlow, hhigh⟩ := hlb
  refine ⟨i, hi, hle, ?_, ?_, hhigh, ?_⟩
  · rw [nodeCursor.before_child hi]
    intro q hq
    rcases List.mem_append.mp hq with h1 | h1
    · exact b1 q h1
    · exact node_low hc h hlow q h1
  · rw [nodeCursor.after_child hi]
    intro q hq
    rcases List.mem_append.mp hq with h1 | h1
    · exact node_high hc h hhigh q h1
    · exact b2 q h1
  · intro he
    have he1 : i = f.nd.pairs.length := he
    rw [nodeCursor.after_child hi, drop_flatMap_nil _ _ _ (by omega), List.nil_append]
    rcases b3 with h3 | h3
    · exfalso
      obtain ⟨c1, hc1, hl, _⟩ := hp.2.2 prk (List.getElem?_mem hk)
      rw [hfetch] at hc1
      rw [← Except.ok.inj hc1] at hl
      obtain ⟨q, hq, hqk⟩ := List.mem_map.mp (List.mem_of_getLast?_eq_some hl)
      have hall : q ∈ (f.nd.pairs.take i).flatMap (under nrw L) := by
        rw [he1, List.take_length]
        exact hq
      have := node_low hc h hlow q hall
      rw [hqk] at this
      omega
    · exact h3

/-- What `keepInBounds` does to a frame at a lower bound: the frame ends on a pair;
either it was on that pair already, or it was past the end and is now on the last
pair, with nothing of the tree after it. -/
theorem keepInBounds_lowerBound {cmp : compareFn} {nrw : NodeStore} {item : nodeItem} {L : Nat}
    (p1 : nodeCursor) (hov : p1.Over nrw L) (hlb : p1.LowerBoundAt cmp nrw item L) :
    ∃ (k : Nat) (prk : nodePair), p1.keepInBounds.Over nrw L ∧ p1.keepInBounds.onPair k ∧
      p1.keepInBounds.nd = p1.nd ∧ p1.nd.pairs[k]? = some prk ∧
      p1.keepInBounds.rootNode = p1.rootNode ∧ p1.keepInBounds.depth = p1.depth ∧
      (∀ q ∈ p1.keepInBounds.before nrw L, 0 < cmp item q.key) ∧
      (∀ q ∈ p1.keepInBounds.after nrw L, cmp item q.key ≤ 0) ∧
      (cmp item prk.key ≤ 0 ∨ p1.keepInBounds.after nrw L = []) := by
  obtain ⟨i, hi, hle, hlow, hhigh, hhere, hend⟩ := hlb
  have hcnt := hov.wf.nodeCount
  have hpos := hov.wf.pairs_pos
  by_cases hlt : i < p1.nd.pairs.length
  · have hkeep : p1.keepInBounds = p1 := by
      unfold nodeCursor.keepInBounds
      have h1 : ¬ p1.idx < 0 := by omega
      simp only [h1, if_false, nodeCursor.lastKeyIdx]
      have h2 : ¬ p1.idx > p1.nd.nodeCount - stride := by unfold stride; omega
      simp only [h2, if_false]
    have hpr : p1.nd.pairs[i]? = some (p1.nd.pairs.get ⟨i, hlt⟩) := List.getElem?_eq_getElem hlt
    rw [hkeep]
    exact ⟨i, _, hov, ⟨hi, hlt⟩, rfl, hpr, rfl, rfl, hlow, hhigh, Or.inl (hhere _ hpr)⟩
  · have hie : i = p1.nd.pairs.length := by omega
    have hkeep : p1.keepInBounds = p1.setIdx (2 * ((p1.nd.pairs.length - 1 : Nat) : Int)) := by
      unfold nodeCursor.keepInBounds
      have h1 : ¬ p1.idx < 0 := by omega
      simp only [h1, if_false, nodeCursor.lastKeyIdx]
      have h2 : p1.idx > p1.nd.nodeCount - stride := by unfold stride; omega
      simp only [h2, if_true, nodeCursor.skipToNodeEnd, nodeCursor.lastKeyIdx]
      congr 1
      unfold stride
      omega
    have hk : p1.nd.pairs.length - 1 < p1.nd.pairs.length := by omega
    have hpr : p1.nd.pairs[p1.nd.pairs.length - 1]? = some (p1.nd.pairs.get ⟨_, hk⟩) :=
      List.getElem?_eq_getElem hk
    have hself : p1.setIdx (2 * (p1.nd.pairs.length : Int)) = p1 := by
      rw [← hie, ← hi, nodeCursor.setIdx_self]
    have hbefore : p1.before nrw L = (p1.setIdx 0).before nrw L ++
        (p1.nd.pairs.take p1.nd.pairs.length).flatMap (under nrw L) := by
      rw [← nodeCursor.before_setIdx, hself]
    have hafter : (p1.setIdx (2 * ((p1.nd.pairs.length - 1 : Nat) : Int))).after nrw L = [] := by
      rw [nodeCursor.after_setIdx, hself, hend hie,
        drop_flatMap_nil _ _ _ (by omega)]
      rfl
    have hsucc := flatMap_take_succ (under nrw L) p1.nd.pairs (p1.nd.pairs.length - 1) _ hpr
    rw [show p1.nd.pairs.length - 1 + 1 = p1.nd.pairs.length by omega] at hsucc
    rw [hkeep]
    refine ⟨p1.nd.pairs.length - 1, _, nodeCursor.Over_setIdx.mpr hov,
      ⟨by simp, by simpa using hk⟩, by simp, hpr, ?_, ?_, ?_, ?_, Or.inr hafter⟩
    · cases p1 <;> rfl
    · cases p1 <;> rfl
    · rw [nodeCursor.before_setIdx]
      intro q hq
      apply hlow q
      rw [hbefore, hsucc]
      rcases List.mem_append.mp hq with h1 | h1
      · exact List.mem_append.mpr (Or.inl h1)
      · exact List.mem_append.mpr (Or.inr (List.mem_append.mpr (Or.inl h1)))
    · rw [hafter]
      intro q hq
      cases hq

theorem nodeCursor.Over.chain_order {cmp : compareFn} {nrw : NodeStore} {L : Nat} {f : Frame}
    {p : nodeCursor} (hov : (nodeCursor.child f p).Over nrw L)
    (hst : SearchTree cmp nrw (L + 1 + p.depth) p.rootNode) :
    (∀ a ∈ p.before nrw (L + 1), ∀ b ∈ leafPairs nrw L f.nd, cmp a.key b.key < 0) ∧
    (∀ b ∈ leafPairs nrw L f.nd, ∀ d ∈ p.after nrw (L + 1), cmp b.key d.key < 0) := by
  obtain ⟨kp, prp, honp, hprp, hfetch⟩ := hov.parent_onPair
  obtain ⟨_, hpov, _⟩ := nodeCursor.Over_child.mp hov
  have hcover := nodeCursor.cover p (L + 1) kp hpov honp
  rw [nodeCursor.here_eq honp.1 hprp, under_succ hfetch] at hcover
  have hk := hst.2.1
  unfold KeysIncreasing leafKeys at hk
  rw [← hcover, List.map_append, List.map_append] at hk
  obtain ⟨h1, _, h3⟩ := List.pairwise_append.mp hk
  obtain ⟨_, _, h2⟩ := List.pairwise_append.mp h1
  refine ⟨fun a ha b hb => h2 a.key (List.mem_map.mpr ⟨a, ha, rfl⟩) b.key
    (List.mem_map.mpr ⟨b, hb, rfl⟩), fun b hb d hd => h3 b.key ?_ d.key
    (List.mem_map.mpr ⟨d, hd, rfl⟩)⟩
  exact List.mem_append.mpr (Or.inr (List.mem_map.mpr ⟨b, hb, rfl⟩))

theorem nodeCursor.seek_child_in {item : nodeItem} {cb : compareFn} {f : Frame} {p : nodeCursor}
    {k0 k1 : nodeItem} (h0 : f.nd.getItem 0 = .ok k0)
    (h1 : f.nd.getItem (f.nd.nodeCount - stride) = .ok k1) (hge : cb item k0 ≥ 0)
    (hle : cb item k1 ≤ 0) :
    nodeCursor.seek getPair item cb (.child f p) =
      ((nodeCursor.child f p).search item cb).map fun i => .child { f with idx := i } p := by
  rw [nodeCursor.seek]
  simp only [h0, h1, hge, hle, bind, Except.bind, pure, Except.pure, if_true, decide_True,
    Bool.not_true, Bool.false_eq_true, if_false]
  cases (nodeCursor.child f p).search item cb <;> rfl

theorem nodeCursor.seek_child_out {item : nodeItem} {cb : compareFn} {f : Frame} {p : nodeCursor}
    {k0 k1 : nodeItem} (h0 : f.nd.getItem 0 = .ok k0)
    (h1 : f.nd.getItem (f.nd.nodeCount - stride) = .ok k1)
    (hout : cb item k0 < 0 ∨ 0 < cb item k1) :
    nodeCursor.seek getPair item cb (.child f p) =
      (do
        let p1 ← nodeCursor.seek getPair item cb p
        let pr ← p1.keepInBounds.currentPair getPair
        let nd ← fetchChild f.nrw pr.value
        let i ← (nodeCursor.child { f with nd := nd } p1.keepInBounds).search item cb
        pure (.child { f with nd := nd, idx := i } p1.keepInBounds)) := by
  rw [nodeCursor.seek]
  by_cases hge : cb item k0 ≥ 0
  · have hgt : ¬ cb item k1 ≤ 0 := by omega
    simp only [h0, h1, hge, hgt, bind, Except.bind, pure, Except.pure, if_true, decide_False,
      Bool.not_false]
  · simp only [h0, hge, bind, Except.bind, pure, Except.pure, if_false, Bool.not_false, if_true]

theorem nodeCursor.search_nd {item : nodeItem} {cb : compareFn} (c c1 : nodeCursor)
    (h : c.nd = c1.nd) : c.search item cb = c1.search item cb := by
  simp only [nodeCursor.search, h]

/-- What `seek` does on a cursor over a search tree, at any starting position: it
leaves the frame at the lower bound of `item`. -/
theorem nodeCursor.seek_spec (hgp : PairsByItem getPair) {cmp : compareFn}
    (hc : LawfulCompare cmp) {nrw : NodeStore} {item : nodeItem} :
    ∀ (c : nodeCursor) (L : Nat), c.Over nrw L →
      SearchTree cmp nrw (L + c.depth) c.rootNode →
      ∃ c1, nodeCursor.seek getPair item cmp c = .ok c1 ∧ c1.Over nrw L ∧
        c1.rootNode = c.rootNode ∧ c1.depth = c.depth ∧ c1.LowerBoundAt cmp nrw item L := by
  intro c
  induction c with
  | root f =>
    intro L hov hst
    have hst1 : SearchTree cmp nrw L f.nd := hst
    obtain ⟨r, hr, hlb⟩ := nodeCursor.search_isLowerBound hc (.root f) item hst1.keysSorted
    refine ⟨.root { f with idx := r }, ?_, nodeCursor.Over_root.mpr (nodeCursor.Over_root.mp hov),
      rfl, rfl, lowerBoundAt_root hc hst1 hlb⟩
    simp [nodeCursor.seek, hr, bind, Except.bind, pure, Except.pure]
  | child f p ih =>
    intro L hov hst
    have e : L + (nodeCursor.child f p).depth = L + 1 + p.depth := by
      simp only [nodeCursor.depth]; omega
    have hstp : SearchTree cmp nrw (L + 1 + p.depth) p.rootNode := by
      rw [← e]; exact hst
    obtain ⟨hnrw, hpov, _⟩ := nodeCursor.Over_child.mp hov
    have hstf : SearchTree cmp nrw L f.nd := hov.searchTree hst
    have hpos := hstf.1.pairs_pos
    have hlast := hstf.1.lastIdx
    obtain ⟨pr0, hpr0⟩ : ∃ pr, f.nd.pairs[0]? = some pr := ⟨_, List.getElem?_eq_getElem hpos⟩
    obtain ⟨prl, hprl⟩ := getElem?_last_of_pos f.nd.pairs hpos
    have hg0 : f.nd.getItem 0 = .ok pr0.key := by
      have := Node.getItem_of_pair hpr0
      simpa using this
    have hgl : f.nd.getItem (f.nd.nodeCount - stride) = .ok prl.key := by
      rw [hlast]
      exact Node.getItem_of_pair hprl
    by_cases hin : cmp item pr0.key ≥ 0 ∧ cmp item prl.key ≤ 0
    · obtain ⟨r, hr, hlb⟩ := nodeCursor.search_isLowerBound hc (.child f p) item hstf.keysSorted
      obtain ⟨hord1, hord2⟩ := hov.chain_order hstp
      have hmem0 : ∃ q ∈ leafPairs nrw L f.nd, q.key = pr0.key := by
        obtain ⟨q, hq, hqk⟩ := List.mem_map.mp
          (List.mem_of_getLast?_eq_some (under_last hstf (List.getElem?_mem hpr0)))
        exact ⟨q, List.mem_flatMap.mpr ⟨pr0, List.getElem?_mem hpr0, hq⟩, hqk⟩
      have hmeml : ∃ q ∈ leafPairs nrw L f.nd, q.key = prl.key := by
        obtain ⟨q, hq, hqk⟩ := List.mem_map.mp
          (List.mem_of_getLast?_eq_some (under_last hstf (List.getElem?_mem hprl)))
        exact ⟨q, List.mem_flatMap.mpr ⟨prl, List.getElem?_mem hprl, hq⟩, hqk⟩
      obtain ⟨i, hi, hle, hlow, hhigh⟩ := hlb
      simp only [nodeCursor.nd_child] at hle hlow hhigh
      refine ⟨.child { f with idx := r } p, ?_, ?_, rfl, rfl, i, hi, hle, ?_, ?_, hhigh, ?_⟩
      · rw [nodeCursor.seek_child_in hg0 hgl hin.1 hin.2, hr]
        rfl
      · exact nodeCursor.Over_child.mpr (nodeCursor.Over_child.mp hov)
      · rw [nodeCursor.before_child (f := { f with idx := r }) hi]
        intro q hq
        rcases List.mem_append.mp hq with h1 | h1
        · obtain ⟨q0, hq0, hq0k⟩ := hmem0
          have hlt := hord1 q h1 q0 hq0
          rw [hq0k] at hlt
          exact (hc.flip _ _).mp (hc.lt_of_lt_of_le hlt (hc.flip_le hin.1))
        · exact node_low hc hstf hlow q h1
      · rw [nodeCursor.after_child (f := { f with idx := r }) hi]
        intro q hq
        rcases List.mem_append.mp hq with h1 | h1
        · exact node_high hc hstf hhigh q h1
        · obtain ⟨ql, hql, hqlk⟩ := hmeml
          have hlt := hord2 ql hql q h1
          rw [hqlk] at hlt
          exact hc.le_of_lt hin.2 hlt
      · intro he
        exfalso
        have := hlow (f.nd.pairs.length - 1) prl (by simp only [nodeCursor.nd_child] at he; omega)
          hprl
        omega
    · have hout : cmp item pr0.key < 0 ∨ 0 < cmp item prl.key := by omega
      obtain ⟨p1, hp1, hov1, hroot1, hdep1, hlb1⟩ := ih (L + 1) hpov hstp
      obtain ⟨k, prk, hov2, hon2, hnd2, hprk, hroot2, hdep2, b1, b2, b3⟩ :=
        keepInBounds_lowerBound p1 hov1 hlb1
      have hst1 : SearchTree cmp nrw (L + 1) p1.nd :=
        hov1.searchTree (by rw [hroot1, hdep1]; exact hstp)
      obtain ⟨nd, hnd, hwf⟩ := hst1.1.2.2.2 prk (List.getElem?_mem hprk)
      have hstn : SearchTree cmp nrw L nd :=
        SearchTree.subtree L p1.nd prk nd hst1 (List.getElem?_mem hprk) hnd
      obtain ⟨r, hr, hlb⟩ := nodeCursor.search_isLowerBound hc
        (.child { f with nd := nd } p1.keepInBounds) item hstn.keysSorted
      have hprk2 : p1.keepInBounds.nd.pairs[k]? = some prk := by rw [hnd2]; exact hprk
      refine ⟨.child { f with nd := nd, idx := r } p1.keepInBounds, ?_, ?_, ?_, ?_, ?_⟩
      · have hnd1 : fetchChild f.nrw prk.value = .ok nd := by rw [hnrw]; exact hnd
        rw [nodeCursor.seek_child_out hg0 hgl hout, hp1]
        simp only [bind, Except.bind, nodeCursor.currentPair_eq hgp hon2.1 hprk2, hnd1, hr]
        rfl
      · exact nodeCursor.Over_child.mpr ⟨hnrw, hov2, k, prk, hon2.1, hprk2, hnd⟩
      · simp only [nodeCursor.rootNode, hroot2, hroot1]
      · simp only [nodeCursor.depth, hdep2, hdep1]
      · exact lowerBoundAt_child hc (f := { f with nd := nd, idx := r }) (hnd2 ▸ hst1) hprk2 hnd
          hlb b1 b2 b3

theorem newCursorAtItemLoop_spec (hgp : PairsByItem getPair) {cmp : compareFn}
    (hc : LawfulCompare cmp) {nrw : NodeStore} {item : nodeItem} {search : searchFn}
    (hsearch : ∀ nd, nd.KeysSorted cmp → IsLowerBound cmp item nd (search item nd)) :
    ∀ (L fuel : Nat) (cur : nodeCursor), L < fuel → cur.Over nrw L →
      SearchTree cmp nrw (L + cur.depth) cur.rootNode → cur.LowerBoundAt cmp nrw item L →
      ∃ c, newCursorAtItemLoop getPair nrw item search fuel cur = .ok c ∧ c.Over nrw 0 ∧
        c.rootNode = cur.rootNode ∧ c.depth = cur.depth + L ∧ c.LowerBoundAt cmp nrw item 0 := by
  intro L
  induction L with
  | zero =>
    intro fuel cur hf hov _ hlb
    obtain ⟨n, rfl⟩ : ∃ n, fuel = n + 1 := ⟨fuel - 1, by omega⟩
    refine ⟨cur, ?_, hov, rfl, rfl, hlb⟩
    simp [newCursorAtItemLoop, (hov.wf.isLeaf_iff).mpr rfl]
  | succ L ih =>
    intro fuel cur hf hov hst hlb
    obtain ⟨n, rfl⟩ : ∃ n, fuel = n + 1 := ⟨fuel - 1, by omega⟩
    have hleaf : cur.isLeaf = false := by
      cases h : cur.isLeaf
      · rfl
      · exact absurd ((hov.wf.isLeaf_iff).mp h) (by omega)
    obtain ⟨k, prk, hov2, hon2, hnd2, hprk, hroot2, hdep2, b1, b2, b3⟩ :=
      keepInBounds_lowerBound cur hov hlb
    have hst1 : SearchTree cmp nrw (L + 1) cur.nd := hov.searchTree hst
    obtain ⟨nd, hnd, hwf⟩ := hst1.1.2.2.2 prk (List.getElem?_mem hprk)
    have hstn : SearchTree cmp nrw L nd :=
      SearchTree.subtree L cur.nd prk nd hst1 (List.getElem?_mem hprk) hnd
    have hprk2 : cur.keepInBounds.nd.pairs[k]? = some prk := by rw [hnd2]; exact hprk
    have hovc : (nodeCursor.child ⟨nd, search item nd, nrw⟩ cur.keepInBounds).Over nrw L :=
      nodeCursor.Over_child.mpr ⟨rfl, hov2, k, prk, hon2.1, hprk2, hnd⟩
    have hlbc := lowerBoundAt_child hc (f := ⟨nd, search item nd, nrw⟩) (hnd2 ▸ hst1) hprk2 hnd
      (hsearch nd hstn.keysSorted) b1 b2 b3
    obtain ⟨c, h1, h2, h3, h4, h5⟩ := ih n (.child ⟨nd, search item nd, nrw⟩ cur.keepInBounds)
      (by omega) hovc
      (by
        have e : L + (nodeCursor.child ⟨nd, search item nd, nrw⟩ cur.keepInBounds).depth =
            L + 1 + cur.depth := by simp only [nodeCursor.depth, hdep2]; omega
        rw [e]
        simp only [nodeCursor.rootNode, hroot2]
        exact hst)
      hlbc
    refine ⟨c, ?_, h2, ?_, ?_, h5⟩
    · rw [newCursorAtItemLoop]
      simp only [hleaf, Bool.false_eq_true, if_false, bind, Except.bind,
        nodeCursor.currentPair_eq hgp hon2.1 hprk2, hnd]
      exact h1
    · rw [h3]; simp only [nodeCursor.rootNode, hroot2]
    · rw [h4]; simp only [nodeCursor.depth, hdep2]; omega

theorem nodeCursor.setIdx_setIdx (c : nodeCursor) (a b : Int) :
    (c.setIdx a).setIdx b = c.setIdx b := by
  cases c <;> rfl

theorem searchOf_isLowerBound {cmp : compareFn} (hc : LawfulCompare cmp) (item : nodeItem)
    (nd : Node) (hs : nd.KeysSorted cmp) : IsLowerBound cmp item nd (searchOf cmp item nd) := by
  obtain ⟨r, hr, hlb⟩ := nodeCursor.search_isLowerBound hc
    (.root ⟨nd, 0, ⟨fun _ => .error .runtime, fun _ => .error .runtime⟩⟩) item hs
  unfold searchOf
  rw [hr]
  exact hlb

/-- Where a leaf cursor at the lower bound of `item` stands in the tree. -/
theorem lowerBound_final (hgp : PairsByItem getPair) {cmp : compareFn} (hc : LawfulCompare cmp)
    {nrw : NodeStore} {item : nodeItem} (L fuel : Nat) (root : Node) (c : nodeCursor)
    (hst : SearchTree cmp nrw L root) (hfuel : L < fuel) (hov : c.Over nrw 0)
    (hroot : c.rootNode = root) (hdep : c.depth = L) (hlb : c.LowerBoundAt cmp nrw item 0) :
    ((∃ q ∈ leafPairs nrw L root, cmp item q.key ≤ 0) →
      ∃ pr r c0, c.valid = true ∧ c.currentPair getPair = .ok pr ∧ pr ∈ leafPairs nrw L root ∧
        cmp item pr.key ≤ 0 ∧
        (∀ q ∈ leafPairs nrw L root, cmp item q.key ≤ 0 → cmp pr.key q.key ≤ 0) ∧
        newCursorAtStart getPair fuel nrw root = .ok c0 ∧
        advanceTimes getPair r c0 = .ok (true, c)) ∧
    ((∀ q ∈ leafPairs nrw L root, 0 < cmp item q.key) →
      ∃ ce, newCursorAtEnd getPair fuel nrw root = .ok ce ∧ c = ce.setIdx ce.nd.nodeCount) := by
  obtain ⟨i, hi, hle, hlow, hhigh, hhere, hend⟩ := hlb
  have hwf := hov.wf
  have hcnt := hwf.nodeCount
  have hpos := hwf.pairs_pos
  have h0 : (0 : Int) = 2 * ((0 : Nat) : Int) := by simp
  by_cases hlt : i < c.nd.pairs.length
  · have hon : c.onPair i := ⟨hi, hlt⟩
    obtain ⟨pr, hpr⟩ := hon.get
    have hhr : c.here nrw 0 = [pr] := by rw [nodeCursor.here_eq hi hpr]; rfl
    have hcover := nodeCursor.cover c 0 i hov hon
    rw [hroot, hdep, hhr, Nat.zero_add] at hcover
    have hmem : pr ∈ leafPairs nrw L root := by
      rw [← hcover]
      simp
    refine ⟨fun _ => ?_, fun hall => ?_⟩
    · obtain ⟨c0, hc0, hov0, hon0, hbef0, hroot0, hdep0⟩ := newCursorAtStartLoop_spec hgp L fuel
        (.root ⟨root, 0, nrw⟩) hfuel (nodeCursor.Over_root.mpr ⟨rfl, hst.1⟩)
        ⟨h0, hst.1.pairs_pos⟩ (by rw [nodeCursor.before_root (f := ⟨root, 0, nrw⟩) h0]; rfl)
      have hcover0 := nodeCursor.cover c0 0 0 hov0 hon0
      rw [hbef0, hroot0, hdep0] at hcover0
      simp only [List.nil_append, nodeCursor.rootNode, nodeCursor.depth, Nat.zero_add] at hcover0
      obtain ⟨pr0, hpr0⟩ := hon0.get
      have hhere0 : c0.here nrw 0 = [pr0] := by rw [nodeCursor.here_eq hon0.1 hpr0]; rfl
      have hlen : (c.before nrw 0).length ≤ (c0.after nrw 0).length := by
        have h1 := congrArg List.length hcover
        have h2 := congrArg List.length hcover0
        rw [hhere0] at h2
        simp only [List.length_append, List.length_singleton] at h1 h2
        omega
      obtain ⟨ca, ka, hadv, hova, hona, hdepa, hroota, hbefa⟩ :=
        advanceTimes_rank hgp (c.before nrw 0).length c0 0 hov0 hon0 hlen
      obtain ⟨pra, hpra⟩ := hona.get
      have hherea : ca.here nrw 0 = [pra] := by rw [nodeCursor.here_eq hona.1 hpra]; rfl
      have heq : ca = c :=
        nodeCursor.interval_unique (c.before nrw 0).length ca c 0 ka i hova hov hona hon
          (by rw [hroota, hroot0, hroot]; rfl)
          (by rw [hdepa, hdep0, hdep]; simp [nodeCursor.depth])
          (by rw [hbefa, hbef0]; simp) (by rw [hbefa, hbef0, hherea]; simp)
          (le_refl _) (by rw [hhr]; simp)
      refine ⟨pr, (c.before nrw 0).length, c0, hon.valid hwf,
        nodeCursor.currentPair_eq hgp hi hpr, hmem, hhere pr hpr, ?_, hc0, heq ▸ hadv⟩
      intro q hq hqle
      rw [← hcover] at hq
      rcases List.mem_append.mp hq with h1 | h1
      · rcases List.mem_append.mp h1 with h2 | h2
        · have := hlow q h2
          omega
        · rw [List.mem_singleton.mp h2, hc.refl]
      · have hk := hst.2.1
        unfold KeysIncreasing leafKeys at hk
        rw [← hcover, List.map_append] at hk
        exact le_of_lt ((List.pairwise_append.mp hk).2.2 pr.key
          (List.mem_map.mpr ⟨pr, by simp, rfl⟩) q.key (List.mem_map.mpr ⟨q, h1, rfl⟩))
    · have := hall pr hmem
      have := hhere pr hpr
      omega
  · have hie : i = c.nd.pairs.length := by omega
    have hk : c.nd.pairs.length - 1 < c.nd.pairs.length := by omega
    obtain ⟨prl, hpr⟩ := getElem?_last_of_pos c.nd.pairs hpos
    have hself : c.setIdx (2 * (c.nd.pairs.length : Int)) = c := by
      rw [← hie, ← hi, nodeCursor.setIdx_self]
    have hon1 : (c.setIdx (2 * ((c.nd.pairs.length - 1 : Nat) : Int))).onPair
        (c.nd.pairs.length - 1) := ⟨by simp, by simpa using hk⟩
    have hov1 : (c.setIdx (2 * ((c.nd.pairs.length - 1 : Nat) : Int))).Over nrw 0 :=
      nodeCursor.Over_setIdx.mpr hov
    have hafter1 : (c.setIdx (2 * ((c.nd.pairs.length - 1 : Nat) : Int))).after nrw 0 = [] := by
      rw [nodeCursor.after_setIdx, hself, hend hie, drop_flatMap_nil _ _ _ (by omega)]
      rfl
    have hpr1 : (c.setIdx (2 * ((c.nd.pairs.length - 1 : Nat) : Int))).nd.pairs[
        c.nd.pairs.length - 1]? = some prl := by
      rw [nodeCursor.nd_setIdx]; exact hpr
    have hhr1 : (c.setIdx (2 * ((c.nd.pairs.length - 1 : Nat) : Int))).here nrw 0 = [prl] := by
      rw [nodeCursor.here_eq hon1.1 hpr1]; rfl
    have hr1 : (c.setIdx (2 * ((c.nd.pairs.length - 1 : Nat) : Int))).rootNode = root := by
      rw [← hroot]; cases c <;> rfl
    have hd1 : (c.setIdx (2 * ((c.nd.pairs.length - 1 : Nat) : Int))).depth = L := by
      rw [← hdep]; cases c <;> rfl
    have hcover1 := nodeCursor.cover _ 0 _ hov1 hon1
    rw [hr1, hd1, hhr1, hafter1, List.append_nil, Nat.zero_add] at hcover1
    have hbefore : c.before nrw 0 = leafPairs nrw L root := by
      have hb : c.before nrw 0 = (c.setIdx (2 * (c.nd.pairs.length : Int))).before nrw 0 := by
        rw [hself]
      have hsucc := flatMap_take_succ (under nrw 0) c.nd.pairs (c.nd.pairs.length - 1) _ hpr
      rw [show c.nd.pairs.length - 1 + 1 = c.nd.pairs.length by omega] at hsucc
      rw [← hcover1, hb, nodeCursor.before_setIdx c c.nd.pairs.length,
        nodeCursor.before_setIdx c (c.nd.pairs.length - 1), List.append_assoc, hsucc]
      rfl
    refine ⟨fun ⟨q, hq, hqle⟩ => ?_, fun _ => ?_⟩
    · have := hlow q (hbefore ▸ hq)
      omega
    · have hl := hst.1.lastIdx
      obtain ⟨ce, hce, hove, hone, hafe, hroote, hdepe⟩ := newCursorAtEndLoop_spec hgp L fuel
        (.root ⟨root, root.nodeCount - stride, nrw⟩) hfuel
        (nodeCursor.Over_root.mpr ⟨rfl, hst.1⟩) ⟨hl, Nat.sub_lt hst.1.pairs_pos Nat.one_pos⟩
        (by rw [nodeCursor.after_root (f := ⟨root, root.nodeCount - stride, nrw⟩) hl,
              drop_flatMap_nil _ _ _ (by simp only; have := hst.1.pairs_pos; omega)])
      obtain ⟨pre, hpre⟩ := hone.get
      have hhre : ce.here nrw 0 = [pre] := by rw [nodeCursor.here_eq hone.1 hpre]; rfl
      have hcovere := nodeCursor.cover ce 0 _ hove hone
      rw [hroote, hdepe, hhre, hafe, List.append_nil] at hcovere
      simp only [nodeCursor.rootNode, nodeCursor.depth, Nat.zero_add] at hcovere
      have hlen1 := congrArg List.length hcover1
      have hlene := congrArg List.length hcovere
      simp only [List.length_append, List.length_singleton] at hlen1 hlene
      have heq : c.setIdx (2 * ((c.nd.pairs.length - 1 : Nat) : Int)) = ce :=
        nodeCursor.interval_unique (ce.before nrw 0).length _ ce 0 _ _ hov1 hove hon1 hone
          (by rw [hr1, hroote]; rfl) (by rw [hd1, hdepe]; simp [nodeCursor.depth])
          (by omega) (by rw [hhr1]; simp only [List.length_singleton]; omega)
          (le_refl _) (by rw [hhre]; simp)
      refine ⟨ce, hce, ?_⟩
      rw [← heq, nodeCursor.setIdx_setIdx, nodeCursor.nd_setIdx, hcnt, hself]


theorem exRoot_boundaryKeys : BoundaryKeys exStore 1 exRoot := by
  intro pr hpr
  have hp : exRoot.pairs = (List.range 5).map fun k => ⟨[98 + 2 * k], newMetaValue 2 (exHash k)⟩ := by
    decide
  rw [hp] at hpr
  simp only [List.mem_map, List.mem_range] at hpr
  obtain ⟨k, hk, rfl⟩ := hpr
  interval_cases k <;> exact ⟨_, rfl, by decide, trivial⟩

theorem exRoot_searchTree : SearchTree bytesCompare exStore 1 exRoot :=
  ⟨exRoot_wellFormed, exRoot_keysIncreasing, exRoot_boundaryKeys⟩

theorem readUint48_writeUint48 (n : Nat) (h : n < 2 ^ 48) : ReadUint48 (WriteUint48 n) = n := by
  simp only [ReadUint48, WriteUint48, List.foldl]
  norm_num at h ⊢
  omega

theorem nodeCursor.nd_keepInBounds (c : nodeCursor) : c.keepInBounds.nd = c.nd := by
  simp only [nodeCursor.keepInBounds, nodeCursor.skipToNodeStart, nodeCursor.skipToNodeEnd]
  split_ifs <;> simp

theorem nodeCursor.idx_keepInBounds_congr {c d : nodeCursor} (hn : c.nd = d.nd)
    (hi : c.idx = d.idx) : c.keepInBounds.idx = d.keepInBounds.idx := by
  simp only [nodeCursor.keepInBounds, nodeCursor.skipToNodeStart, nodeCursor.skipToNodeEnd,
    nodeCursor.lastKeyIdx]
  split_ifs <;> simp_all [nodeCursor.lastKeyIdx]
  all_goals omega

theorem nodeCursor.nd_setNd (c : nodeCursor) (n : Node) : (c.setNd n).nd = n := by
  cases c <;> rfl

theorem nodeCursor.idx_setNd (c : nodeCursor) (n : Node) : (c.setNd n).idx = c.idx := by
  cases c <;> rfl

theorem nodeCursor.parent_setIdx (c : nodeCursor) (i : Int) : (c.setIdx i).parent = c.parent := by
  cases c <;> rfl

theorem nodeCursor.parent_setNd (c : nodeCursor) (n : Node) : (c.setNd n).parent = c.parent := by
  cases c <;> rfl

theorem nodeCursor.parent_keepInBounds (c : nodeCursor) : c.keepInBounds.parent = c.parent := by
  simp only [nodeCursor.keepInBounds, nodeCursor.skipToNodeStart, nodeCursor.skipToNodeEnd]
  split_ifs <;> simp [nodeCursor.parent_setIdx]

theorem newLeafCursorAtItemLoop_agrees (nrw : NodeStore) (item : nodeItem) (search : searchFn) :
    ∀ (fuel : Nat) (c d : nodeCursor), c.nd = d.nd → c.idx = d.idx →
      (newLeafCursorAtItemLoop getPair nrw item search fuel c).map (fun x => (x.nd, x.idx)) =
        (newCursorAtItemLoop getPair nrw item search fuel d).map (fun x => (x.nd, x.idx))
  | 0, c, d, _, _ => rfl
  | fuel + 1, c, d, hn, hi => by
    have hleaf : c.isLeaf = d.isLeaf := by simp [nodeCursor.isLeaf, nodeCursor.level, hn]
    rw [newLeafCursorAtItemLoop, newCursorAtItemLoop, hleaf]
    by_cases hl : d.isLeaf = true
    · simp [hl, Except.map, hn, hi]
    · have hcp : c.keepInBounds.currentPair getPair = d.keepInBounds.currentPair getPair := by
        rw [nodeCursor.currentPair, nodeCursor.currentPair, nodeCursor.nd_keepInBounds,
          nodeCursor.nd_keepInBounds, hn, nodeCursor.idx_keepInBounds_congr hn hi]
      simp only [hl, if_false, Bool.false_eq_true, hcp]
      cases hp : d.keepInBounds.currentPair getPair with
      | error e => rfl
      | ok pr =>
        cases hf : fetchChild nrw pr.value with
        | error e => simp [bind, Except.bind, hf, Except.map]
        | ok nd =>
          simp only [bind, Except.bind, hf]
          exact newLeafCursorAtItemLoop_agrees nrw item search fuel _ _
            (by simp [nodeCursor.nd_setNd]) (by simp)

theorem newLeafCursorAtItemLoop_root (nrw : NodeStore) (item : nodeItem) (search : searchFn) :
    ∀ (fuel : Nat) (c r : nodeCursor), c.parent = none →
      newLeafCursorAtItemLoop getPair nrw item search fuel c = .ok r → r.parent = none
  | 0, c, r, _, h => by simp [newLeafCursorAtItemLoop] at h
  | fuel + 1, c, r, hc, h => by
    rw [newLeafCursorAtItemLoop] at h
    by_cases hl : c.isLeaf = true
    · simp only [hl, if_true] at h
      cases h
      exact hc
    · simp only [hl, if_false, Bool.false_eq_true] at h
      obtain ⟨pr, _, h⟩ := bind_ok_iff.mp h
      obtain ⟨nd, _, h⟩ := bind_ok_iff.mp h
      refine newLeafCursorAtItemLoop_root nrw item search fuel _ r ?_ h
      rw [nodeCursor.parent_setIdx, nodeCursor.parent_setNd, nodeCursor.parent_keepInBounds, hc]

theorem nodeCursor.copy_eq : ∀ (cur other : nodeCursor),
    cur.copy other = if cur.depth = other.depth then .ok other else .error .assertion
  | .root _, .root g => by simp [nodeCursor.copy, nodeCursor.depth]
  | .root _, .child _ _ => by simp [nodeCursor.copy, nodeCursor.depth]
  | .child _ _, .root _ => by simp [nodeCursor.copy, nodeCursor.depth]
  | .child _ p, .child g q => by
    rw [nodeCursor.copy, nodeCursor.copy_eq p q]
    by_cases h : p.depth = q.depth <;> simp [h, nodeCursor.depth, bind, Except.bind, pure, Except.pure]

theorem lexDiff_append : ∀ (xs ys : List Int) (x y : Int), xs.length = ys.length →
    lexDiff (xs ++ [x]) (ys ++ [y]) = if lexDiff xs ys ≠ 0 then lexDiff xs ys else x - y
  | [], [], x, y, _ => by
    by_cases h : x = y <;> simp [lexDiff, h]
  | [], _ :: _, _, _, h => by simp at h
  | _ :: _, [], _, _, h => by simp at h
  | a :: xs, b :: ys, x, y, h => by
    have ih := lexDiff_append xs ys x y (by simpa using h)
    by_cases hab : a = b
    · simp [lexDiff, hab, ih]
    · have : a - b ≠ 0 := by omega
      simp [lexDiff, hab, this]

theorem lexDiff_eq_zero : ∀ (xs ys : List Int), xs.length = ys.length →
    (lexDiff xs ys = 0 ↔ xs = ys)
  | [], [], _ => by simp [lexDiff]
  | [], _ :: _, h => by simp at h
  | _ :: _, [], h => by simp at h
  | a :: xs, b :: ys, h => by
    have ih := lexDiff_eq_zero xs ys (by simpa using h)
    by_cases hab : a = b
    · simp [lexDiff, hab, ih]
    · have : a - b ≠ 0 := by omega
      simp [lexDiff, hab, this]

theorem lexDiff_swap : ∀ (xs ys : List Int), lexDiff ys xs = - lexDiff xs ys
  | [], [] => by simp [lexDiff]
  | [], _ :: _ => by simp [lexDiff]
  | _ :: _, [] => by simp [lexDiff]
  | a :: xs, b :: ys => by
    have ih := lexDiff_swap xs ys
    by_cases hab : a = b
    · simp [lexDiff, hab, ih]
    · have : ¬ b = a := fun h => hab h.symm
      simp [lexDiff, hab, this]

theorem lexDiff_trans : ∀ (xs ys zs : List Int), lexDiff xs ys < 0 → lexDiff ys zs < 0 →
    lexDiff xs zs < 0
  | [], _, _, h, _ => by simp [lexDiff] at h
  | _ :: _, [], _, h, _ => by simp [lexDiff] at h
  | _ :: _, _ :: _, [], _, h => by simp [lexDiff] at h
  | a :: xs, b :: ys, c :: zs, h1, h2 => by
    have ih := lexDiff_trans xs ys zs
    simp only [lexDiff] at h1 h2 ⊢
    by_cases hab : a = b <;> by_cases hbc : b = c <;> by_cases hac : a = c <;>
      simp_all <;> omega

theorem nodeCursor.idxs_length : ∀ (c : nodeCursor), c.idxs.length = c.depth + 1
  | .root _ => rfl
  | .child _ p => by simp [nodeCursor.idxs, nodeCursor.depth, nodeCursor.idxs_length p]

theorem nodeCursor.idxs_eq_idx : ∀ (c d : nodeCursor), c.depth = d.depth → c.idxs = d.idxs →
    c.idx = d.idx
  | .root f, .root g, _, h => by simpa [nodeCursor.idxs] using h
  | .root _, .child _ _, h, _ => by simp [nodeCursor.depth] at h
  | .child _ _, .root _, h, _ => by simp [nodeCursor.depth] at h
  | .child f p, .child g q, hd, h => by
    have hl : p.idxs.length = q.idxs.length := by
      rw [nodeCursor.idxs_length, nodeCursor.idxs_length]
      simpa [nodeCursor.depth] using hd
    have := List.append_inj h hl
    simpa using this.2

theorem nodeCursor.IdxInRange.parent {f : Frame} {p : nodeCursor}
    (h : (nodeCursor.child f p).IdxInRange) : p.IdxInRange ∧ -stride ≤ f.idx ∧ f.idx ≤ 2 ^ 63 - 3 :=
  ⟨fun i hi => h i (by simp [nodeCursor.idxs, hi]), h f.idx (by simp [nodeCursor.idxs])⟩

/-- Two cursors of the same depth that satisfy the parent/child invariant over the
same root through the same store: `compare` returns a value, which is 0 exactly
when the two index sequences are equal; the two own frames then hold the same
node. When the idx of both cursors are in range, the value is the lexicographic
difference of the index sequences. -/
theorem nodeCursor.compare_lex (nrw : NodeStore) : ∀ (a b : nodeCursor),
    a.Linked getPair → b.Linked getPair → a.Through nrw → b.Through nrw →
    a.rootNode = b.rootNode → a.depth = b.depth →
    ∃ r, a.compare b = .ok r ∧ (r = 0 ↔ a.idxs = b.idxs) ∧ (r = 0 → a.nd = b.nd) ∧
      (a.IdxInRange → b.IdxInRange → r = lexDiff a.idxs b.idxs)
  | .root f, .root g, _, _, _, _, hr, _ => by
    have hr1 : f.nd = g.nd := hr
    refine ⟨intSub f.idx g.idx, ?_, ?_, fun _ => hr1, fun ha hb => ?_⟩
    · simp [nodeCursor.compare, assertTrue, hr1, bind, Except.bind, pure, Except.pure]
    · simp [nodeCursor.idxs, intSub_eq_zero]
    · have h1 : -stride ≤ f.idx ∧ f.idx ≤ 2 ^ 63 - 3 := ha f.idx (by simp [nodeCursor.idxs])
      have h2 : -stride ≤ g.idx ∧ g.idx ≤ 2 ^ 63 - 3 := hb g.idx (by simp [nodeCursor.idxs])
      simp only [stride] at h1 h2
      rw [intSub_of_fits (by omega) (by omega)]
      by_cases h : f.idx = g.idx <;> simp [nodeCursor.idxs, lexDiff, h]
  | .root _, .child _ _, _, _, _, _, _, h => by simp [nodeCursor.depth] at h
  | .child _ _, .root _, _, _, _, _, _, h => by simp [nodeCursor.depth] at h
  | .child f p, .child g q, ha, hb, hta, htb, hr, hd => by
    have hd1 : p.depth = q.depth := by simpa [nodeCursor.depth] using hd
    obtain ⟨rp, ih1, ih0, ih2, ih3⟩ :=
      nodeCursor.compare_lex nrw p q ha.2 hb.2 hta.2 htb.2 hr hd1
    have hl : p.idxs.length = q.idxs.length := by
      rw [nodeCursor.idxs_length, nodeCursor.idxs_length, hd1]
    by_cases h0 : rp = 0
    · have hpq : p.idxs = q.idxs := ih0.mp h0
      have hidx : p.idx = q.idx := nodeCursor.idxs_eq_idx p q hd1 hpq
      have hnd : p.nd = q.nd := ih2 h0
      have h1 := ha.1
      have h2 := hb.1
      rw [nodeCursor.currentPair, hta.1] at h1
      rw [nodeCursor.currentPair, htb.1, ← hnd, ← hidx, h1] at h2
      have hfg : f.nd = g.nd := Except.ok.inj h2
      refine ⟨intSub f.idx g.idx, ?_, ?_, fun _ => hfg, fun hia hib => ?_⟩
      · rw [nodeCursor.compare, ih1]
        simp [h0, bind, Except.bind, pure, Except.pure, assertTrue, hfg]
      · simp [nodeCursor.idxs, hpq, intSub_eq_zero]
      · have h3 := hia.parent
        have h4 := hib.parent
        have h5 : lexDiff p.idxs q.idxs = 0 := (lexDiff_eq_zero _ _ hl).mpr hpq
        simp only [stride] at h3 h4
        rw [intSub_of_fits (by omega) (by omega)]
        simp [nodeCursor.idxs, lexDiff_append _ _ _ _ hl, h5]
    · refine ⟨rp, ?_, ?_, fun h => absurd h h0, fun hia hib => ?_⟩
      · rw [nodeCursor.compare, ih1]
        simp [h0, bind, Except.bind, pure, Except.pure]
      · constructor
        · intro h
          exact absurd h h0
        · intro h
          exact absurd (ih0.mpr (List.append_inj h hl).1) h0
      · have h5 := ih3 hia.parent.1 hib.parent.1
        have h6 : lexDiff p.idxs q.idxs ≠ 0 := by rw [← h5]; exact h0
        simp [nodeCursor.idxs, lexDiff_append _ _ _ _ hl, h6, h5]

theorem nodeCursor.FramesInState.own {nrw : NodeStore} {L : Nat} {c : nodeCursor}
    (h : c.FramesInState nrw L) : c.nrw = nrw ∧ WellFormed nrw L c.nd ∧ c.InState := by
  cases c with
  | root f => exact h
  | child f p => exact ⟨h.1, h.2.1, h.2.2.1⟩

theorem nodeCursor.inState_setIdx {c : nodeCursor} {i : Int} :
    (c.setIdx i).InState ↔
      (i = -stride ∨ (∃ k : Nat, i = 2 * (k : Int) ∧ k < c.nd.pairs.length) ∨ i = c.nd.nodeCount) := by
  simp [nodeCursor.InState, nodeCursor.onPair]

theorem nodeCursor.FramesInState.withIdx {nrw : NodeStore} {L : Nat} {c : nodeCursor} {i : Int}
    (h : c.FramesInState nrw L) (hi : (c.setIdx i).InState) :
    (c.setIdx i).FramesInState nrw L := by
  cases c with
  | root f => exact ⟨h.1, h.2.1, hi⟩
  | child f p => exact ⟨h.1, h.2.1, hi, h.2.2.2⟩

theorem nodeCursor.FramesInState.onPair_setIdx {nrw : NodeStore} {L : Nat} {c : nodeCursor}
    {i : Int} (h : c.FramesInState nrw L) (k : Nat) (hi : i = 2 * (k : Int))
    (hk : k < c.nd.pairs.length) :
    (c.setIdx i).FramesInState nrw L ∧ ∃ k, (c.setIdx i).onPair k :=
  ⟨h.withIdx (nodeCursor.inState_setIdx.mpr (Or.inr (Or.inl ⟨k, hi, hk⟩))),
    k, by simpa [nodeCursor.onPair] using ⟨hi, hk⟩⟩

/-- In every one of the three states the index is even and is not the transient
value `-1`. -/
theorem nodeCursor.FramesInState.even {nrw : NodeStore} : ∀ {L : Nat} {c : nodeCursor},
    c.FramesInState nrw L → ∀ i ∈ c.idxs, i ≠ -1 ∧ i % 2 = 0 := by
  have key : ∀ {L : Nat} {c : nodeCursor}, WellFormed nrw L c.nd → c.InState →
      c.idx ≠ -1 ∧ c.idx % 2 = 0 := by
    intro L c hwf hs
    have hc := hwf.nodeCount
    unfold nodeCursor.InState nodeCursor.onPair stride at hs
    rcases hs with h | ⟨k, h, _⟩ | h <;> omega
  intro L c
  induction c generalizing L with
  | root f =>
    intro h i hi
    simp only [nodeCursor.idxs, List.mem_singleton] at hi
    subst hi
    exact key (c := .root f) h.2.1 h.2.2
  | child f p ih =>
    intro h i hi
    simp only [nodeCursor.idxs, List.mem_append, List.mem_singleton] at hi
    rcases hi with hi | hi
    · exact ih h.2.2.2 i hi
    · subst hi
      exact key (c := .child f p) h.2.1 h.2.2.1

theorem nodeCursor.FramesInState.fetched (hgp : PairsByItem getPair) {nrw : NodeStore} {L : Nat}
    {f : Frame} {p : nodeCursor} {k : Nat} {pr : nodePair} {nd : Node}
    (hf : f.nrw = nrw) (hp : p.FramesInState nrw (L + 1)) (hk : p.onPair k)
    (hpr : p.currentPair getPair = .ok pr) (hnd : fetchChild f.nrw pr.value = .ok nd) :
    WellFormed nrw L nd := by
  obtain ⟨q, hq⟩ := hk.get
  rw [nodeCursor.currentPair_eq hgp hk.1 hq] at hpr
  cases hpr
  rw [hf] at hnd
  exact hp.own.2.1.child hq hnd

theorem nodeCursor.advanceInBounds_states (hgp : PairsByItem getPair) {nrw : NodeStore} :
    ∀ (c c1 : nodeCursor) (b : Bool) (L : Nat), c.FramesInState nrw L →
      c.advanceInBounds getPair = .ok (b, c1) →
      c1.FramesInState nrw L ∧ (b = true → ∃ k, c1.onPair k) := by
  have step : ∀ (c : nodeCursor) (L : Nat), c.FramesInState nrw L →
      c.idx < c.nd.nodeCount - stride →
      (c.setIdx (c.idx + stride)).FramesInState nrw L ∧
        ∃ k, (c.setIdx (c.idx + stride)).onPair k := by
    intro c L hc hlt
    obtain ⟨_, hwf, hs⟩ := hc.own
    have hcnt := hwf.nodeCount
    have hpos := hwf.pairs_pos
    unfold nodeCursor.InState nodeCursor.onPair at hs
    unfold stride at hs hlt ⊢
    rcases hs with h | ⟨k, h, hk⟩ | h
    · exact hc.onPair_setIdx 0 (by omega) hpos
    · exact hc.onPair_setIdx (k + 1) (by omega) (by omega)
    · omega
  intro c
  induction c with
  | root f =>
    intro c1 b L hc h
    rw [nodeCursor.advanceInBounds] at h
    split_ifs at h with h1 h2
    · cases h
      exact ⟨(step (.root f) L hc h1).1, fun _ => (step (.root f) L hc h1).2⟩
    · cases h
      exact ⟨hc, by simp⟩
    · obtain ⟨_, _, h⟩ := bind_ok_iff.mp h
      cases h
      exact ⟨hc, by simp⟩
  | child f p ih =>
    intro c1 b L hc h
    rw [nodeCursor.advanceInBounds] at h
    split_ifs at h with h1 h2
    · cases h
      exact ⟨(step (.child f p) L hc h1).1, fun _ => (step (.child f p) L hc h1).2⟩
    · cases h
      exact ⟨hc, by simp⟩
    · obtain ⟨_, _, h⟩ := bind_ok_iff.mp h
      obtain ⟨⟨b1, p1⟩, hp, h⟩ := bind_ok_iff.mp h
      obtain ⟨hp1, hon⟩ := ih p1 b1 (L + 1) hc.2.2.2 hp
      cases b1
      · simp only [Bool.false_eq_true, if_false, pure, Except.pure] at h
        cases h
        exact ⟨⟨hc.1, hc.2.1, hc.2.2.1, hp1⟩, by simp⟩
      · simp only [if_true] at h
        obtain ⟨c2, hc2, h⟩ := bind_ok_iff.mp h
        cases h
        rw [nodeCursor.fetchNode] at hc2
        obtain ⟨pr, hpr, hc2⟩ := bind_ok_iff.mp hc2
        obtain ⟨nd, hnd, hc2⟩ := bind_ok_iff.mp hc2
        cases hc2
        obtain ⟨k, hk⟩ := hon rfl
        have hwf : WellFormed nrw L nd := nodeCursor.FramesInState.fetched hgp hc.1 hp1 hk hpr hnd
        have h0 : 0 < nd.pairs.length := hwf.pairs_pos
        have hs : (nodeCursor.child { f with nd := nd, idx := 0 } p1).onPair 0 := ⟨rfl, h0⟩
        exact ⟨⟨hc.1, hwf, Or.inr (Or.inl ⟨0, hs⟩), hp1⟩, fun _ => ⟨0, hs⟩⟩

theorem nodeCursor.retreatInBounds_states (hgp : PairsByItem getPair) {nrw : NodeStore} :
    ∀ (c c1 : nodeCursor) (b : Bool) (L : Nat), c.FramesInState nrw L →
      c.retreatInBounds getPair = .ok (b, c1) →
      c1.FramesInState nrw L ∧ (b = true → ∃ k, c1.onPair k) := by
  have step : ∀ (c : nodeCursor) (L : Nat), c.FramesInState nrw L → c.idx > 0 →
      (c.setIdx (c.idx - stride)).FramesInState nrw L ∧
        ∃ k, (c.setIdx (c.idx - stride)).onPair k := by
    intro c L hc hlt
    obtain ⟨_, hwf, hs⟩ := hc.own
    have hcnt := hwf.nodeCount
    have hpos := hwf.pairs_pos
    unfold nodeCursor.InState nodeCursor.onPair at hs
    unfold stride at hs ⊢
    rcases hs with h | ⟨k, h, hk⟩ | h
    · omega
    · exact hc.onPair_setIdx (k - 1) (by omega) (by omega)
    · exact hc.onPair_setIdx (c.nd.pairs.length - 1) (by omega) (by omega)
  intro c
  induction c with
  | root f =>
    intro c1 b L hc h
    rw [nodeCursor.retreatInBounds] at h
    split_ifs at h with h1 h2
    · cases h
      exact ⟨(step (.root f) L hc h1).1, fun _ => (step (.root f) L hc h1).2⟩
    · cases h
      exact ⟨hc, by simp⟩
    · obtain ⟨_, _, h⟩ := bind_ok_iff.mp h
      cases h
      exact ⟨hc, by simp⟩
  | child f p ih =>
    intro c1 b L hc h
    rw [nodeCursor.retreatInBounds] at h
    split_ifs at h with h1 h2
    · cases h
      exact ⟨(step (.child f p) L hc h1).1, fun _ => (step (.child f p) L hc h1).2⟩
    · cases h
      exact ⟨hc, by simp⟩
    · obtain ⟨_, _, h⟩ := bind_ok_iff.mp h
      obtain ⟨⟨b1, p1⟩, hp, h⟩ := bind_ok_iff.mp h
      obtain ⟨hp1, hon⟩ := ih p1 b1 (L + 1) hc.2.2.2 hp
      cases b1
      · simp only [Bool.false_eq_true, if_false, pure, Except.pure] at h
        cases h
        exact ⟨⟨hc.1, hc.2.1, hc.2.2.1, hp1⟩, by simp⟩
      · simp only [if_true] at h
        obtain ⟨c2, hc2, h⟩ := bind_ok_iff.mp h
        cases h
        rw [nodeCursor.fetchNode] at hc2
        obtain ⟨pr, hpr, hc2⟩ := bind_ok_iff.mp hc2
        obtain ⟨nd, hnd, hc2⟩ := bind_ok_iff.mp hc2
        cases hc2
        obtain ⟨k, hk⟩ := hon rfl
        have hwf : WellFormed nrw L nd := nodeCursor.FramesInState.fetched hgp hc.1 hp1 hk hpr hnd
        have h0 : 0 < nd.pairs.length := hwf.pairs_pos
        have hl := hwf.lastIdx
        have hs : (nodeCursor.child { f with nd := nd, idx := nd.nodeCount - stride } p1).onPair
            (nd.pairs.length - 1) := ⟨hl, by simp only [nodeCursor.nd_child]; omega⟩
        exact ⟨⟨hc.1, hwf, Or.inr (Or.inl ⟨_, hs⟩), hp1⟩, fun _ => ⟨_, hs⟩⟩

theorem sortSearchLoop_range (f : Nat → Except Fault Bool) : ∀ (fuel lo hi r : Nat), lo ≤ hi →
    sortSearchLoop f fuel lo hi = .ok r → lo ≤ r ∧ r ≤ hi
  | 0, lo, hi, r, hle, h => by
    rw [sortSearchLoop] at h
    cases h
    exact ⟨le_refl _, hle⟩
  | fuel + 1, lo, hi, r, hle, h => by
    rw [sortSearchLoop] at h
    split_ifs at h with hlt
    · obtain ⟨b, _, h⟩ := bind_ok_iff.mp h
      cases b
      · have := sortSearchLoop_range f fuel ((lo + hi) / 2 + 1) hi r (by omega) (by simpa using h)
        omega
      · have := sortSearchLoop_range f fuel lo ((lo + hi) / 2) r (by omega) (by simpa using h)
        omega
    · cases h
      exact ⟨le_refl _, hle⟩

/-- The result of `search` is `stride` times a pair index, at most the number of
pairs, for every comparator and every order of the keys. -/
theorem nodeCursor.search_range {c : nodeCursor} {item : nodeItem} {cb : compareFn} {i : Int}
    (h : c.search item cb = .ok i) :
    ∃ r : Nat, i = 2 * (r : Int) ∧ r ≤ c.nd.pairs.length := by
  rw [nodeCursor.search] at h
  obtain ⟨r, hr, h⟩ := bind_ok_iff.mp h
  cases h
  have hn : (c.nd.nodeCount / stride).toNat = c.nd.pairs.length := by
    have := c.nd.pairs_length
    unfold stride
    omega
  rw [sortSearch, hn] at hr
  have := sortSearchLoop_range _ _ _ _ r (Nat.zero_le _) hr
  exact ⟨r, by unfold stride; ring, this.2⟩

theorem nodeCursor.inState_of_search {nrw : NodeStore} {L : Nat} {c : nodeCursor}
    {item : nodeItem} {cb : compareFn} {i : Int} (hwf : WellFormed nrw L c.nd)
    (h : c.search item cb = .ok i) : (c.setIdx i).InState := by
  obtain ⟨r, hr, hle⟩ := nodeCursor.search_range h
  have hcnt := hwf.nodeCount
  refine nodeCursor.inState_setIdx.mpr ?_
  rcases Nat.lt_or_ge r c.nd.pairs.length with hlt | hge
  · exact Or.inr (Or.inl ⟨r, hr, hlt⟩)
  · exact Or.inr (Or.inr (by omega))

theorem nodeCursor.FramesInState.searched {nrw : NodeStore} {L : Nat} {c : nodeCursor}
    {item : nodeItem} {cb : compareFn} {i : Int} (hc : c.FramesInState nrw L)
    (h : c.search item cb = .ok i) : (c.setIdx i).FramesInState nrw L :=
  hc.withIdx (nodeCursor.inState_of_search hc.own.2.1 h)

theorem nodeCursor.FramesInState.keepInBounds {nrw : NodeStore} {L : Nat} {c : nodeCursor}
    (hc : c.FramesInState nrw L) :
    c.keepInBounds.FramesInState nrw L ∧ ∃ k, c.keepInBounds.onPair k := by
  obtain ⟨_, hwf, hs⟩ := hc.own
  have hcnt := hwf.nodeCount
  have hpos := hwf.pairs_pos
  have hself : c.setIdx c.idx = c := nodeCursor.setIdx_self c
  unfold nodeCursor.InState nodeCursor.onPair at hs
  unfold nodeCursor.keepInBounds nodeCursor.skipToNodeStart nodeCursor.skipToNodeEnd
    nodeCursor.lastKeyIdx
  simp only []
  unfold stride at hs ⊢
  split_ifs with h1 h2 h3
  · simp only [nodeCursor.idx_setIdx, nodeCursor.nd_setIdx] at h2
    omega
  · exact hc.onPair_setIdx 0 rfl hpos
  · rw [← hself]
    simp only [nodeCursor.nd_setIdx]
    rw [hself]
    exact hc.onPair_setIdx (c.nd.pairs.length - 1) (by omega) (by omega)
  · rcases hs with h | ⟨k, h, hk⟩ | h
    · omega
    · rw [← hself]
      exact hc.onPair_setIdx k h hk
    · omega

theorem nodeCursor.seek_states (hgp : PairsByItem getPair) {nrw : NodeStore} {item : nodeItem}
    {cb : compareFn} : ∀ (c c1 : nodeCursor) (L : Nat), c.FramesInState nrw L →
      nodeCursor.seek getPair item cb c = .ok c1 → c1.FramesInState nrw L := by
  intro c
  induction c with
  | root f =>
    intro c1 L hc h
    rw [nodeCursor.seek] at h
    obtain ⟨i, hi, h⟩ := bind_ok_iff.mp h
    cases h
    exact hc.searched hi
  | child f p ih =>
    intro c1 L hc h
    rw [nodeCursor.seek] at h
    obtain ⟨k0, _, h⟩ := bind_ok_iff.mp h
    obtain ⟨inb, _, h⟩ := bind_ok_iff.mp h
    cases inb
    · simp only [Bool.not_false, if_true] at h
      obtain ⟨p1, hp1, h⟩ := bind_ok_iff.mp h
      obtain ⟨pr, hpr, h⟩ := bind_ok_iff.mp h
      obtain ⟨nd, hnd, h⟩ := bind_ok_iff.mp h
      obtain ⟨i, hi, h⟩ := bind_ok_iff.mp h
      cases h
      obtain ⟨hp2, k, hk⟩ := (ih p1 (L + 1) hc.2.2.2 hp1).keepInBounds
      have hwf : WellFormed nrw L nd := nodeCursor.FramesInState.fetched hgp hc.1 hp2 hk hpr hnd
      exact ⟨hc.1, hwf,
        nodeCursor.inState_of_search (c := .child { f with nd := nd } p1.keepInBounds) hwf hi, hp2⟩
    · simp only [Bool.not_true, Bool.false_eq_true, if_false] at h
      obtain ⟨i, hi, h⟩ := bind_ok_iff.mp h
      cases h
      exact hc.searched hi

theorem Node.pairAt_nodeCount (nd : Node) : nd.pairAt nd.nodeCount = .error .runtime := by
  have h : nd.getItem nd.nodeCount = .error .runtime := by
    rw [Node.nodeCount, Node.getItem_natCast]
    simp
  simp [Node.pairAt, h, bind, Except.bind]

/-- The inner loop of `newCursorAtIndex` on the root frame: when the distance is at
least the sum of the counts from the current pair on, the loop steps past the last
pair and the read of the current pair panics. -/
theorem newCursorAtIndexSkip_overrun (hgp : PairsByItem getPair) :
    ∀ (fuel : Nat) (f : Frame) (k : Nat) (pr : nodePair) (d : Nat),
      f.nd.items.length % 2 = 0 → f.idx = 2 * (k : Int) → f.nd.pairs[k]? = some pr →
      ((f.nd.pairs.drop k).map fun q => GetCumulativeCount q.value).sum ≤ d →
      f.nd.pairs.length - k ≤ fuel →
      newCursorAtIndexSkip getPair fuel (.root f) d pr.value = .error .runtime := by
  intro fuel
  induction fuel with
  | zero =>
    intro f k pr d _ _ hpr _ hf
    have := (List.getElem?_eq_some_iff.mp hpr).1
    omega
  | succ fuel ih =>
    intro f k pr d hev hk hpr hd hf
    have hkl : k < f.nd.pairs.length := (List.getElem?_eq_some_iff.mp hpr).1
    have hdrop : f.nd.pairs.drop k = pr :: f.nd.pairs.drop (k + 1) := by
      rw [List.drop_eq_getElem_cons hkl]
      congr 1
      exact Option.some.inj ((List.getElem?_eq_getElem hkl).symm.trans hpr)
    rw [hdrop, List.map_cons, List.sum_cons] at hd
    have hge : d ≥ GetCumulativeCount pr.value := by omega
    have hcnt : f.nd.nodeCount = 2 * (f.nd.pairs.length : Int) := by
      rw [Node.pairs, pairUp_length, Node.nodeCount]
      omega
    rw [newCursorAtIndexSkip, if_pos hge]
    by_cases hlast : k + 1 < f.nd.pairs.length
    · have hlt : f.idx < f.nd.nodeCount - stride := by unfold stride; omega
      obtain ⟨pr2, hpr2⟩ : ∃ q, f.nd.pairs[k + 1]? = some q :=
        ⟨_, List.getElem?_eq_getElem hlast⟩
      have hcp : (nodeCursor.root { f with idx := f.idx + stride }).currentPair getPair =
          .ok pr2 :=
        nodeCursor.currentPair_eq hgp (k := k + 1)
          (by simp only [nodeCursor.idx_root]; unfold stride; push_cast; omega) hpr2
      simp only [nodeCursor.advance_eq (nodeCursor.advanceInBounds_root_step hlt), bind,
        Except.bind, if_true, hcp]
      exact ih { f with idx := f.idx + stride } (k + 1) pr2 _ hev
        (by show f.idx + stride = _; unfold stride; push_cast; omega) hpr2
        (by
          show ((f.nd.pairs.drop (k + 1)).map fun q => GetCumulativeCount q.value).sum ≤
            d - GetCumulativeCount pr.value
          omega)
        (by show f.nd.pairs.length - (k + 1) ≤ fuel; omega)
    · have hl : f.idx = f.nd.nodeCount - stride := by unfold stride; omega
      have hcp : ((nodeCursor.root f).setIdx (nodeCursor.root f).nd.nodeCount).currentPair
          getPair = .error .runtime := by
        rw [nodeCursor.currentPair, hgp]
        exact Node.pairAt_nodeCount f.nd
      simp only [nodeCursor.advance_eq (nodeCursor.advanceInBounds_root_last hl), bind,
        Except.bind, Bool.false_eq_true, if_false, hcp]

/-- An index at least the sum of the counts of an internal root makes the constructor
panic once the bound on the iterations covers the pairs of the root. -/
theorem newCursorAtIndex_overrun (hgp : PairsByItem getPair) (nrw : NodeStore) (nd : Node)
    (i fuel : Nat) (hlev : nd.level ≠ 0) (hne : nd.items ≠ []) (hev : nd.items.length % 2 = 0)
    (hi : nd.internalCount ≤ i) (hfuel : nd.pairs.length ≤ fuel) :
    newCursorAtIndex getPair fuel nrw nd i = .error .runtime := by
  have hpos : 0 < nd.pairs.length := by
    rw [Node.pairs, pairUp_length]
    have := List.length_pos.mpr hne
    omega
  obtain ⟨pr, hpr⟩ : ∃ q, nd.pairs[0]? = some q := ⟨_, List.getElem?_eq_getElem hpos⟩
  obtain ⟨fuel, rfl⟩ : ∃ n, fuel = n + 1 := ⟨fuel - 1, by omega⟩
  have hleaf : (nodeCursor.root ⟨nd, 0, nrw⟩).isLeaf = false := by
    simpa [nodeCursor.isLeaf, nodeCursor.level] using hlev
  have hcp : (nodeCursor.root ⟨nd, 0, nrw⟩).currentPair getPair = .ok pr :=
    nodeCursor.currentPair_eq hgp (k := 0) rfl hpr
  have hskip := newCursorAtIndexSkip_overrun hgp (fuel + 1) ⟨nd, 0, nrw⟩ 0 pr i hev rfl hpr
    (by simpa [Node.internalCount] using hi) (by simpa using hfuel)
  simp [newCursorAtIndex, newCursorAtIndexLoop, hleaf, hcp, hskip, bind, Except.bind]

theorem newCursorAtIndex_leaf (nrw : NodeStore) (nd : Node) (i fuel : Nat) (hlev : nd.level = 0)
    (hfuel : 0 < fuel) (hsize : nd.nodeCount < 2 ^ 63) :
    newCursorAtIndex getPair fuel nrw nd i = .ok (.root ⟨nd, intOfUint64 i, nrw⟩) := by
  obtain ⟨fuel, rfl⟩ : ∃ n, fuel = n + 1 := ⟨fuel - 1, by omega⟩
  have hleaf : (nodeCursor.root ⟨nd, 0, nrw⟩).isLeaf = true := by
    simpa [nodeCursor.isLeaf, nodeCursor.level] using hlev
  have hs : (nodeCursor.root ⟨nd, 0, nrw⟩).nd.nodeCount < 2 ^ 63 := hsize
  simp only [newCursorAtIndex, newCursorAtIndexLoop, hleaf, bind, Except.bind, pure, Except.pure,
    if_true, if_pos hs]
  rfl

theorem readUint48_lt : ∀ (l : List Nat) (acc : Nat), (∀ b ∈ l, b < 256) →
    l.foldl (fun a x => a * 256 + x) acc < (acc + 1) * 256 ^ l.length
  | [], acc, _ => by simp
  | b :: l, acc, h => by
    have hb : b < 256 := h b (List.mem_cons_self _ _)
    have ih := readUint48_lt l (acc * 256 + b) fun x hx => h x (List.mem_cons_of_mem _ hx)
    rw [List.foldl_cons, List.length_cons, pow_succ]
    calc l.foldl (fun a x => a * 256 + x) (acc * 256 + b)
        < (acc * 256 + b + 1) * 256 ^ l.length := ih
      _ ≤ ((acc + 1) * 256) * 256 ^ l.length := Nat.mul_le_mul_right _ (by omega)
      _ = (acc + 1) * (256 ^ l.length * 256) := by ring

/-- Six bytes hold a number below `2^48`, whatever is written into them. -/
theorem getCumulativeCount_lt (mt : nodeItem) (h : ∀ b ∈ mt, b < 256) :
    GetCumulativeCount mt < 2 ^ 48 := by
  have h1 := readUint48_lt (mt.take 6) 0 fun b hb => h b (List.mem_of_mem_take hb)
  have h2 : (mt.take 6).length ≤ 6 := by simp
  have h3 : 256 ^ (mt.take 6).length ≤ 256 ^ 6 := Nat.pow_le_pow_right (by norm_num) h2
  simp only [GetCumulativeCount, tupleGetField, metaValueCountIdx, if_true, ReadUint48]
  have h4 : (256 : Nat) ^ 6 = 2 ^ 48 := by norm_num
  omega

theorem pairUp_getLast (l : List nodeItem) (hne : l ≠ []) (hev : l.length % 2 = 0) :
    ∃ k v, l[l.length - 2]? = some k ∧ l[l.length - 1]? = some v ∧
      (pairUp l).getLast? = some ⟨k, v⟩ := by
  have hpos : 0 < l.length := List.length_pos.mpr hne
  have h2 : l.length - 2 < l.length := by omega
  have h1 : l.length - 1 < l.length := by omega
  refine ⟨l[l.length - 2], l[l.length - 1], List.getElem?_eq_getElem h2,
    List.getElem?_eq_getElem h1, ?_⟩
  rw [List.getLast?_eq_getElem?, pairUp_length, pairUp_getElem?]
  have e1 : 2 * (l.length / 2 - 1) = l.length - 2 := by omega
  have e2 : l.length - 2 + 1 = l.length - 1 := by omega
  rw [e1, e2]
  exact ⟨List.getElem?_eq_getElem h2, List.getElem?_eq_getElem h1⟩

theorem writeNewChild_nonempty (cumulativeCount : Node → Nat) (ns : NodeStore) (level : Nat)
    (items : List nodeItem) (h : Hash) (k : nodeItem)
    (hw : ns.Write (makeProllyNode level items) = .ok h)
    (hk : items[items.length - 2]? = some k) (hlen : 2 ≤ items.length) :
    writeNewChild cumulativeCount ns level items =
      .ok (makeProllyNode level items,
        ⟨k, newMetaValue (cumulativeCount (makeProllyNode level items)) h⟩) := by
  have h0 : ¬ items.length = 0 := by omega
  have h1 : ¬ items.length < 2 := by omega
  simp [writeNewChild, hw, h0, h1, metaPairCount, hk, bind, Except.bind, pure, Except.pure]

theorem getRef_newMetaValue (count : Nat) (ref : Hash) (href : ref.length = 20) :
    GetRef (newMetaValue count ref) = ref := by
  simp [GetRef, tupleGetField, newMetaValue, metaValueRefIdx, WriteUint48, ← href]

theorem getCumulativeCount_newMetaValue (count : Nat) (ref : Hash) (hcount : count < 2 ^ 48) :
    GetCumulativeCount (newMetaValue count ref) = count := by
  have hf0 : tupleGetField (newMetaValue count ref) metaValueCountIdx = WriteUint48 count := by
    simp [tupleGetField, newMetaValue, metaValueCountIdx, WriteUint48]
  rw [GetCumulativeCount, hf0, readUint48_writeUint48 count hcount]

theorem except_bind_ok_iff {ε α β : Type} {x : Except ε α} {f : α → Except ε β} {b : β} :
    (x >>= f) = .ok b ↔ ∃ a, x = .ok a ∧ f a = .ok b := by
  cases x <;> simp [bind, Except.bind]

theorem diffType_cases (hasTo hasFrom : Bool) (row : SqlRow) :
    ∃ t, (if hasTo && hasFrom then row ++ [diffTypeModified]
        else if hasTo && !hasFrom then row ++ [diffTypeAdded]
        else row ++ [diffTypeRemoved]) = row ++ [t] ∧
      (t = diffTypeAdded ↔ hasTo = true ∧ hasFrom = false) ∧
      (t = diffTypeModified ↔ hasTo = true ∧ hasFrom = true) ∧
      (t = diffTypeRemoved ↔ hasTo = false) := by
  cases hasTo <;> cases hasFrom <;> simp <;> decide

theorem Heap.chain_lt (h : Heap) : ∀ (n a x : Nat), x ∈ h.chain n a → x < h.length
  | 0, _, _, hx => by simp [Heap.chain] at hx
  | n + 1, a, x, hx => by
    rw [Heap.chain] at hx
    cases hc : h[a]? with
    | none => simp [hc] at hx
    | some cell =>
      have ha : a < h.length := (List.getElem?_eq_some_iff.mp hc).1
      rw [hc] at hx
      cases hp : cell.parent with
      | none =>
        simp only [hp, List.mem_singleton] at hx
        omega
      | some p =>
        simp only [hp, List.mem_cons] at hx
        rcases hx with hx | hx
        · omega
        · exact Heap.chain_lt h n p x hx

/-- What `load` and `chain` give depends on the structs of the chain only. -/
theorem Heap.load_congr (h h2 : Heap) : ∀ (n a : Nat) (c : nodeCursor), h.load n a = some c →
    (∀ x ∈ h.chain n a, h2[x]? = h[x]?) →
    h2.load n a = some c ∧ h2.chain n a = h.chain n a
  | 0, _, _, hl, _ => by simp [Heap.load] at hl
  | n + 1, a, c, hl, hx => by
    rw [Heap.load] at hl
    rw [Heap.chain] at hx
    rw [Heap.load, Heap.chain, Heap.chain]
    cases hc : h[a]? with
    | none => simp [hc] at hl
    | some cell =>
      rw [hc] at hl hx
      cases hp : cell.parent with
      | none =>
        simp only [hp] at hl hx
        rw [hx a (List.mem_singleton_self a), hc]
        simp only [hp]
        exact ⟨hl, trivial⟩
      | some p =>
        simp only [hp] at hl hx
        rw [hx a (List.mem_cons_self _ _), hc]
        simp only [hp]
        obtain ⟨cp, hcp, hcc⟩ := Option.map_eq_some'.mp hl
        obtain ⟨ih1, ih2⟩ := Heap.load_congr h h2 n p cp hcp
          fun x hxm => hx x (List.mem_cons_of_mem _ hxm)
        rw [ih1, ih2]
        exact ⟨by simpa using hcc, rfl⟩

theorem Heap.getElem?_set_ne (h : Heap) (a x : Nat) (cell : Cell) (hne : x ≠ a) :
    (h.set a cell)[x]? = h[x]? := by
  rw [List.getElem?_set]
  simp [Ne.symm hne]

theorem Heap.getElem?_set_self (h : Heap) (a : Nat) (cell : Cell) (ha : a < h.length) :
    (h.set a cell)[a]? = some cell := by
  rw [List.getElem?_set]
  simp [ha]

/-- The clone of a cursor stands for the same cursor value, its structs are new and
distinct, and the structs that were there before are as they were. -/
theorem Heap.clone_spec : ∀ (n : Nat) (h : Heap) (a : Nat) (c : nodeCursor),
    h.load n a = some c →
    ∃ h1 a1, h.clone n a = some (h1, a1) ∧ a1 = h.length ∧ h.length < h1.length ∧
      (∀ x, x < h.length → h1[x]? = h[x]?) ∧ h1.load n a1 = some c ∧
      (∀ x ∈ h1.chain n a1, h.length ≤ x) ∧ (h1.chain n a1).Nodup
  | 0, _, _, _, hl => by simp [Heap.load] at hl
  | n + 1, h, a, c, hl => by
    rw [Heap.load] at hl
    rw [Heap.clone]
    cases hc : h[a]? with
    | none => simp [hc] at hl
    | some cur =>
      rw [hc] at hl
      have hold : ∀ x, x < h.length → (h ++ [(⟨cur.frame, none⟩ : Cell)])[x]? = h[x]? :=
        fun x hx => List.getElem?_append_left hx
      have hnew : (h ++ [(⟨cur.frame, none⟩ : Cell)])[h.length]? = some ⟨cur.frame, none⟩ := by
        simp
      cases hp : cur.parent with
      | none =>
        simp only [hp] at hl ⊢
        refine ⟨_, _, rfl, rfl, by simp, hold, ?_, ?_, ?_⟩
        · rw [Heap.load, hnew]
          exact hl
        · rw [Heap.chain, hnew]
          simp
        · rw [Heap.chain, hnew]
          simp
      | some p =>
        simp only [hp] at hl ⊢
        obtain ⟨cp, hcp, hcc⟩ := Option.map_eq_some'.mp hl
        have h0p := (Heap.load_congr h (h ++ [⟨cur.frame, none⟩]) n p cp hcp
          fun x hx => hold x (Heap.chain_lt h n p x hx)).1
        obtain ⟨h1, p1, hcl, hp1, hlen, hold1, hload1, hge1, hnd1⟩ :=
          Heap.clone_spec n (h ++ [⟨cur.frame, none⟩]) p cp h0p
        rw [hcl]
        have hl0 : (h ++ [(⟨cur.frame, none⟩ : Cell)]).length = h.length + 1 := by simp
        rw [hl0] at hlen hold1 hge1
        have hself : (h1.set h.length ⟨cur.frame, some p1⟩)[h.length]? =
            some ⟨cur.frame, some p1⟩ := Heap.getElem?_set_self h1 _ _ (by omega)
        obtain ⟨hl2, hc2⟩ := Heap.load_congr h1 (h1.set h.length ⟨cur.frame, some p1⟩) n p1 cp
          hload1 fun x hx => Heap.getElem?_set_ne h1 _ x _ (by have := hge1 x hx; omega)
        refine ⟨_, _, rfl, rfl, by simp; omega, ?_, ?_, ?_, ?_⟩
        · intro x hx
          rw [Heap.getElem?_set_ne h1 _ x _ (by omega), hold1 x (by omega), hold x hx]
        · rw [Heap.load, hself]
          simp only [hl2, Option.map_some']
          rw [← hcc]
        · rw [Heap.chain, hself]
          simp only [hc2, List.mem_cons]
          rintro x (hx | hx)
          · omega
          · have := hge1 x hx
            omega
        · rw [Heap.chain, hself]
          simp only [hc2, List.nodup_cons]
          exact ⟨fun hm => by have := hge1 _ hm; omega, hnd1⟩

/-- An assignment to the frames of one chain leaves every other struct as it was. -/
theorem Heap.store_other : ∀ (as : List Nat) (c : nodeCursor) (h : Heap) (x : Nat), x ∉ as →
    (h.store as c)[x]? = h[x]?
  | [], _, _, _, _ => rfl
  | a :: as, .root f, h, x, hx => by
    rw [Heap.store]
    cases hc : h[a]? with
    | none => rfl
    | some cell =>
      simp only []
      exact Heap.getElem?_set_ne h a x _ fun e => hx (by simp [e])
  | a :: as, .child f p, h, x, hx => by
    rw [Heap.store]
    cases hc : h[a]? with
    | none => rfl
    | some cell =>
      simp only []
      rw [Heap.store_other as p _ x fun hm => hx (List.mem_cons_of_mem _ hm)]
      exact Heap.getElem?_set_ne h a x _ fun e => hx (by simp [e])

/-- After the frames of a cursor of the same depth have been assigned along the
chain of the struct at `a`, that struct stands for the assigned cursor. -/
theorem Heap.load_store : ∀ (n : Nat) (h : Heap) (a : Nat) (c c2 : nodeCursor),
    h.load n a = some c → (h.chain n a).Nodup → c2.depth = c.depth →
    (h.store (h.chain n a) c2).load n a = some c2
  | 0, _, _, _, _, hl, _, _ => by simp [Heap.load] at hl
  | n + 1, h, a, c, c2, hl, hnd, hd => by
    rw [Heap.load] at hl
    rw [Heap.chain] at hnd ⊢
    cases hc : h[a]? with
    | none => simp [hc] at hl
    | some cell =>
      have ha : a < h.length := (List.getElem?_eq_some_iff.mp hc).1
      rw [hc] at hl hnd
      cases hp : cell.parent with
      | none =>
        simp only [hp] at hl hnd ⊢
        cases hl
        cases c2 with
        | child _ _ => simp [nodeCursor.depth] at hd
        | root f2 =>
          rw [Heap.store, hc]
          simp only []
          rw [Heap.load, Heap.getElem?_set_self h a _ ha]
          simp only [hp]
      | some p =>
        simp only [hp] at hl hnd ⊢
        obtain ⟨cp, hcp, hcc⟩ := Option.map_eq_some'.mp hl
        subst hcc
        cases c2 with
        | root _ => simp [nodeCursor.depth] at hd
        | child f2 p2 =>
          have hd2 : p2.depth = cp.depth := by simpa [nodeCursor.depth] using hd
          rw [List.nodup_cons] at hnd
          rw [Heap.store, hc]
          simp only []
          obtain ⟨hl1, hc1⟩ := Heap.load_congr h (h.set a { cell with frame := f2 }) n p cp hcp
            fun x hx => Heap.getElem?_set_ne h a x _ fun e => hnd.1 (e ▸ hx)
          have ih := Heap.load_store n (h.set a { cell with frame := f2 }) p cp p2 hl1
            (by rw [hc1]; exact hnd.2) hd2
          rw [hc1] at ih
          rw [hp] at ih
          rw [Heap.load, Heap.store_other _ p2 _ a hnd.1, Heap.getElem?_set_self h a _ ha]
          simp only [hp, ih, Option.map_some']

/-- Two cursors of the same depth with the parent/child invariant over the same
root through the same store hold the same node wherever the frames above have the
same indexes. -/
theorem nodeCursor.same_node (nrw : NodeStore) : ∀ (a b : nodeCursor),
    a.Linked getPair → b.Linked getPair → a.Through nrw → b.Through nrw →
    a.rootNode = b.rootNode → a.depth = b.depth →
    a.idxs.dropLast = b.idxs.dropLast → a.nd = b.nd
  | .root _, .root _, _, _, _, _, hr, _, _ => hr
  | .root _, .child _ _, _, _, _, _, _, h, _ => by simp [nodeCursor.depth] at h
  | .child _ _, .root _, _, _, _, _, _, h, _ => by simp [nodeCursor.depth] at h
  | .child f p, .child g q, ha, hb, hta, htb, hr, hd, hi => by
    have hd1 : p.depth = q.depth := by simpa [nodeCursor.depth] using hd
    simp only [nodeCursor.idxs, List.dropLast_concat] at hi
    have hnd : p.nd = q.nd :=
      nodeCursor.same_node nrw p q ha.2 hb.2 hta.2 htb.2 hr hd1 (by rw [hi])
    have hidx : p.idx = q.idx := nodeCursor.idxs_eq_idx p q hd1 hi
    have h1 := ha.1
    have h2 := hb.1
    rw [nodeCursor.currentPair, hta.1] at h1
    rw [nodeCursor.currentPair, htb.1, ← hnd, ← hidx, h1] at h2
    exact Except.ok.inj h2

theorem nodeCursor.up_linked : ∀ (k : Nat) (c : nodeCursor), c.Linked getPair →
    (c.up k).Linked getPair
  | 0, _, h => h
  | _ + 1, .root _, h => h
  | k + 1, .child _ p, h => nodeCursor.up_linked k p h.2

theorem nodeCursor.up_through (nrw : NodeStore) : ∀ (k : Nat) (c : nodeCursor), c.Through nrw →
    (c.up k).Through nrw
  | 0, _, h => h
  | _ + 1, .root _, h => h
  | k + 1, .child _ p, h => nodeCursor.up_through nrw k p h.2

theorem nodeCursor.up_rootNode : ∀ (k : Nat) (c : nodeCursor), (c.up k).rootNode = c.rootNode
  | 0, _ => rfl
  | _ + 1, .root _ => rfl
  | k + 1, .child _ p => nodeCursor.up_rootNode k p

theorem nodeCursor.up_depth : ∀ (k : Nat) (c : nodeCursor), (c.up k).depth = c.depth - k
  | 0, _ => rfl
  | _ + 1, .root _ => by simp [nodeCursor.up, nodeCursor.depth]
  | k + 1, .child _ p => by
    simp only [nodeCursor.up, nodeCursor.depth, nodeCursor.up_depth k p]
    omega

theorem nodeCursor.compare_setIdx (c : nodeCursor) (i j : Int) :
    (c.setIdx i).compare (c.setIdx j) = .ok (intSub i j) := by
  cases c with
  | root f =>
    simp [nodeCursor.setIdx, nodeCursor.compare, assertTrue, bind, Except.bind, pure, Except.pure]
  | child f p =>
    simp [nodeCursor.setIdx, nodeCursor.compare, nodeCursor.compare_self p, assertTrue, bind,
      Except.bind, pure, Except.pure]

/-- A step of `advanceInBounds` that returns true ends on a cursor that compares
greater, in both directions of the call. -/
theorem nodeCursor.advanceInBounds_compare :
    ∀ (c c1 : nodeCursor), c.advanceInBounds getPair = .ok (true, c1) →
      ∃ r s, c.compare c1 = .ok r ∧ c1.compare c = .ok s ∧ r < 0 ∧ 0 < s := by
  have step : ∀ c : nodeCursor, ∃ r s, c.compare (c.setIdx (c.idx + stride)) = .ok r ∧
      (c.setIdx (c.idx + stride)).compare c = .ok s ∧ r < 0 ∧ 0 < s := by
    intro c
    have h1 := nodeCursor.compare_setIdx c c.idx (c.idx + stride)
    have h2 := nodeCursor.compare_setIdx c (c.idx + stride) c.idx
    rw [nodeCursor.setIdx_self] at h1 h2
    refine ⟨_, _, h1, h2, ?_, ?_⟩
    · rw [intSub_of_fits (by unfold stride; omega) (by unfold stride; omega)]
      unfold stride
      omega
    · rw [intSub_of_fits (by unfold stride; omega) (by unfold stride; omega)]
      unfold stride
      omega
  intro c
  induction c with
  | root f =>
    intro c1 h
    rw [nodeCursor.advanceInBounds] at h
    split_ifs at h with h1 h2
    · cases h
      exact step (.root f)
    · cases h
    · obtain ⟨_, _, h⟩ := bind_ok_iff.mp h
      cases h
  | child f p ih =>
    intro c1 h
    rw [nodeCursor.advanceInBounds] at h
    split_ifs at h with h1 h2
    · cases h
      exact step (.child f p)
    · cases h
    · obtain ⟨_, _, h⟩ := bind_ok_iff.mp h
      obtain ⟨⟨b1, p1⟩, hp, h⟩ := bind_ok_iff.mp h
      cases b1
      · simp only [Bool.false_eq_true, if_false, pure, Except.pure] at h
        cases h
      · simp only [if_true] at h
        obtain ⟨c2, hc2, h⟩ := bind_ok_iff.mp h
        cases h
        rw [nodeCursor.fetchNode] at hc2
        obtain ⟨pr, _, hc2⟩ := bind_ok_iff.mp hc2
        obtain ⟨nd, _, hc2⟩ := bind_ok_iff.mp hc2
        cases hc2
        obtain ⟨r, s, hr, hs, hr0, hs0⟩ := ih p1 hp
        refine ⟨r, s, ?_, ?_, hr0, hs0⟩
        · simp [nodeCursor.skipToNodeStart, nodeCursor.setIdx, nodeCursor.compare, hr,
            bind, Except.bind, pure, Except.pure, Int.ne_of_lt hr0]
        · simp [nodeCursor.skipToNodeStart, nodeCursor.setIdx, nodeCursor.compare, hs,
            bind, Except.bind, pure, Except.pure, Int.ne_of_gt hs0]

theorem nodeCursor.here_pos {nrw : NodeStore} {L : Nat} {c : nodeCursor} {k : Nat}
    (hov : c.Over nrw L) (hon : c.onPair k) : 0 < (c.here nrw L).length := by
  obtain ⟨pr, hpr⟩ := hon.get
  rw [nodeCursor.here_eq hon.1 hpr]
  exact hov.wf.under_pos (List.getElem?_mem hpr)

/-- On the last leaf pair `advanceInBounds` returns false and changes nothing. -/
theorem nodeCursor.advanceInBounds_at_end (hgp : PairsByItem getPair) {nrw : NodeStore}
    {L k : Nat} {c : nodeCursor} (hov : c.Over nrw L) (hon : c.onPair k)
    (hend : c.after nrw L = []) :
    c.advanceInBounds getPair = .ok (false, c) ∧ c.idx = c.nd.nodeCount - stride := by
  rcases nodeCursor.advanceInBounds_spec hgp c L k hov hon with
    ⟨c1, k1, _, hov1, hon1, _, _, hlist, _⟩ | ⟨h, _, hidx⟩
  · have := nodeCursor.here_pos hov1 hon1
    rw [hend] at hlist
    have hl := congrArg List.length hlist
    simp only [List.length_append, List.length_nil] at hl
    omega
  · exact ⟨h, hidx⟩

/-- On the first leaf pair `retreatInBounds` returns false and changes nothing. -/
theorem nodeCursor.retreatInBounds_at_start (hgp : PairsByItem getPair) {nrw : NodeStore}
    {L k : Nat} {c : nodeCursor} (hov : c.Over nrw L) (hon : c.onPair k)
    (hstart : c.before nrw L = []) :
    c.retreatInBounds getPair = .ok (false, c) ∧ c.idx = 0 := by
  rcases nodeCursor.retreatInBounds_spec hgp c L k hov hon with
    ⟨c1, k1, _, hov1, hon1, _, _, hlist, _⟩ | ⟨h, _, hidx⟩
  · have := nodeCursor.here_pos hov1 hon1
    rw [hstart] at hlist
    have hl := congrArg List.length hlist
    simp only [List.length_append, List.length_nil] at hl
    omega
  · exact ⟨h, hidx⟩

theorem nodeCursor.Over.levels {nrw : NodeStore} : ∀ (c : nodeCursor) (L : Nat), c.Over nrw L →
    c.levels = List.range' L (c.depth + 1)
  | .root f, L, h => by
    simp [nodeCursor.levels, nodeCursor.depth, (nodeCursor.Over_root.mp h).2.shape.1]
  | .child f p, L, h => by
    have hl : f.nd.level = L := (nodeCursor.Over.wf h).shape.1
    rw [nodeCursor.levels, nodeCursor.Over.levels p (L + 1) (nodeCursor.Over_child.mp h).2.1,
      nodeCursor.depth, List.range'_succ (n := p.depth + 1), hl]

theorem nodeCursor.rootNode_setIdx (c : nodeCursor) (i : Int) :
    (c.setIdx i).rootNode = c.rootNode := by
  cases c <;> rfl

theorem nodeCursor.depth_setIdx (c : nodeCursor) (i : Int) : (c.setIdx i).depth = c.depth := by
  cases c <;> rfl

/-- Clamping an even index of a frame over a well-formed node puts the frame on a pair. -/
theorem nodeCursor.keepInBounds_onPair {nrw : NodeStore} {L : Nat} {c : nodeCursor}
    (hov : c.Over nrw L) (hev : c.idx % 2 = 0) :
    c.keepInBounds.Over nrw L ∧ (∃ k, c.keepInBounds.onPair k) ∧
      c.keepInBounds.rootNode = c.rootNode ∧ c.keepInBounds.depth = c.depth := by
  have hcnt := hov.wf.nodeCount
  have hpos := hov.wf.pairs_pos
  have hself : c.setIdx c.idx = c := nodeCursor.setIdx_self c
  have key : ∀ i : Int, ∀ k : Nat, i = 2 * (k : Int) → k < c.nd.pairs.length →
      (c.setIdx i).Over nrw L ∧ (∃ k, (c.setIdx i).onPair k) ∧
        (c.setIdx i).rootNode = c.rootNode ∧ (c.setIdx i).depth = c.depth :=
    fun i k hi hk => ⟨nodeCursor.Over_setIdx.mpr hov, ⟨k, by simpa [nodeCursor.onPair] using ⟨hi, hk⟩⟩,
      nodeCursor.rootNode_setIdx c i, nodeCursor.depth_setIdx c i⟩
  unfold nodeCursor.keepInBounds nodeCursor.skipToNodeStart nodeCursor.skipToNodeEnd
    nodeCursor.lastKeyIdx
  simp only []
  unfold stride
  split_ifs with h1 h2 h3
  · simp only [nodeCursor.idx_setIdx, nodeCursor.nd_setIdx] at h2
    omega
  · exact key 0 0 rfl hpos
  · exact key (c.nd.nodeCount - 2) (c.nd.pairs.length - 1) (by omega) (by omega)
  · exact ⟨hov, ⟨(c.idx / 2).toNat, by omega, by omega⟩, rfl, rfl⟩

/-- The descent of `newCursorAtItem` over a well-formed tree with a search function
that returns even indexes reaches a leaf, one frame per level. -/
theorem newCursorAtItemLoop_shape (hgp : PairsByItem getPair) {nrw : NodeStore}
    {item : nodeItem} {search : searchFn} (hsearch : ∀ nd, search item nd % 2 = 0) :
    ∀ (L fuel : Nat) (cur : nodeCursor), L < fuel → cur.Over nrw L → cur.idx % 2 = 0 →
      ∃ c, newCursorAtItemLoop getPair nrw item search fuel cur = .ok c ∧ c.Over nrw 0 ∧
        c.rootNode = cur.rootNode ∧ c.depth = cur.depth + L := by
  intro L
  induction L with
  | zero =>
    intro fuel cur hf hov _
    obtain ⟨n, rfl⟩ : ∃ n, fuel = n + 1 := ⟨fuel - 1, by omega⟩
    refine ⟨cur, ?_, hov, rfl, rfl⟩
    simp [newCursorAtItemLoop, (hov.wf.isLeaf_iff).mpr rfl]
  | succ L ih =>
    intro fuel cur hf hov hev
    obtain ⟨n, rfl⟩ : ∃ n, fuel = n + 1 := ⟨fuel - 1, by omega⟩
    have hleaf : cur.isLeaf = false := by
      cases h : cur.isLeaf
      · rfl
      · exact absurd ((hov.wf.isLeaf_iff).mp h) (by omega)
    obtain ⟨hov2, ⟨k, hon2⟩, hroot2, hdep2⟩ := nodeCursor.keepInBounds_onPair hov hev
    obtain ⟨prk, hprk⟩ := hon2.get
    obtain ⟨nd, hnd, _⟩ := hov2.wf.2.2.2 prk (List.getElem?_mem hprk)
    have hovc : (nodeCursor.child ⟨nd, search item nd, nrw⟩ cur.keepInBounds).Over nrw L :=
      nodeCursor.Over_child.mpr ⟨rfl, hov2, k, prk, hon2.1, hprk, hnd⟩
    obtain ⟨c, h1, h2, h3, h4⟩ := ih n (.child ⟨nd, search item nd, nrw⟩ cur.keepInBounds)
      (by omega) hovc (hsearch nd)
    refine ⟨c, ?_, h2, ?_, ?_⟩
    · rw [newCursorAtItemLoop]
      simp only [hleaf, Bool.false_eq_true, if_false, bind, Except.bind,
        nodeCursor.currentPair_eq hgp hon2.1 hprk, hnd]
      exact h1
    · rw [h3]; simp only [nodeCursor.rootNode, hroot2]
    · rw [h4]; simp only [nodeCursor.depth, hdep2]; omega

theorem searchOf_even (cb : compareFn) (item : nodeItem) (nd : Node) :
    searchOf cb item nd % 2 = 0 := by
  unfold searchOf
  cases h : (nodeCursor.root ⟨nd, 0, ⟨fun _ => .error .runtime, fun _ => .error .runtime⟩⟩).search
    item cb with
  | error e => rfl
  | ok r =>
    obtain ⟨k, hk, _⟩ := nodeCursor.search_range h
    simp only []
    omega

/-- What the three constructors return on a well-formed tree of `L + 1` levels. -/
theorem constructors_wellFormed (hgp : PairsByItem getPair) (nrw : NodeStore) (L fuel : Nat)
    (root : Node) (item : nodeItem) (search : searchFn) (hwf : WellFormed nrw L root)
    (hsearch : ∀ nd, search item nd % 2 = 0) (hfuel : L < fuel) :
    ∀ r ∈ [newCursorAtStart getPair fuel nrw root, newCursorAtEnd getPair fuel nrw root,
        newCursorAtItem getPair fuel nrw root item search],
      ∃ c, r = .ok c ∧ c.Over nrw 0 ∧ c.rootNode = root ∧ c.depth = L := by
  have h0 : (0 : Int) = 2 * ((0 : Nat) : Int) := by simp
  have hl := hwf.lastIdx
  have hps := hwf.pairs_pos
  intro r hr
  simp only [List.mem_cons, List.mem_singleton, List.not_mem_nil, or_false] at hr
  rcases hr with rfl | rfl | rfl
  · obtain ⟨c0, h1, hov, _, _, hroot, hdep⟩ := newCursorAtStartLoop_spec hgp L fuel
      (.root ⟨root, 0, nrw⟩) hfuel (nodeCursor.Over_root.mpr ⟨rfl, hwf⟩) ⟨h0, hps⟩
      (by rw [nodeCursor.before_root (f := ⟨root, 0, nrw⟩) h0]; rfl)
    exact ⟨c0, h1, hov, hroot, by simpa [nodeCursor.depth] using hdep⟩
  · obtain ⟨c0, h1, hov, _, _, hroot, hdep⟩ := newCursorAtEndLoop_spec hgp L fuel
      (.root ⟨root, root.nodeCount - stride, nrw⟩) hfuel (nodeCursor.Over_root.mpr ⟨rfl, hwf⟩)
      ⟨hl, Nat.sub_lt hps Nat.one_pos⟩
      (by rw [nodeCursor.after_root (f := ⟨root, root.nodeCount - stride, nrw⟩) hl,
            drop_flatMap_nil _ _ _ (by simp only; omega)])
    exact ⟨c0, h1, hov, hroot, by simpa [nodeCursor.depth] using hdep⟩
  · obtain ⟨c, h1, hov, hroot, hdep⟩ := newCursorAtItemLoop_shape hgp hsearch L fuel
      (.root ⟨root, search item root, nrw⟩) hfuel (nodeCursor.Over_root.mpr ⟨rfl, hwf⟩)
      (hsearch root)
    exact ⟨c, h1, hov, hroot, by simpa [nodeCursor.depth] using hdep⟩

/-- What the three constructors return when the root is a leaf, whatever its items. -/
theorem constructors_leaf (nrw : NodeStore) (fuel : Nat) (root : Node) (item : nodeItem)
    (search : searchFn) (hlev : root.level = 0) (hfuel : 0 < fuel) :
    ∀ r ∈ [newCursorAtStart getPair fuel nrw root, newCursorAtEnd getPair fuel nrw root,
        newCursorAtItem getPair fuel nrw root item search],
      ∃ f : Frame, r = .ok (.root f) ∧ f.nd = root := by
  obtain ⟨n, rfl⟩ : ∃ n, fuel = n + 1 := ⟨fuel - 1, by omega⟩
  intro r hr
  simp only [List.mem_cons, List.mem_singleton, List.not_mem_nil, or_false] at hr
  rcases hr with rfl | rfl | rfl
  · exact ⟨⟨root, 0, nrw⟩, by
      simp [newCursorAtStart, newCursorAtStartLoop, nodeCursor.isLeaf, nodeCursor.level, hlev], rfl⟩
  · exact ⟨⟨root, root.nodeCount - stride, nrw⟩, by
      simp [newCursorAtEnd, newCursorAtEndLoop, nodeCursor.skipToNodeEnd, nodeCursor.setIdx,
        nodeCursor.lastKeyIdx, nodeCursor.isLeaf, nodeCursor.level, hlev], rfl⟩
  · exact ⟨⟨root, search item root, nrw⟩, by
      simp [newCursorAtItem, newCursorAtItemLoop, nodeCursor.isLeaf, nodeCursor.level, hlev], rfl⟩

theorem diffPartition.isDiffable_true {apk : Schema → Schema → Bool} {p : diffPartition}
    (h : p.isDiffablePartition apk = .ok true) :
    p.fromTable = none ∨ ∃ f t fs ts, p.fromTable = some f ∧ p.toTable = some t ∧
      f.GetSchema = .ok fs ∧ t.GetSchema = .ok ts ∧ apk fs ts = true := by
  unfold diffPartition.isDiffablePartition at h
  split at h
  · left; assumption
  · rename_i f hf
    split at h
    · cases h
    · rename_i fs hfs
      split at h
      · cases h
      · rename_i t ht
        split at h
        · cases h
        · rename_i ts hts
          exact Or.inr ⟨f, t, fs, ts, hf, ht, hfs, hts, Except.ok.inj h⟩

theorem diffPartition.isDiffable_eq {apk : Schema → Schema → Bool} {p : diffPartition}
    {f t : Table} {fs ts : Schema} (hf : p.fromTable = some f) (ht : p.toTable = some t)
    (hfs : f.GetSchema = .ok fs) (hts : t.GetSchema = .ok ts) :
    p.isDiffablePartition apk = .ok (apk fs ts) := by
  simp [diffPartition.isDiffablePartition, hf, ht, hfs, hts]

/-- What `Next` does once the loop has selected a partition. -/
theorem diffPartitions.nextLoop_selected (apk : Schema → Schema → Bool) :
    ∀ (l : List (Except DiffFault (String × Commit))) (dp dp1 : diffPartitions)
      (ws : List Warning) (next : diffPartition),
      diffPartitions.selected l dp = .ok (next, dp1) →
      diffPartitions.NextLoop apk l dp ws =
        match next.isDiffablePartition apk with
        | .error e => (.error e, dp1, ws)
        | .ok canDiff =>
          if !canDiff then
            (.error ioEOF, dp1, ws ++ [⟨PrimaryKeyChanceWarningCode,
              PrimaryKeyChangeWarning next.fromName next.toName⟩])
          else (.ok next, dp1, ws)
  | [], _, _, _, _, h => by simp [diffPartitions.selected] at h
  | .error e :: _, _, _, _, _, h => by simp [diffPartitions.selected] at h
  | .ok (cmHash, cm) :: rest, dp, dp1, ws, next, h => by
    rw [diffPartitions.selected] at h
    rw [diffPartitions.NextLoop]
    cases hr : cm.GetRootValue with
    | error e => simp [hr] at h
    | ok root =>
      simp only [hr] at h ⊢
      cases ht : root.GetTableInsensitive dp.tblName with
      | error e => simp [ht] at h
      | ok tbl =>
        simp only [ht] at h ⊢
        cases hp : diffPartitions.processCommit { dp with cmItr := rest } cmHash cm root tbl with
        | error e => simp [hp] at h
        | ok res =>
          obtain ⟨nx, dp2⟩ := res
          cases nx with
          | none =>
            simp only [hp] at h ⊢
            exact diffPartitions.nextLoop_selected apk rest dp2 dp1 ws next h
          | some nx =>
            simp only [hp, Except.ok.injEq, Prod.mk.injEq] at h ⊢
            obtain ⟨rfl, rfl⟩ := h
            rfl

/-- When `Next` returns a partition, the loop had selected it and it is diffable;
when it leaves a new warning, the loop had selected a partition that is not. -/
theorem diffPartitions.nextLoop_result (apk : Schema → Schema → Bool) :
    ∀ (l : List (Except DiffFault (String × Commit))) (dp dp1 : diffPartitions)
      (ws ws1 : List Warning) (r : Except DiffFault diffPartition),
      diffPartitions.NextLoop apk l dp ws = (r, dp1, ws1) →
      (∀ p, r = .ok p → diffPartitions.selected l dp = .ok (p, dp1) ∧
        p.isDiffablePartition apk = .ok true ∧ ws1 = ws) ∧
      (ws1 ≠ ws → r = .error ioEOF ∧ ∃ next, diffPartitions.selected l dp = .ok (next, dp1) ∧
        next.isDiffablePartition apk = .ok false ∧
        ws1 = ws ++ [⟨PrimaryKeyChanceWarningCode,
          PrimaryKeyChangeWarning next.fromName next.toName⟩])
  | [], _, _, _, _, _, h => by
    simp only [diffPartitions.NextLoop, Prod.mk.injEq] at h
    obtain ⟨rfl, _, rfl⟩ := h
    exact ⟨fun p hp => (by cases hp), fun hne => absurd rfl hne⟩
  | .error e :: _, _, _, _, _, _, h => by
    simp only [diffPartitions.NextLoop, Prod.mk.injEq] at h
    obtain ⟨rfl, _, rfl⟩ := h
    exact ⟨fun p hp => (by cases hp), fun hne => absurd rfl hne⟩
  | .ok (cmHash, cm) :: rest, dp, dp1, ws, ws1, r, h => by
    rw [diffPartitions.NextLoop] at h
    rw [diffPartitions.selected]
    cases hr : cm.GetRootValue with
    | error e =>
      simp only [hr, Prod.mk.injEq] at h
      obtain ⟨rfl, _, rfl⟩ := h
      exact ⟨fun p hp => (by cases hp), fun hne => absurd rfl hne⟩
    | ok root =>
      simp only [hr] at h ⊢
      cases ht : root.GetTableInsensitive dp.tblName with
      | error e =>
        simp only [ht, Prod.mk.injEq] at h
        obtain ⟨rfl, _, rfl⟩ := h
        exact ⟨fun p hp => (by cases hp), fun hne => absurd rfl hne⟩
      | ok tbl =>
        simp only [ht] at h ⊢
        cases hp : diffPartitions.processCommit { dp with cmItr := rest } cmHash cm root tbl with
        | error e =>
          simp only [hp, Prod.mk.injEq] at h
          obtain ⟨rfl, _, rfl⟩ := h
          exact ⟨fun p hp => (by cases hp), fun hne => absurd rfl hne⟩
        | ok res =>
          obtain ⟨nx, dp2⟩ := res
          cases nx with
          | none =>
            simp only [hp] at h ⊢
            exact diffPartitions.nextLoop_result apk rest dp2 dp1 ws ws1 r h
          | some nx =>
            simp only [hp] at h ⊢
            cases hd : nx.isDiffablePartition apk with
            | error e =>
              simp only [hd, Prod.mk.injEq] at h
              obtain ⟨rfl, _, rfl⟩ := h
              exact ⟨fun p hp => (by cases hp), fun hne => absurd rfl hne⟩
            | ok canDiff =>
              cases canDiff with
              | false =>
                simp only [hd, Bool.not_false, if_true, Prod.mk.injEq] at h
                obtain ⟨rfl, rfl, rfl⟩ := h
                exact ⟨fun p hp => (by cases hp), fun _ => ⟨rfl, nx, rfl, hd, rfl⟩⟩
              | true =>
                simp only [hd, Bool.not_true, Bool.false_eq_true, if_false, Prod.mk.injEq] at h
                obtain ⟨rfl, rfl, rfl⟩ := h
                exact ⟨fun p hp => (by cases hp; exact ⟨rfl, hd, rfl⟩), fun hne => absurd rfl hne⟩

/-! ## The claims -/

/-- C1. For a well-formed tree with increasing keys: from `newCursorAtStart`,
reading the key of the current pair and calling `advance`, `n` times for the `n`
leaf pairs of the tree, reads exactly the leaf keys of the tree from left to right,
which is their ascending order; `n ≥ 1`, the first `n - 1` calls of `advance`
return true and the last one returns false. -/
theorem traversal_forward (hgp : PairsByItem getPair) (cmp : compareFn) (nrw : NodeStore)
    (L fuel : Nat) (root : Node) (hwf : WellFormed nrw L root)
    (hkeys : KeysIncreasing cmp nrw L root) (hfuel : L < fuel) :
    ∃ c0, newCursorAtStart getPair fuel nrw root = .ok c0 ∧
      1 ≤ (leafPairs nrw L root).length ∧
      ∃ keys, scanForward getPair (leafPairs nrw L root).length c0 =
          .ok (keys, List.replicate ((leafPairs nrw L root).length - 1) true ++ [false]) ∧
        keys = leafKeys nrw L root ∧ keys.Pairwise (fun a b => cmp a b < 0) := by
  have h0 : (0 : Int) = 2 * ((0 : Nat) : Int) := by simp
  obtain ⟨c0, h1, hov, hon, hb, hroot, hdep⟩ := newCursorAtStartLoop_spec hgp L fuel
    (.root ⟨root, 0, nrw⟩) hfuel (nodeCursor.Over_root.mpr ⟨rfl, hwf⟩) ⟨h0, hwf.pairs_pos⟩
    (by rw [nodeCursor.before_root (f := ⟨root, 0, nrw⟩) h0]; rfl)
  have hcover := nodeCursor.cover c0 0 0 hov hon
  rw [hb, hroot, hdep] at hcover
  simp only [List.nil_append, nodeCursor.rootNode, nodeCursor.depth, Nat.zero_add] at hcover
  have hpos := hwf.leafPairs_pos
  obtain ⟨n, hn⟩ : ∃ n, (leafPairs nrw L root).length = n + 1 := ⟨_, (Nat.sub_add_cancel hpos).symm⟩
  refine ⟨c0, h1, hpos, leafKeys nrw L root, ?_, rfl, hkeys⟩
  have := scanForward_spec hgp n c0 0 hov hon (by rw [hcover, hn])
  rw [hn, this, hcover]
  rfl

/-- Witness of C1 on the five-leaf scenario tree with the keys `a..j`. -/
theorem traversal_forward_witness :
    ∃ c0, newCursorAtStart Node.pairAt 2 exStore exRoot = .ok c0 ∧
      1 ≤ (leafPairs exStore 1 exRoot).length ∧
      ∃ keys, scanForward Node.pairAt (leafPairs exStore 1 exRoot).length c0 =
          .ok (keys, List.replicate ((leafPairs exStore 1 exRoot).length - 1) true ++ [false]) ∧
        keys = leafKeys exStore 1 exRoot ∧ keys.Pairwise (fun a b => bytesCompare a b < 0) :=
  traversal_forward (fun _ _ => rfl) bytesCompare exStore 1 2 exRoot exRoot_wellFormed
    exRoot_keysIncreasing (by decide)

/-- C2. For a well-formed tree with increasing keys: from `newCursorAtEnd`, reading
the key of the current pair and calling `retreat`, `n` times for the `n` leaf pairs
of the tree, reads exactly the leaf keys of the tree from right to left, which is
their descending order; the first `n - 1` calls of `retreat` return true and the
last one returns false. -/
theorem traversal_backward (hgp : PairsByItem getPair) (cmp : compareFn) (nrw : NodeStore)
    (L fuel : Nat) (root : Node) (hwf : WellFormed nrw L root)
    (hkeys : KeysIncreasing cmp nrw L root) (hfuel : L < fuel) :
    ∃ c0, newCursorAtEnd getPair fuel nrw root = .ok c0 ∧
      1 ≤ (leafPairs nrw L root).length ∧
      ∃ keys, scanBackward getPair (leafPairs nrw L root).length c0 =
          .ok (keys, List.replicate ((leafPairs nrw L root).length - 1) true ++ [false]) ∧
        keys = (leafKeys nrw L root).reverse ∧ keys.Pairwise (fun a b => cmp b a < 0) := by
  have hl := hwf.lastIdx
  have hps := hwf.pairs_pos
  obtain ⟨c0, h1, hov, hon, hb, hroot, hdep⟩ := newCursorAtEndLoop_spec hgp L fuel
    (.root ⟨root, root.nodeCount - stride, nrw⟩) hfuel (nodeCursor.Over_root.mpr ⟨rfl, hwf⟩)
    ⟨hl, Nat.sub_lt hps Nat.one_pos⟩
    (by rw [nodeCursor.after_root (f := ⟨root, root.nodeCount - stride, nrw⟩) hl,
          drop_flatMap_nil _ _ _ (by simp only; omega)])
  have hcover := nodeCursor.cover c0 0 _ hov hon
  rw [hb, hroot, hdep] at hcover
  simp only [List.append_nil, nodeCursor.rootNode, nodeCursor.depth, Nat.zero_add] at hcover
  have hpos := hwf.leafPairs_pos
  obtain ⟨n, hn⟩ : ∃ n, (leafPairs nrw L root).length = n + 1 := ⟨_, (Nat.sub_add_cancel hpos).symm⟩
  refine ⟨c0, h1, hpos, (leafKeys nrw L root).reverse, ?_, rfl, List.pairwise_reverse.mpr hkeys⟩
  have := scanBackward_spec hgp n c0 _ hov hon (by rw [hcover, hn])
  rw [hn, this, hcover]
  rfl

/-- Witness of C2 on the five-leaf scenario tree with the keys `a..j`. -/
theorem traversal_backward_witness :
    ∃ c0, newCursorAtEnd Node.pairAt 2 exStore exRoot = .ok c0 ∧
      1 ≤ (leafPairs exStore 1 exRoot).length ∧
      ∃ keys, scanBackward Node.pairAt (leafPairs exStore 1 exRoot).length c0 =
          .ok (keys, List.replicate ((leafPairs exStore 1 exRoot).length - 1) true ++ [false]) ∧
        keys = (leafKeys exStore 1 exRoot).reverse ∧
        keys.Pairwise (fun a b => bytesCompare b a < 0) :=
  traversal_backward (fun _ _ => rfl) bytesCompare exStore 1 2 exRoot exRoot_wellFormed
    exRoot_keysIncreasing (by decide)

/-- C5. On a node with an even item count whose keys are strictly increasing under
a transitive comparator, `search` returns an even index in `[0, nodeCount]`: it is
`2i` for the smallest pair index `i` with `compare(item, getItem(2i)) ≤ 0`, and
`nodeCount` when no pair has such a key. -/
theorem search_lower_bound {cmp : compareFn}
    (htrans : ∀ a b c, cmp a b ≤ 0 → cmp b c ≤ 0 → cmp a c ≤ 0) (cur : nodeCursor)
    (item : nodeItem) (heven : cur.nd.nodeCount % 2 = 0) (hs : cur.nd.KeysSorted cmp) :
    ∃ r, cur.search item cmp = .ok r ∧ r % 2 = 0 ∧ 0 ≤ r ∧ r ≤ cur.nd.nodeCount ∧
      (∀ i : Nat, (∃ k, cur.nd.getItem (2 * (i : Int)) = .ok k ∧ cmp item k ≤ 0) →
        (∀ j : Nat, j < i → ∀ k, cur.nd.getItem (2 * (j : Int)) = .ok k → ¬ cmp item k ≤ 0) →
        r = 2 * (i : Int)) ∧
      ((∀ (i : Nat) (k : nodeItem), cur.nd.getItem (2 * (i : Int)) = .ok k → ¬ cmp item k ≤ 0) →
        r = cur.nd.nodeCount) := by
  obtain ⟨r, hr, i0, hri, hle, hlow, hhigh⟩ := nodeCursor.search_of_trans htrans cur item hs
  have hlen := cur.nd.pairs_length
  refine ⟨r, hr, by omega, by omega, by omega, ?_, ?_⟩
  · rintro i ⟨k, hk, hck⟩ hmin
    obtain ⟨pr, hpr, rfl⟩ := Node.pair_of_getItem heven hk
    have hilt : i < cur.nd.pairs.length := by
      by_contra hcon
      rw [List.getElem?_eq_none (by omega)] at hpr
      cases hpr
    rcases Nat.lt_trichotomy i i0 with h | h | h
    · have := hlow i pr h hpr
      omega
    · subst h
      exact hri
    · have hp0 : cur.nd.pairs[i0]? = some (cur.nd.pairs.get ⟨i0, by omega⟩) :=
        List.getElem?_eq_getElem (by omega)
      exact absurd (hhigh _ hp0) (hmin i0 h _ (Node.getItem_of_pair hp0))
  · intro hno
    rcases Nat.eq_or_lt_of_le hle with h | h
    · omega
    · have hp0 : cur.nd.pairs[i0]? = some (cur.nd.pairs.get ⟨i0, h⟩) := List.getElem?_eq_getElem h
      exact absurd (hhigh _ hp0) (hno i0 _ (Node.getItem_of_pair hp0))

/-- Witness of C5: the search for the key `b` in the first leaf of the scenario tree. -/
theorem search_lower_bound_witness :
    ∃ r, (nodeCursor.root ⟨exLeaf 0, 0, exStore⟩).search [98] bytesCompare = .ok r ∧ r % 2 = 0 ∧
      0 ≤ r ∧ r ≤ (exLeaf 0).nodeCount ∧
      (∀ i : Nat, (∃ k, (exLeaf 0).getItem (2 * (i : Int)) = .ok k ∧ bytesCompare [98] k ≤ 0) →
        (∀ j : Nat, j < i → ∀ k, (exLeaf 0).getItem (2 * (j : Int)) = .ok k →
          ¬ bytesCompare [98] k ≤ 0) →
        r = 2 * (i : Int)) ∧
      ((∀ (i : Nat) (k : nodeItem), (exLeaf 0).getItem (2 * (i : Int)) = .ok k →
          ¬ bytesCompare [98] k ≤ 0) →
        r = (exLeaf 0).nodeCount) :=
  search_lower_bound bytesCompare_trans (.root ⟨exLeaf 0, 0, exStore⟩) [98] (by decide)
    (by unfold Node.KeysSorted; decide)

/-- C6. The parent/child invariant (at every frame with a parent, the node read
from the store through the ref in the value of the parent's current pair is the
node of the frame) holds for every cursor returned by `newCursorAtStart`,
`newCursorAtEnd` and `newCursorAtItem`, and every `advance`, `retreat` and `seek`
that returns without error on a cursor with the invariant leaves a cursor with the
invariant, whatever boolean is returned. -/
theorem parent_child_invariant (getPair : Node → Int → Except Fault nodePair) :
    (∀ fuel nrw nd c, newCursorAtStart getPair fuel nrw nd = .ok c → c.Linked getPair) ∧
    (∀ fuel nrw nd c, newCursorAtEnd getPair fuel nrw nd = .ok c → c.Linked getPair) ∧
    (∀ fuel nrw nd item search c,
      newCursorAtItem getPair fuel nrw nd item search = .ok c → c.Linked getPair) ∧
    (∀ (c : nodeCursor) b c1, c.Linked getPair → c.advance getPair = .ok (b, c1) →
      c1.Linked getPair) ∧
    (∀ (c : nodeCursor) b c1, c.Linked getPair → c.retreat getPair = .ok (b, c1) →
      c1.Linked getPair) ∧
    (∀ item cb (c : nodeCursor) c1, c.Linked getPair → c.seek getPair item cb = .ok c1 →
      c1.Linked getPair) := by
  refine ⟨?_, ?_, ?_, ?_, ?_, ?_⟩
  · intro fuel nrw nd c h
    exact newCursorAtStartLoop_linked fuel (.root ⟨nd, 0, nrw⟩) c trivial h
  · intro fuel nrw nd c h
    refine newCursorAtEndLoop_linked fuel _ c ?_ h
    rw [nodeCursor.skipToNodeEnd, nodeCursor.Linked_setIdx]
    trivial
  · intro fuel nrw nd item search c h
    exact newCursorAtItemLoop_linked fuel (.root ⟨nd, search item nd, nrw⟩) c trivial h
  · intro c b c1 hl h
    rw [nodeCursor.advance] at h
    obtain ⟨⟨b1, c2⟩, h2, h⟩ := bind_ok_iff.mp h
    have := nodeCursor.advanceInBounds_linked c c2 b1 hl h2
    cases b1
    · simp only [Bool.not_false, if_true, pure, Except.pure] at h
      cases h
      exact nodeCursor.Linked_setIdx.mpr this
    · simp only [Bool.not_true, Bool.false_eq_true, if_false, pure, Except.pure] at h
      cases h
      exact this
  · intro c b c1 hl h
    rw [nodeCursor.retreat] at h
    obtain ⟨⟨b1, c2⟩, h2, h⟩ := bind_ok_iff.mp h
    have := nodeCursor.retreatInBounds_linked c c2 b1 hl h2
    cases b1
    · simp only [Bool.not_false, if_true, pure, Except.pure] at h
      cases h
      exact nodeCursor.Linked_setIdx.mpr this
    · simp only [Bool.not_true, Bool.false_eq_true, if_false, pure, Except.pure] at h
      cases h
      exact this
  · intro item cb c c1 hl h
    exact nodeCursor.seek_linked c c1 hl h

/-- Witness of C6 on the scenario tree: the cursor made by `newCursorAtStart`, and
the cursor left by an `advance` that crosses from the first leaf to the second. -/
theorem parent_child_invariant_witness :
    (exCursor 0 0).Linked Node.pairAt ∧ (exCursor 1 0).Linked Node.pairAt :=
  ⟨(parent_child_invariant Node.pairAt).1 2 exStore exRoot (exCursor 0 0) rfl,
    (parent_child_invariant Node.pairAt).2.2.2.1 (exCursor 0 2) true (exCursor 1 0)
      ⟨rfl, trivial⟩ rfl⟩

/-- C8. For a cursor over a well-formed tree whose own index is before the start,
on a pair, or past the end: `advance` returns true exactly when the cursor ends on
a valid position; when it returns false the index equals `nodeCount`; and on a
cursor that is already at `idx = nodeCount` it returns false and changes no frame. -/
theorem advance_result (hgp : PairsByItem getPair) (nrw : NodeStore) (L : Nat) (c : nodeCursor)
    (hov : c.Over nrw L) (hst : c.InState) :
    ∃ b c1, c.advance getPair = .ok (b, c1) ∧ (b = true ↔ c1.valid = true) ∧
      (b = false → c1.idx = c1.nd.nodeCount) ∧
      (c.idx = c.nd.nodeCount → b = false ∧ c1 = c) := by
  have hcnt := hov.wf.nodeCount
  have hpos := hov.wf.pairs_pos
  rcases hst with h | ⟨k, hk⟩ | h
  · have hlt : c.idx < c.nd.nodeCount - stride := by unfold stride at h ⊢; omega
    refine ⟨true, c.setIdx (c.idx + stride), ?_, ?_, by simp, ?_⟩
    · rw [nodeCursor.advance_eq (nodeCursor.advanceInBounds_step c hlt)]
      rfl
    · simp only [nodeCursor.valid, nodeCursor.idx_setIdx, nodeCursor.nd_setIdx, true_iff,
        Bool.and_eq_true, decide_eq_true_eq]
      unfold stride at h ⊢
      omega
    · intro h2
      unfold stride at h
      omega
  · rcases nodeCursor.advanceInBounds_spec hgp c L k hov hk with
      ⟨c1, k1, hadv, hov1, hon1, _⟩ | ⟨hadv, _, _⟩
    · refine ⟨true, c1, ?_, ?_, by simp, ?_⟩
      · rw [nodeCursor.advance_eq hadv]; rfl
      · simp [hon1.valid hov1.wf]
      · intro h2
        have := hk.1
        have := hk.2
        omega
    · refine ⟨false, c.setIdx c.nd.nodeCount, ?_, ?_, ?_, ?_⟩
      · rw [nodeCursor.advance_eq hadv]; rfl
      · simp [nodeCursor.valid]
      · intro _; simp
      · intro h2
        have := hk.1
        have := hk.2
        omega
  · refine ⟨false, c, ?_, ?_, fun _ => h, fun _ => ⟨rfl, rfl⟩⟩
    · rw [nodeCursor.advance_eq (nodeCursor.advanceInBounds_pastEnd c h)]
      simp only [Bool.false_eq_true, if_false, ← h, nodeCursor.setIdx_self]
    · simp [nodeCursor.valid, h]


/-- Witness of C8: `advance` on the last pair of the scenario tree. -/
theorem advance_result_witness :
    ∃ b c1, (exCursor 4 2).advance Node.pairAt = .ok (b, c1) ∧ (b = true ↔ c1.valid = true) ∧
      (b = false → c1.idx = c1.nd.nodeCount) ∧
      ((exCursor 4 2).idx = (exCursor 4 2).nd.nodeCount → b = false ∧ c1 = exCursor 4 2) :=
  advance_result (fun _ _ => rfl) exStore 0 (exCursor 4 2) (exCursor_over 4 2 (by decide))
    (Or.inr (Or.inl ⟨1, rfl, by decide⟩))

/-- C7. For a cursor on a pair of a well-formed tree: when `n` consecutive calls of
`advance` all return true, `n` calls of `retreat` on the cursor they leave all
return true and give back the original cursor, with the same node and index at
every frame. -/
theorem advance_retreat_mirror (hgp : PairsByItem getPair) (nrw : NodeStore) (n : Nat) :
    ∀ (c cn : nodeCursor) (k : Nat), c.Over nrw 0 → c.onPair k →
      advanceTimes getPair n c = .ok (true, cn) →
      retreatTimes getPair n cn = .ok (true, c) := by
  induction n with
  | zero =>
    intro c cn k _ _ h
    simp only [advanceTimes] at h
    cases h
    rfl
  | succ n ih =>
    intro c cn k hov hon h
    rw [advanceTimes] at h
    obtain ⟨⟨b, c1⟩, hadv, h⟩ := bind_ok_iff.mp h
    cases b
    · simp [pure, Except.pure] at h
    · simp only [if_true] at h
      rcases nodeCursor.advanceInBounds_spec hgp c 0 k hov hon with
        ⟨c2, k2, hadv2, hov2, hon2, _⟩ | ⟨hadv2, _, _⟩
      · rw [nodeCursor.advance_eq hadv2] at hadv
        cases hadv
        have hback := nodeCursor.retreat_after_advance hgp c c2 0 k hov hon hadv2
        exact retreatTimes_snoc n cn c2 c (ih c2 cn k2 hov2 hon2 h)
          (by rw [nodeCursor.retreat_eq hback]; rfl)
      · rw [nodeCursor.advance_eq hadv2] at hadv
        cases hadv

/-- Witness of C7: three steps forward from the key `b` of the scenario tree, which
cross two leaf boundaries, and three steps back. -/
theorem advance_retreat_mirror_witness :
    retreatTimes Node.pairAt 3 (exCursor 2 0) = .ok (true, exCursor 0 2) :=
  advance_retreat_mirror (fun _ _ => rfl) exStore 3 (exCursor 0 2) (exCursor 2 0) 1
    (exCursor_over 0 2 (by decide)) ⟨rfl, by decide⟩ rfl

/-- C9. For a cursor over a well-formed tree whose own index is before the start,
on a pair, or past the end, `retreat` mirrors `advance`: with `idx > 0` it takes
`stride` off the index and returns true; at `idx = 0` with a parent whose
`retreatInBounds` returns true it reloads the node through the parent's new pair,
sets the index to `lastKeyIdx` of that node and returns true; in every other case
it returns false and leaves the index at `-stride`, all else unchanged. -/
theorem retreat_result (hgp : PairsByItem getPair) (nrw : NodeStore) (L : Nat) (c : nodeCursor)
    (hov : c.Over nrw L) (hst : c.InState) :
    (0 < c.idx → c.retreat getPair = .ok (true, c.setIdx (c.idx - stride))) ∧
    (c.idx = 0 → ∀ f p p1, c = .child f p → p.retreatInBounds getPair = .ok (true, p1) →
      ∃ pr nd, p1.currentPair getPair = .ok pr ∧ fetchChild f.nrw pr.value = .ok nd ∧
        c.retreat getPair =
          .ok (true, .child { f with nd := nd, idx := nd.nodeCount - stride } p1)) ∧
    (¬ 0 < c.idx →
      ¬ (c.idx = 0 ∧ ∃ f p p1, c = .child f p ∧ p.retreatInBounds getPair = .ok (true, p1)) →
      c.retreat getPair = .ok (false, c.setIdx (-stride))) := by
  have hcnt := hov.wf.nodeCount
  have hpos := hov.wf.pairs_pos
  refine ⟨?_, ?_, ?_⟩
  · intro h
    rw [nodeCursor.retreat_eq (nodeCursor.retreatInBounds_step c h)]
    rfl
  · rintro h0 f p p1 rfl hret
    obtain ⟨hnrw, hpov, kp, prp, hpidx, hprp, hfetch⟩ := nodeCursor.Over_child.mp hov
    have hplt : kp < p.nd.pairs.length := by
      by_contra hc
      rw [List.getElem?_eq_none (by omega)] at hprp
      cases hprp
    rcases nodeCursor.retreatInBounds_spec hgp p (L + 1) kp hpov ⟨hpidx, hplt⟩ with
      ⟨p2, k2, hret2, hov2, hon2, _⟩ | ⟨hret2, _, _⟩
    · rw [hret2] at hret
      cases hret
      obtain ⟨pr, hpr⟩ := hon2.get
      obtain ⟨nd, hnd, _⟩ := (hov2.wf).2.2.2 pr (List.getElem?_mem hpr)
      refine ⟨pr, nd, nodeCursor.currentPair_eq hgp hon2.1 hpr, hnrw ▸ hnd, ?_⟩
      have hrb : (nodeCursor.child f p).retreatInBounds getPair =
          .ok (true, .child { f with nd := nd, idx := nd.nodeCount - stride } p1) := by
        rw [nodeCursor.retreatInBounds_child_first (f := f) h0, hret2]
        simp only []
        rw [nodeCursor.fetchNode_child hgp hon2.1 hpr (hnrw ▸ hnd)]
        rfl
      rw [nodeCursor.retreat_eq hrb]
      rfl
    · rw [hret2] at hret
      cases hret
  · intro hn hno
    have hcases : c.idx = -stride ∨ c.idx = 0 := by
      rcases hst with h | ⟨k, hk⟩ | h
      · exact Or.inl h
      · right
        have := hk.1
        omega
      · omega
    rcases hcases with h | h0
    · rw [nodeCursor.retreat_eq (nodeCursor.retreatInBounds_beforeStart c h)]
      rfl
    · cases c with
      | root f =>
        rw [nodeCursor.retreat_eq (nodeCursor.retreatInBounds_root_first (f := f) h0)]
        rfl
      | child f p =>
        obtain ⟨hnrw, hpov, kp, prp, hpidx, hprp, hfetch⟩ := nodeCursor.Over_child.mp hov
        have hplt : kp < p.nd.pairs.length := by
          by_contra hc
          rw [List.getElem?_eq_none (by omega)] at hprp
          cases hprp
        rcases nodeCursor.retreatInBounds_spec hgp p (L + 1) kp hpov ⟨hpidx, hplt⟩ with
          ⟨p2, k2, hret2, _⟩ | ⟨hret2, _, _⟩
        · exact absurd ⟨h0, f, p, p2, rfl, hret2⟩ hno
        · have hrb : (nodeCursor.child f p).retreatInBounds getPair = .ok (false, .child f p) := by
            rw [nodeCursor.retreatInBounds_child_first (f := f) h0, hret2]
          rw [nodeCursor.retreat_eq hrb]
          rfl

/-- Witness of C9: `retreat` on the first pair of the scenario tree. -/
theorem retreat_result_witness :
    (0 < (exCursor 0 0).idx →
      (exCursor 0 0).retreat Node.pairAt =
        .ok (true, (exCursor 0 0).setIdx ((exCursor 0 0).idx - stride))) ∧
    ((exCursor 0 0).idx = 0 → ∀ f p p1, exCursor 0 0 = .child f p →
      p.retreatInBounds Node.pairAt = .ok (true, p1) →
      ∃ pr nd, p1.currentPair Node.pairAt = .ok pr ∧ fetchChild f.nrw pr.value = .ok nd ∧
        (exCursor 0 0).retreat Node.pairAt =
          .ok (true, .child { f with nd := nd, idx := nd.nodeCount - stride } p1)) ∧
    (¬ 0 < (exCursor 0 0).idx →
      ¬ ((exCursor 0 0).idx = 0 ∧ ∃ f p p1, exCursor 0 0 = .child f p ∧
        p.retreatInBounds Node.pairAt = .ok (true, p1)) →
      (exCursor 0 0).retreat Node.pairAt = .ok (false, (exCursor 0 0).setIdx (-stride))) :=
  retreat_result (fun _ _ => rfl) exStore 0 (exCursor 0 0) (exCursor_over 0 0 (by decide))
    (Or.inr (Or.inl ⟨0, rfl, by decide⟩))

/-- C10, as stated, fails on the scenario tree of the specification, whose
cumulative counts are the numbers of leaf pairs: `newCursorAtIndex(9)` leaves the
leaf frame at item index 1, between the two pairs of the last leaf, while nine
calls of `advance` from `newCursorAtStart` end at item index 2 on the key `j`;
`compare` gives `-1` and the current pair of the index cursor does not have the
key `j`. With the counts in items the claim fails as well: index 1 is item index 1
of the first leaf, one `advance` from the start is item index 2. -/
theorem index_cursor_counterexample :
    WellFormed exStore 1 exRoot ∧ CountsInPairs exStore 1 exRoot ∧
    9 < (leafPairs exStore 1 exRoot).length ∧
    newCursorAtIndex Node.pairAt 12 exStore exRoot 9 = .ok (exCursor 4 1) ∧
    (newCursorAtStart Node.pairAt 12 exStore exRoot >>= advanceTimes Node.pairAt 9) =
      .ok (true, exCursor 4 2) ∧
    (exCursor 4 1).compare (exCursor 4 2) = .ok (-1) ∧
    (exCursor 4 1).currentPair Node.pairAt = .ok ⟨[1], [106]⟩ ∧
    (exCursor 4 2).currentPair Node.pairAt = .ok ⟨[106], [2]⟩ ∧
    WellFormed exStore 1 exRootItems ∧ CountsInItems exStore 1 exRootItems ∧
    newCursorAtIndex Node.pairAt 12 exStore exRootItems 1 = .ok (exCursorItems 0 1) ∧
    (newCursorAtStart Node.pairAt 12 exStore exRootItems >>= advanceTimes Node.pairAt 1) =
      .ok (true, exCursorItems 0 2) ∧
    (exCursorItems 0 1).compare (exCursorItems 0 2) = .ok (-1) :=
  ⟨exRoot_wellFormed, exRoot_countsInPairs, by decide, rfl, rfl, rfl, rfl, rfl,
    exRootItems_wellFormed, exRootItems_counts, rfl, rfl, rfl⟩

/-- C10, amended. For a well-formed tree whose cumulative counts count leaf items
(two for every leaf pair) and every `i` below the number `n` of leaf pairs:
`newCursorAtIndex(2 * i)` returns a cursor that compares equal (`compare = 0`) to
the cursor reached from `newCursorAtStart` by `i` calls of `advance` that return
true, and its current pair is the `i`-th leaf pair of the tree. -/
theorem index_cursor_in_items (hgp : PairsByItem getPair) (nrw : NodeStore) (L fuel : Nat)
    (root : Node) (i : Nat) (hwf : WellFormed nrw L root) (hcnt : CountsInItems nrw L root)
    (hi : i < (leafPairs nrw L root).length) (hfuel : L + i < fuel) :
    ∃ c0 ca ci pr, newCursorAtStart getPair fuel nrw root = .ok c0 ∧
      advanceTimes getPair i c0 = .ok (true, ca) ∧
      newCursorAtIndex getPair fuel nrw root (2 * i) = .ok ci ∧
      ci.compare ca = .ok 0 ∧
      (leafPairs nrw L root)[i]? = some pr ∧ ci.currentPair getPair = .ok pr := by
  have h0 : (0 : Int) = 2 * ((0 : Nat) : Int) := by simp
  have hr0 : (nodeCursor.root ⟨root, 0, nrw⟩).Over nrw L := nodeCursor.Over_root.mpr ⟨rfl, hwf⟩
  have hb0 : (nodeCursor.root ⟨root, 0, nrw⟩).before nrw L = [] := by
    rw [nodeCursor.before_root (f := ⟨root, 0, nrw⟩) h0]; rfl
  obtain ⟨c0, hc0, hov0, hon0, hbef0, hroot0, hdep0⟩ := newCursorAtStartLoop_spec hgp L fuel
    (.root ⟨root, 0, nrw⟩) (by omega) hr0 ⟨h0, hwf.pairs_pos⟩ hb0
  have hcover0 := nodeCursor.cover c0 0 0 hov0 hon0
  rw [hbef0, hroot0, hdep0] at hcover0
  simp only [List.nil_append, nodeCursor.rootNode, nodeCursor.depth, Nat.zero_add] at hcover0
  obtain ⟨pr0, hpr0⟩ := hon0.get
  have hhere0 : c0.here nrw 0 = [pr0] := by rw [nodeCursor.here_eq hon0.1 hpr0]; rfl
  have hafter0 : i ≤ (c0.after nrw 0).length := by
    rw [← hcover0, hhere0] at hi
    simp only [List.length_append, List.length_singleton] at hi
    omega
  obtain ⟨ca, ka, hadv, hova, hona, hdepa, hroota, hbefa⟩ :=
    advanceTimes_rank hgp i c0 0 hov0 hon0 hafter0
  obtain ⟨c, d1, hloop, hovi, honi, hrooti, hdepi, hbefi⟩ :=
    newCursorAtIndexLoop_spec hgp root L hcnt L fuel (.root ⟨root, 0, nrw⟩) (2 * i) hr0 rfl rfl
      ⟨h0, hwf.pairs_pos⟩ (by simp only [nodeCursor.nd_root]; omega) (by omega) (by omega)
  rw [hb0] at hbefi
  simp only [List.length_nil, Nat.mul_zero, Nat.zero_add] at hbefi
  obtain ⟨pri, hpri⟩ := honi.get
  obtain ⟨pra, hpra⟩ := hona.get
  have hherei : (c.setIdx (d1 : Int)).here nrw 0 = [pri] := by
    rw [nodeCursor.here_eq honi.1 hpri]; rfl
  have hherea : ca.here nrw 0 = [pra] := by rw [nodeCursor.here_eq hona.1 hpra]; rfl
  have heq : c.setIdx (d1 : Int) = ca :=
    nodeCursor.interval_unique i (c.setIdx (d1 : Int)) ca 0 _ ka hovi hova honi hona
      (by rw [hrooti, hroota, hroot0]; rfl) (by rw [hdepi, hdepa, hdep0]; simp [nodeCursor.depth])
      (by omega) (by rw [hherei]; simp only [List.length_singleton]; omega)
      (by rw [hbefa, hbef0]; simp)
      (by rw [hbefa, hbef0, hherea]; simp)
  have hcoveri := nodeCursor.cover (c.setIdx (d1 : Int)) 0 _ hovi honi
  rw [hrooti, hdepi, hherei, Nat.zero_add, List.append_assoc] at hcoveri
  have hd1 : (d1 : Int) < c.nd.nodeCount := by
    have h1 := honi.1
    have h2 := honi.2
    have h3 := Node.pairs_length c.nd
    rw [nodeCursor.idx_setIdx] at h1
    rw [nodeCursor.nd_setIdx] at h2
    omega
  refine ⟨c0, ca, c.setIdx (d1 : Int), pri, hc0, hadv, ?_, ?_, ?_,
    nodeCursor.currentPair_eq hgp honi.1 hpri⟩
  · simp only [newCursorAtIndex, hloop, bind, Except.bind, pure, Except.pure,
      intOfUint64_index hd1]
  · rw [heq]
    exact nodeCursor.compare_self ca
  · rw [← hcoveri, List.getElem?_append_right (by omega)]
    have : i - ((c.setIdx (d1 : Int)).before nrw 0).length = 0 := by omega
    rw [this]
    simp

/-- Witness of the amended C10: index 2·9 in the scenario tree with counts in items. -/
theorem index_cursor_in_items_witness :
    ∃ c0 ca ci pr, newCursorAtStart Node.pairAt 12 exStore exRootItems = .ok c0 ∧
      advanceTimes Node.pairAt 9 c0 = .ok (true, ca) ∧
      newCursorAtIndex Node.pairAt 12 exStore exRootItems (2 * 9) = .ok ci ∧
      ci.compare ca = .ok 0 ∧
      (leafPairs exStore 1 exRootItems)[9]? = some pr ∧ ci.currentPair Node.pairAt = .ok pr :=
  index_cursor_in_items (fun _ _ => rfl) exStore 1 12 exRootItems 9 exRootItems_wellFormed
    exRootItems_counts (by decide) (by decide)

/-- C3. For a well-formed tree with increasing keys and boundary keys equal to the
last keys of the subtrees, a comparator of a total order, every full cursor over
the tree at any index of its leaf frame, and every key `K`: `seek(K, cmp)` returns
without error; if `K` is a key of the tree the leaf frame is on the pair with that
key; if it is not and some key is greater than `K`, the leaf frame is on the pair
with the smallest key greater than `K`; if no key is greater, the cursor is the
cursor of `newCursorAtEnd` with the index of the leaf frame at `nodeCount`.
Whenever the cursor is on a pair it is the cursor that `advance` reaches from
`newCursorAtStart`. -/
theorem seek_lower_bound (hgp : PairsByItem getPair) {cmp : compareFn} (hc : LawfulCompare cmp)
    (nrw : NodeStore) (L fuel : Nat) (root : Node) (c : nodeCursor) (K : nodeItem)
    (hst : SearchTree cmp nrw L root) (hov : c.Over nrw 0) (hroot : c.rootNode = root)
    (hdep : c.depth = L) (hfuel : L < fuel) :
    ∃ c1, c.seek getPair K cmp = .ok c1 ∧
      ((∃ q ∈ leafPairs nrw L root, q.key = K) →
        ∃ pr, c1.currentPair getPair = .ok pr ∧ pr.key = K ∧ pr ∈ leafPairs nrw L root) ∧
      ((∀ q ∈ leafPairs nrw L root, q.key ≠ K) →
        (∃ q ∈ leafPairs nrw L root, cmp K q.key < 0) →
        ∃ pr, c1.currentPair getPair = .ok pr ∧ pr ∈ leafPairs nrw L root ∧ cmp K pr.key < 0 ∧
          ∀ q ∈ leafPairs nrw L root, cmp K q.key < 0 → cmp pr.key q.key ≤ 0) ∧
      ((∀ q ∈ leafPairs nrw L root, q.key ≠ K) →
        (∀ q ∈ leafPairs nrw L root, ¬ cmp K q.key < 0) →
        ∃ ce, newCursorAtEnd getPair fuel nrw root = .ok ce ∧
          c1 = ce.setIdx ce.nd.nodeCount) ∧
      ((∃ q ∈ leafPairs nrw L root, cmp K q.key ≤ 0) →
        ∃ r c0, newCursorAtStart getPair fuel nrw root = .ok c0 ∧
          advanceTimes getPair r c0 = .ok (true, c1)) := by
  obtain ⟨c1, hseek, hov1, hroot1, hdep1, hlb⟩ := nodeCursor.seek_spec hgp hc c 0 hov
    (by rw [hroot, hdep, Nat.zero_add]; exact hst)
  obtain ⟨hfin1, hfin2⟩ := lowerBound_final hgp hc L fuel root c1 hst hfuel hov1
    (hroot1.trans hroot) (hdep1.trans hdep) hlb
  refine ⟨c1, hseek, ?_, ?_, ?_, ?_⟩
  · rintro ⟨q, hq, rfl⟩
    obtain ⟨pr, _, _, _, hcp, hmem, hle, hmin, _⟩ := hfin1 ⟨q, hq, by rw [hc.refl]⟩
    refine ⟨pr, hcp, ?_, hmem⟩
    have h1 := hmin q hq (by rw [hc.refl])
    have h2 : ¬ cmp q.key pr.key < 0 := fun h => by
      have := (hc.flip _ _).mp h
      omega
    exact (hc.eq _ _ (by omega)).symm
  · rintro habs ⟨q, hq, hlt⟩
    obtain ⟨pr, _, _, _, hcp, hmem, hle, hmin, _⟩ := hfin1 ⟨q, hq, le_of_lt hlt⟩
    refine ⟨pr, hcp, hmem, ?_, fun q1 hq1 hlt1 => hmin q1 hq1 (le_of_lt hlt1)⟩
    rcases lt_or_eq_of_le hle with h | h
    · exact h
    · exact absurd (hc.eq _ _ h).symm (habs pr hmem)
  · intro habs hno
    refine hfin2 fun q hq => ?_
    have h1 := hno q hq
    have h2 : cmp K q.key ≠ 0 := fun h => habs q hq (hc.eq _ _ h).symm
    omega
  · intro hex
    obtain ⟨pr, r, c0, _, _, _, _, _, hc0, hadv⟩ := hfin1 hex
    exact ⟨r, c0, hc0, hadv⟩

/-- Witness of C3: scenario 5 of the specification, `seek("g")` from the key `a`. -/
theorem seek_lower_bound_witness :
    ∃ c1, (exCursor 0 0).seek Node.pairAt [103] bytesCompare = .ok c1 ∧
      ((∃ q ∈ leafPairs exStore 1 exRoot, q.key = [103]) →
        ∃ pr, c1.currentPair Node.pairAt = .ok pr ∧ pr.key = [103] ∧
          pr ∈ leafPairs exStore 1 exRoot) ∧
      ((∀ q ∈ leafPairs exStore 1 exRoot, q.key ≠ [103]) →
        (∃ q ∈ leafPairs exStore 1 exRoot, bytesCompare [103] q.key < 0) →
        ∃ pr, c1.currentPair Node.pairAt = .ok pr ∧ pr ∈ leafPairs exStore 1 exRoot ∧
          bytesCompare [103] pr.key < 0 ∧
          ∀ q ∈ leafPairs exStore 1 exRoot, bytesCompare [103] q.key < 0 →
            bytesCompare pr.key q.key ≤ 0) ∧
      ((∀ q ∈ leafPairs exStore 1 exRoot, q.key ≠ [103]) →
        (∀ q ∈ leafPairs exStore 1 exRoot, ¬ bytesCompare [103] q.key < 0) →
        ∃ ce, newCursorAtEnd Node.pairAt 2 exStore exRoot = .ok ce ∧
          c1 = ce.setIdx ce.nd.nodeCount) ∧
      ((∃ q ∈ leafPairs exStore 1 exRoot, bytesCompare [103] q.key ≤ 0) →
        ∃ r c0, newCursorAtStart Node.pairAt 2 exStore exRoot = .ok c0 ∧
          advanceTimes Node.pairAt r c0 = .ok (true, c1)) :=
  seek_lower_bound (fun _ _ => rfl) bytesCompare_lawful exStore 1 2 exRoot (exCursor 0 0) [103]
    exRoot_searchTree (exCursor_over 0 0 (by decide)) rfl rfl (by decide)

/-- C4. For a well-formed tree with increasing keys and boundary keys equal to the
last keys of the subtrees, a comparator of a total order and a search function
that returns the lower-bound index on every node with sorted keys:
`newCursorAtItem` returns a leaf cursor; when some key of the tree is not below
`item` the cursor is on the leaf pair with the smallest such key, and it is the
cursor that `advance` reaches from `newCursorAtStart`; when every key is below
`item` it is the cursor of `newCursorAtEnd` with the index of the leaf frame at
`nodeCount`. -/
theorem cursor_at_item (hgp : PairsByItem getPair) {cmp : compareFn} (hc : LawfulCompare cmp)
    (nrw : NodeStore) (L fuel : Nat) (root : Node) (item : nodeItem) (search : searchFn)
    (hst : SearchTree cmp nrw L root)
    (hsearch : ∀ nd, nd.KeysSorted cmp → IsLowerBound cmp item nd (search item nd))
    (hfuel : L < fuel) :
    ∃ c, newCursorAtItem getPair fuel nrw root item search = .ok c ∧ c.isLeaf = true ∧
      ((∃ q ∈ leafPairs nrw L root, cmp item q.key ≤ 0) →
        ∃ pr r c0, c.valid = true ∧ c.currentPair getPair = .ok pr ∧
          pr ∈ leafPairs nrw L root ∧ cmp item pr.key ≤ 0 ∧
          (∀ q ∈ leafPairs nrw L root, cmp item q.key ≤ 0 → cmp pr.key q.key ≤ 0) ∧
          newCursorAtStart getPair fuel nrw root = .ok c0 ∧
          advanceTimes getPair r c0 = .ok (true, c)) ∧
      ((∀ q ∈ leafPairs nrw L root, 0 < cmp item q.key) →
        ∃ ce, newCursorAtEnd getPair fuel nrw root = .ok ce ∧
          c = ce.setIdx ce.nd.nodeCount) := by
  have hlb0 : (nodeCursor.root ⟨root, search item root, nrw⟩).LowerBoundAt cmp nrw item L :=
    lowerBoundAt_root hc (f := ⟨root, search item root, nrw⟩) hst (hsearch root hst.keysSorted)
  obtain ⟨c, h1, hov, hroot, hdep, hlb⟩ := newCursorAtItemLoop_spec hgp hc hsearch L fuel
    (.root ⟨root, search item root, nrw⟩) hfuel (nodeCursor.Over_root.mpr ⟨rfl, hst.1⟩)
    (by simpa [nodeCursor.depth, nodeCursor.rootNode] using hst) hlb0
  obtain ⟨hfin1, hfin2⟩ := lowerBound_final hgp hc L fuel root c hst hfuel hov hroot
    (by rw [hdep]; simp [nodeCursor.depth]) hlb
  exact ⟨c, h1, (hov.wf.isLeaf_iff).mpr rfl, hfin1, hfin2⟩

/-- Witness of C4: scenario 2 of the specification, `newCursorAtItem("dd")`. -/
theorem cursor_at_item_witness :
    ∃ c, newCursorAtItem Node.pairAt 2 exStore exRoot [100, 100] (searchOf bytesCompare) = .ok c ∧
      c.isLeaf = true ∧
      ((∃ q ∈ leafPairs exStore 1 exRoot, bytesCompare [100, 100] q.key ≤ 0) →
        ∃ pr r c0, c.valid = true ∧ c.currentPair Node.pairAt = .ok pr ∧
          pr ∈ leafPairs exStore 1 exRoot ∧ bytesCompare [100, 100] pr.key ≤ 0 ∧
          (∀ q ∈ leafPairs exStore 1 exRoot, bytesCompare [100, 100] q.key ≤ 0 →
            bytesCompare pr.key q.key ≤ 0) ∧
          newCursorAtStart Node.pairAt 2 exStore exRoot = .ok c0 ∧
          advanceTimes Node.pairAt r c0 = .ok (true, c)) ∧
      ((∀ q ∈ leafPairs exStore 1 exRoot, 0 < bytesCompare [100, 100] q.key) →
        ∃ ce, newCursorAtEnd Node.pairAt 2 exStore exRoot = .ok ce ∧
          c = ce.setIdx ce.nd.nodeCount) :=
  cursor_at_item (fun _ _ => rfl) bytesCompare_lawful exStore 1 2 exRoot [100, 100]
    (searchOf bytesCompare) exRoot_searchTree
    (fun nd hs => searchOf_isLowerBound bytesCompare_lawful [100, 100] nd hs) (by decide)

/-- C12. For every store, root node, item and search function, and every bound on
the iterations: `newLeafCursorAtItem` and `newCursorAtItem` end the same way; both
fail with the same error, or both return a cursor and the two own frames hold the
same node and the same idx. The cursor of `newLeafCursorAtItem` has no parent. -/
theorem leaf_cursor_agrees (getPair : Node → Int → Except Fault nodePair) (nrw : NodeStore)
    (nd : Node) (item : nodeItem) (search : searchFn) (fuel : Nat) :
    (newLeafCursorAtItem getPair fuel nrw nd item search).map (fun c => (c.nd, c.idx)) =
        (newCursorAtItem getPair fuel nrw nd item search).map (fun c => (c.nd, c.idx)) ∧
      ∀ c, newLeafCursorAtItem getPair fuel nrw nd item search = .ok c → c.parent = none :=
  ⟨newLeafCursorAtItemLoop_agrees nrw item search fuel _ _ rfl rfl,
    fun c h => newLeafCursorAtItemLoop_root nrw item search fuel
      (.root ⟨nd, search item nd, nrw⟩) c rfl h⟩

/-- Witness of C12: scenario 2 of the specification, the item `"dd"`; both
constructors end on the third leaf (keys `e`, `f`) at idx 0, the smallest key that
is not below the item. -/
theorem leaf_cursor_agrees_witness :
    (newLeafCursorAtItem Node.pairAt 2 exStore exRoot [100, 100] (searchOf bytesCompare)).map
        (fun c => (c.nd, c.idx)) =
      (newCursorAtItem Node.pairAt 2 exStore exRoot [100, 100] (searchOf bytesCompare)).map
        (fun c => (c.nd, c.idx)) ∧
      ∀ c, newLeafCursorAtItem Node.pairAt 2 exStore exRoot [100, 100] (searchOf bytesCompare) =
        .ok c → c.parent = none :=
  leaf_cursor_agrees Node.pairAt exStore exRoot [100, 100] (searchOf bytesCompare) 2

/-- C13, counterexample. The first leaf of the scenario tree as a tree of its own:
`newCursorAtIndex` returns for the indexes `2^63`, `0` and `2` the cursors at idx
`math.MinInt64`, `0` and `2`, cursors of one frame over the same root. The
subtraction of `compare` wraps: the idx `math.MinInt64` is below `2`, the
lexicographic difference is negative, but `compare` returns `math.MaxInt64 - 1`;
`math.MinInt64` against `0` is negative in both directions; and with
`math.MinInt64` below `0` and `0` below `2` under `compare`, `math.MinInt64` is
not below `2`. -/
theorem compare_lexicographic_counterexample :
    newCursorAtIndex Node.pairAt 1 exStore (exLeaf 0) (2 ^ 63) =
      .ok (.root ⟨exLeaf 0, -(2 ^ 63), exStore⟩) ∧
    newCursorAtIndex Node.pairAt 1 exStore (exLeaf 0) 0 = .ok (.root ⟨exLeaf 0, 0, exStore⟩) ∧
    newCursorAtIndex Node.pairAt 1 exStore (exLeaf 0) 2 = .ok (.root ⟨exLeaf 0, 2, exStore⟩) ∧
    (nodeCursor.root ⟨exLeaf 0, -(2 ^ 63), exStore⟩).compare (.root ⟨exLeaf 0, 2, exStore⟩) =
      .ok (2 ^ 63 - 2) ∧
    lexDiff (nodeCursor.root ⟨exLeaf 0, -(2 ^ 63), exStore⟩).idxs
      (nodeCursor.root ⟨exLeaf 0, 2, exStore⟩).idxs = -(2 ^ 63) - 2 ∧
    (nodeCursor.root ⟨exLeaf 0, -(2 ^ 63), exStore⟩).compare (.root ⟨exLeaf 0, 0, exStore⟩) =
      .ok (-(2 ^ 63)) ∧
    (nodeCursor.root ⟨exLeaf 0, 0, exStore⟩).compare (.root ⟨exLeaf 0, -(2 ^ 63), exStore⟩) =
      .ok (-(2 ^ 63)) ∧
    (nodeCursor.root ⟨exLeaf 0, 0, exStore⟩).compare (.root ⟨exLeaf 0, 2, exStore⟩) =
      .ok (-2) := by
  refine ⟨?_, ?_, ?_, ?_, ?_, ?_, ?_, ?_⟩ <;> rfl

/-- C13, amended. For cursors of equal chain depth that satisfy the parent/child
invariant over the same root node through the same store, with every idx between
`-stride` and `math.MaxInt64 - 2` (so that no difference of two idx leaves the
range of `int`): `compare a b` returns the lexicographic comparison of the two
index sequences read from the root frame down (the index difference at the first
frame where they differ, 0 when none differs); it is 0 exactly when all indexes
are equal, it is negative exactly when `compare b a` is positive, and it is
transitive. -/
theorem compare_lexicographic (getPair : Node → Int → Except Fault nodePair) (nrw : NodeStore)
    (a b c : nodeCursor) (ha : a.Linked getPair) (hb : b.Linked getPair) (hc : c.Linked getPair)
    (hta : a.Through nrw) (htb : b.Through nrw) (htc : c.Through nrw)
    (hab : a.rootNode = b.rootNode) (hbc : b.rootNode = c.rootNode)
    (hdab : a.depth = b.depth) (hdbc : b.depth = c.depth)
    (hia : a.IdxInRange) (hib : b.IdxInRange) (hic : c.IdxInRange) :
    ∃ rab rba rbc rac, a.compare b = .ok rab ∧ b.compare a = .ok rba ∧ b.compare c = .ok rbc ∧
      a.compare c = .ok rac ∧ rab = lexDiff a.idxs b.idxs ∧ (rab = 0 ↔ a.idxs = b.idxs) ∧
      (rab < 0 ↔ 0 < rba) ∧ (rab < 0 → rbc < 0 → rac < 0) := by
  have hl : a.idxs.length = b.idxs.length := by
    rw [nodeCursor.idxs_length, nodeCursor.idxs_length, hdab]
  obtain ⟨rab, h1, _, _, e1⟩ := nodeCursor.compare_lex nrw a b ha hb hta htb hab hdab
  obtain ⟨rba, h2, _, _, e2⟩ := nodeCursor.compare_lex nrw b a hb ha htb hta hab.symm hdab.symm
  obtain ⟨rbc, h3, _, _, e3⟩ := nodeCursor.compare_lex nrw b c hb hc htb htc hbc hdbc
  obtain ⟨rac, h4, _, _, e4⟩ :=
    nodeCursor.compare_lex nrw a c ha hc hta htc (hab.trans hbc) (hdab.trans hdbc)
  have e1 := e1 hia hib
  have e2 := e2 hib hia
  have e3 := e3 hib hic
  have e4 := e4 hia hic
  subst e1 e2 e3 e4
  refine ⟨_, _, _, _, h1, h2, h3, h4, rfl, lexDiff_eq_zero _ _ hl, ?_, lexDiff_trans _ _ _⟩
  rw [lexDiff_swap a.idxs b.idxs]
  omega

/-- Witness of C13 on the scenario tree: the cursors on the keys `d`, `e` and `h`. -/
theorem compare_lexicographic_witness :
    ∃ rab rba rbc rac, (exCursor 1 2).compare (exCursor 2 0) = .ok rab ∧
      (exCursor 2 0).compare (exCursor 1 2) = .ok rba ∧
      (exCursor 2 0).compare (exCursor 3 2) = .ok rbc ∧
      (exCursor 1 2).compare (exCursor 3 2) = .ok rac ∧
      rab = lexDiff (exCursor 1 2).idxs (exCursor 2 0).idxs ∧
      (rab = 0 ↔ (exCursor 1 2).idxs = (exCursor 2 0).idxs) ∧
      (rab < 0 ↔ 0 < rba) ∧ (rab < 0 → rbc < 0 → rac < 0) :=
  compare_lexicographic Node.pairAt exStore (exCursor 1 2) (exCursor 2 0) (exCursor 3 2)
    ⟨rfl, trivial⟩ ⟨rfl, trivial⟩ ⟨rfl, trivial⟩ ⟨rfl, rfl⟩ ⟨rfl, rfl⟩ ⟨rfl, rfl⟩ rfl rfl rfl rfl
    (by unfold nodeCursor.IdxInRange; decide) (by unfold nodeCursor.IdxInRange; decide)
    (by unfold nodeCursor.IdxInRange; decide)

/-- C14. `copy` fails, with the assertion failure, exactly when the chains of the
receiver and of `other` differ in depth; when the depths are equal it returns and
the receiver then has the node, idx and store of `other` at every frame. The
method assigns to the frames of the receiver only, `other` is left as it was. -/
theorem copy_depth (cur other : nodeCursor) :
    ((∃ e, cur.copy other = .error e) ↔ cur.depth ≠ other.depth) ∧
      (cur.depth ≠ other.depth → cur.copy other = .error .assertion) ∧
      (cur.depth = other.depth → cur.copy other = .ok other) := by
  rw [nodeCursor.copy_eq]
  by_cases h : cur.depth = other.depth <;> simp [h]

/-- Witness of C14: copying one cursor of the scenario tree into another one, and
into a cursor with a single frame. -/
theorem copy_depth_witness :
    (exCursor 0 0).copy (exCursor 3 2) = .ok (exCursor 3 2) ∧
      (nodeCursor.root ⟨exRoot, 0, exStore⟩).copy (exCursor 3 2) = .error .assertion :=
  ⟨(copy_depth (exCursor 0 0) (exCursor 3 2)).2.2 rfl,
    (copy_depth (nodeCursor.root ⟨exRoot, 0, exStore⟩) (exCursor 3 2)).2.1 (by decide)⟩

/-- C16. For every count below `2^48` and every ref of 20 bytes:
`GetCumulativeCount` of `newMetaValue count ref` is `count` and `GetRef` is `ref`;
field 0 of the tuple holds six bytes that are the big-endian digits of `count`, and
field 1 holds the 20 bytes of the ref. -/
theorem metaValue_round_trip (count : Nat) (ref : Hash) (hcount : count < 2 ^ 48)
    (href : ref.length = 20) :
    GetCumulativeCount (newMetaValue count ref) = count ∧
      GetRef (newMetaValue count ref) = ref ∧
      (∃ b0 b1 b2 b3 b4 b5 : Nat,
        tupleGetField (newMetaValue count ref) metaValueCountIdx = [b0, b1, b2, b3, b4, b5] ∧
        b0 < 256 ∧ b1 < 256 ∧ b2 < 256 ∧ b3 < 256 ∧ b4 < 256 ∧ b5 < 256 ∧
        count = b0 * 2 ^ 40 + b1 * 2 ^ 32 + b2 * 2 ^ 24 + b3 * 2 ^ 16 + b4 * 2 ^ 8 + b5) ∧
      tupleGetField (newMetaValue count ref) metaValueRefIdx = ref ∧
      (tupleGetField (newMetaValue count ref) metaValueRefIdx).length = 20 := by
  have hf0 : tupleGetField (newMetaValue count ref) metaValueCountIdx = WriteUint48 count := by
    simp [tupleGetField, newMetaValue, metaValueCountIdx, WriteUint48]
  have hf1 : tupleGetField (newMetaValue count ref) metaValueRefIdx = ref := by
    simp [tupleGetField, newMetaValue, metaValueRefIdx, WriteUint48, ← href]
  refine ⟨?_, hf1, ⟨_, _, _, _, _, _, hf0, ?_⟩, hf1, by rw [hf1, href]⟩
  · rw [GetCumulativeCount, hf0, readUint48_writeUint48 count hcount]
  · norm_num at hcount ⊢
    omega

/-- Witness of C16: the meta value of leaf 3 of the scenario tree with the count
`2^40 + 5`. -/
theorem metaValue_round_trip_witness :
    GetCumulativeCount (newMetaValue (2 ^ 40 + 5) (exHash 3)) = 2 ^ 40 + 5 ∧
      GetRef (newMetaValue (2 ^ 40 + 5) (exHash 3)) = exHash 3 ∧
      (∃ b0 b1 b2 b3 b4 b5 : Nat,
        tupleGetField (newMetaValue (2 ^ 40 + 5) (exHash 3)) metaValueCountIdx =
          [b0, b1, b2, b3, b4, b5] ∧
        b0 < 256 ∧ b1 < 256 ∧ b2 < 256 ∧ b3 < 256 ∧ b4 < 256 ∧ b5 < 256 ∧
        2 ^ 40 + 5 = b0 * 2 ^ 40 + b1 * 2 ^ 32 + b2 * 2 ^ 24 + b3 * 2 ^ 16 + b4 * 2 ^ 8 + b5) ∧
      tupleGetField (newMetaValue (2 ^ 40 + 5) (exHash 3)) metaValueRefIdx = exHash 3 ∧
      (tupleGetField (newMetaValue (2 ^ 40 + 5) (exHash 3)) metaValueRefIdx).length = 20 :=
  metaValue_round_trip (2 ^ 40 + 5) (exHash 3) (by norm_num) rfl

/-- C19, counterexample. With `Node.getPair(i)` as the specification defines it,
`(getItem(2i), getItem(2i+1))`: the root frame of the scenario tree at the valid
even idx 2 is on the pair with pair index 1, the items 2 and 3, but `currentPair`
returns the items 4 and 5; and on a leaf of four items at the valid even idx 2
`currentPair` panics. -/
theorem current_pair_counterexample :
    (nodeCursor.root ⟨exRoot, 2, exStore⟩).valid = true ∧
      exRoot.pairs[1]? = some ⟨[100], newMetaValue 2 (exHash 1)⟩ ∧
      (nodeCursor.root ⟨exRoot, 2, exStore⟩).currentPair Node.getPairP1 =
        .ok ⟨[102], newMetaValue 2 (exHash 2)⟩ ∧
      (exCursor 0 2).valid = true ∧
      (exCursor 0 2).currentPair Node.getPairP1 = .error .runtime :=
  ⟨rfl, rfl, rfl, rfl, rfl⟩

/-- C19, amended. `currentPair` hands the idx of the frame itself to `Node.getPair`.
With a `Node.getPair(i)` that returns the items `i` and `i + 1`, a cursor at a valid
even idx of a node with an even number of items gets `(getItem(idx),
getItem(idx+1))`, the pair at pair index `idx / stride`; with the `Node.getPair(i)`
of the specification, `(getItem(2i), getItem(2i+1))`, it gets the items `2 * idx`
and `2 * idx + 1`. -/
theorem current_pair_by_item (getPair : Node → Int → Except Fault nodePair) (c : nodeCursor) :
    c.currentPair getPair = getPair c.nd c.idx ∧
      (PairsByItem getPair → c.valid = true → c.idx % 2 = 0 → c.nd.items.length % 2 = 0 →
        ∃ k v, c.nd.getItem c.idx = .ok k ∧ c.nd.getItem (c.idx + 1) = .ok v ∧
          c.currentPair getPair = .ok ⟨k, v⟩ ∧
          c.nd.pairs[(c.idx / stride).toNat]? = some ⟨k, v⟩) ∧
      ((∀ nd i, getPair nd i = nd.getPairP1 i) →
        c.currentPair getPair =
          (do let k ← c.nd.getItem (2 * c.idx); let v ← c.nd.getItem (2 * c.idx + 1); pure ⟨k, v⟩)) := by
  refine ⟨rfl, ?_, fun h => by rw [nodeCursor.currentPair, h]; rfl⟩
  intro hgp hv he hlen
  simp only [nodeCursor.valid, Bool.and_eq_true, decide_eq_true_eq, Node.nodeCount] at hv
  obtain ⟨j, hj⟩ : ∃ j : Nat, c.idx = 2 * (j : Int) := ⟨(c.idx / 2).toNat, by omega⟩
  have hjl : j < c.nd.pairs.length := by
    rw [Node.pairs, pairUp_length]
    omega
  have hpr : c.nd.pairs[j]? = some (c.nd.pairs.get ⟨j, hjl⟩) := List.getElem?_eq_getElem hjl
  have hcp := nodeCursor.currentPair_eq hgp hj hpr
  have hpa := (Node.pairAt_eq_ok c.nd j _).mpr hpr
  rw [← hj, Node.pairAt] at hpa
  obtain ⟨k, hk, hpa⟩ := bind_ok_iff.mp hpa
  obtain ⟨v, hv', hpa⟩ := bind_ok_iff.mp hpa
  have hkv : (⟨k, v⟩ : nodePair) = c.nd.pairs.get ⟨j, hjl⟩ := Except.ok.inj hpa
  refine ⟨k, v, hk, hv', by rw [hcp, hkv], ?_⟩
  have : (c.idx / stride).toNat = j := by
    unfold stride
    omega
  rw [this, hpr, hkv]

/-- Witness of C19: the root frame of the scenario tree at idx 2. -/
theorem current_pair_by_item_witness :
    ∃ k v, exRoot.getItem 2 = .ok k ∧ exRoot.getItem (2 + 1) = .ok v ∧
      (nodeCursor.root ⟨exRoot, 2, exStore⟩).currentPair Node.pairAt = .ok ⟨k, v⟩ ∧
      exRoot.pairs[((2 : Int) / stride).toNat]? = some ⟨k, v⟩ :=
  (current_pair_by_item Node.pairAt (.root ⟨exRoot, 2, exStore⟩)).2.1 (fun _ _ => rfl) rfl rfl rfl

/-- C18. For a cursor whose every frame holds a well-formed node of the tree and is
in one of the states BeforeStart (`idx = -stride`), Valid (on a pair: idx even,
`0 ≤ idx ≤ lastKeyIdx`) or PastEnd (`idx = nodeCount`): when `advance`, `retreat`
or `seek` returns without error, every frame of the cursor it leaves is again in
one of the three states; no frame is at `idx = -1` and no idx is odd. -/
theorem frame_state_machine (hgp : PairsByItem getPair) (nrw : NodeStore) (L : Nat)
    (c : nodeCursor) (hc : c.FramesInState nrw L) :
    (∀ b c1, c.advance getPair = .ok (b, c1) →
      c1.FramesInState nrw L ∧ ∀ i ∈ c1.idxs, i ≠ -1 ∧ i % 2 = 0) ∧
    (∀ b c1, c.retreat getPair = .ok (b, c1) →
      c1.FramesInState nrw L ∧ ∀ i ∈ c1.idxs, i ≠ -1 ∧ i % 2 = 0) ∧
    (∀ item cb c1, c.seek getPair item cb = .ok c1 →
      c1.FramesInState nrw L ∧ ∀ i ∈ c1.idxs, i ≠ -1 ∧ i % 2 = 0) := by
  refine ⟨fun b c1 h => ?_, fun b c1 h => ?_, fun item cb c1 h => ?_⟩
  · suffices hs : c1.FramesInState nrw L from ⟨hs, hs.even⟩
    rw [nodeCursor.advance] at h
    obtain ⟨⟨b1, c2⟩, h2, h⟩ := bind_ok_iff.mp h
    have h3 := (nodeCursor.advanceInBounds_states hgp c c2 b1 L hc h2).1
    cases b1
    · simp only [Bool.not_false, if_true, pure, Except.pure] at h
      cases h
      exact h3.withIdx (nodeCursor.inState_setIdx.mpr (Or.inr (Or.inr rfl)))
    · simp only [Bool.not_true, Bool.false_eq_true, if_false, pure, Except.pure] at h
      cases h
      exact h3
  · suffices hs : c1.FramesInState nrw L from ⟨hs, hs.even⟩
    rw [nodeCursor.retreat] at h
    obtain ⟨⟨b1, c2⟩, h2, h⟩ := bind_ok_iff.mp h
    have h3 := (nodeCursor.retreatInBounds_states hgp c c2 b1 L hc h2).1
    cases b1
    · simp only [Bool.not_false, if_true, pure, Except.pure] at h
      cases h
      exact h3.withIdx (nodeCursor.inState_setIdx.mpr (Or.inl rfl))
    · simp only [Bool.not_true, Bool.false_eq_true, if_false, pure, Except.pure] at h
      cases h
      exact h3
  · have hs := nodeCursor.seek_states hgp c c1 L hc h
    exact ⟨hs, hs.even⟩

/-- Witness of C18 on the scenario tree: the cursor on the key `b`, the last pair of
the first leaf, from where `advance` reloads the leaf frame. -/
theorem frame_state_machine_witness :
    (∀ b c1, (exCursor 0 2).advance Node.pairAt = .ok (b, c1) →
      c1.FramesInState exStore 0 ∧ ∀ i ∈ c1.idxs, i ≠ -1 ∧ i % 2 = 0) ∧
    (∀ b c1, (exCursor 0 2).retreat Node.pairAt = .ok (b, c1) →
      c1.FramesInState exStore 0 ∧ ∀ i ∈ c1.idxs, i ≠ -1 ∧ i % 2 = 0) ∧
    (∀ item cb c1, (exCursor 0 2).seek Node.pairAt item cb = .ok c1 →
      c1.FramesInState exStore 0 ∧ ∀ i ∈ c1.idxs, i ≠ -1 ∧ i % 2 = 0) :=
  frame_state_machine (fun _ _ => rfl) exStore 0 (exCursor 0 2)
    ⟨rfl, (exCursor_over 0 2 (by decide)).wf, Or.inr (Or.inl ⟨1, rfl, by decide⟩), rfl,
      exRoot_wellFormed, Or.inr (Or.inl ⟨0, rfl, by decide⟩)⟩

/-- C11, counterexample. On the scenario tree of the specification, a well-formed
tree whose root has the cumulative count 10, `newCursorAtIndex(10)` does not
return a cursor: the descent steps past the last pair of the root and the read of
the current pair there is out of range. The same holds with the counts in items
(root count 20, index 20). -/
theorem index_out_of_range_counterexample :
    WellFormed exStore 1 exRoot ∧ exRoot.internalCount = 10 ∧
      newCursorAtIndex Node.pairAt 12 exStore exRoot 10 = .error .runtime ∧
      (∀ fuel c, newCursorAtIndex Node.pairAt fuel exStore exRoot 10 ≠ .ok c) ∧
      WellFormed exStore 1 exRootItems ∧ exRootItems.internalCount = 20 ∧
      newCursorAtIndex Node.pairAt 12 exStore exRootItems 20 = .error .runtime := by
  refine ⟨exRoot_wellFormed, rfl, rfl, ?_, exRootItems_wellFormed, rfl, rfl⟩
  intro fuel c h
  rcases Nat.lt_or_ge fuel 5 with hlt | hge
  · interval_cases fuel <;> cases h
  · rw [newCursorAtIndex_overrun (fun _ _ => rfl) exStore exRoot 10 fuel (by decide) (by decide)
      (by decide) (by decide) hge] at h
    cases h

/-- C11, amended. The constructor does not check the index against the cumulative
count. On a tree whose root is a leaf (a Go node, of fewer than `2^63` items) it
returns, for every `uint64` index `i`, the cursor with the single frame at
`idx = int(i)`: that is `i` below `2^63` and the negative number `i - 2^64` from
`2^63` on. On a tree with an internal root and an index that is at least the
cumulative count of the root (the sum of the counts of its pairs) it does not
return a cursor: the descent steps past the last pair of the root and the read of
the current pair panics. -/
theorem index_out_of_range (hgp : PairsByItem getPair) (nrw : NodeStore) (nd : Node)
    (i fuel : Nat) (hne : nd.items ≠ []) (hev : nd.items.length % 2 = 0)
    (hfuel : nd.pairs.length ≤ fuel) :
    (nd.level = 0 → nd.nodeCount < 2 ^ 63 → i < 2 ^ 64 →
      newCursorAtIndex getPair fuel nrw nd i =
        .ok (.root ⟨nd, if i < 2 ^ 63 then (i : Int) else (i : Int) - 2 ^ 64, nrw⟩)) ∧
    (nd.level ≠ 0 → nd.internalCount ≤ i →
      newCursorAtIndex getPair fuel nrw nd i = .error .runtime) := by
  have hpos : 0 < nd.pairs.length := by
    rw [Node.pairs, pairUp_length]
    have := List.length_pos.mpr hne
    omega
  refine ⟨fun h hsize hi => ?_,
    fun h hi => newCursorAtIndex_overrun hgp nrw nd i fuel h hne hev hi hfuel⟩
  rw [newCursorAtIndex_leaf nrw nd i fuel h (by omega) hsize, intOfUint64_eq i hi]

/-- Witness of C11: the first leaf of the scenario tree as a tree of its own, with
an index beyond its four items and with the index `2^63`, and the scenario tree
with the index 10. -/
theorem index_out_of_range_witness :
    newCursorAtIndex Node.pairAt 2 exStore (exLeaf 0) 7 = .ok (.root ⟨exLeaf 0, 7, exStore⟩) ∧
      newCursorAtIndex Node.pairAt 2 exStore (exLeaf 0) (2 ^ 63) =
        .ok (.root ⟨exLeaf 0, -(2 ^ 63), exStore⟩) ∧
      newCursorAtIndex Node.pairAt 5 exStore exRoot 10 = .error .runtime :=
  ⟨(index_out_of_range (fun _ _ => rfl) exStore (exLeaf 0) 7 2 (by decide) (by decide)
      (by decide)).1 rfl (by decide) (by decide),
    (index_out_of_range (fun _ _ => rfl) exStore (exLeaf 0) (2 ^ 63) 2 (by decide) (by decide)
      (by decide)).1 rfl (by decide) (by decide),
    (index_out_of_range (fun _ _ => rfl) exStore exRoot 10 5 (by decide) (by decide)
      (by decide)).2 (by decide) (by decide)⟩

/-- C17, counterexample. An internal node of two pairs whose counts are `2^47`
each has the cumulative count `2^48`; `writeNewChild` returns for it a meta value
whose `GetCumulativeCount` is not that count, and no six bytes could hold it. -/
theorem write_new_child_counterexample :
    exBigItems ≠ [] ∧ exBigItems.length % 2 = 0 ∧
      exWriteStore.Write (makeProllyNode 1 exBigItems) = .ok (exHash 0) ∧
      (makeProllyNode 1 exBigItems).internalCount = 2 ^ 48 ∧
      (∃ mv, writeNewChild Node.internalCount exWriteStore 1 exBigItems =
          .ok (makeProllyNode 1 exBigItems, ⟨[2], mv⟩) ∧
        GetCumulativeCount mv = 0) ∧
      (∀ mt : nodeItem, (∀ b ∈ mt, b < 256) →
        GetCumulativeCount mt ≠ (makeProllyNode 1 exBigItems).internalCount) := by
  have hc : (makeProllyNode 1 exBigItems).internalCount = 2 ^ 48 := by decide
  refine ⟨by decide, by decide, rfl, hc, ⟨newMetaValue (2 ^ 48) (exHash 0), ?_, by decide⟩, ?_⟩
  · rw [writeNewChild_nonempty Node.internalCount exWriteStore 1 exBigItems (exHash 0) [2] rfl
      rfl (by decide), hc]
  · intro mt h
    have := getCumulativeCount_lt mt h
    omega

/-- C17, amended. `writeNewChild` writes the node built from the items. If the
write fails it returns the error and no node. If it succeeds with the hash `h`:
for an empty item list it returns the node and the empty pair; for a non-empty
item list of even length, a hash of 20 bytes and a cumulative count of the node
below `2^48`, it returns the node and a meta pair `(k, mv)` in which `k` is the
key of the last pair (`items[len-2]`), `mv.GetRef() = h` and
`mv.GetCumulativeCount()` is the cumulative count of the node. -/
theorem write_new_child (cumulativeCount : Node → Nat) (ns : NodeStore) (level : Nat)
    (items : List nodeItem) :
    (∀ e, ns.Write (makeProllyNode level items) = .error e →
      writeNewChild cumulativeCount ns level items = .error e) ∧
    (∀ h, ns.Write (makeProllyNode level items) = .ok h →
      (items = [] →
        writeNewChild cumulativeCount ns level items =
          .ok (makeProllyNode level [], ⟨[], []⟩)) ∧
      (items ≠ [] → items.length % 2 = 0 → h.length = 20 →
        cumulativeCount (makeProllyNode level items) < 2 ^ 48 →
        ∃ k v mv, writeNewChild cumulativeCount ns level items =
            .ok (makeProllyNode level items, ⟨k, mv⟩) ∧
          (makeProllyNode level items).pairs.getLast? = some ⟨k, v⟩ ∧
          items[items.length - 2]? = some k ∧ GetRef mv = h ∧
          GetCumulativeCount mv = cumulativeCount (makeProllyNode level items))) := by
  refine ⟨fun e he => ?_, fun h hw => ⟨fun hnil => ?_, fun hne hev hh hc => ?_⟩⟩
  · simp [writeNewChild, he, bind, Except.bind]
  · subst hnil
    simp [writeNewChild, hw, bind, Except.bind, pure, Except.pure]
  · obtain ⟨k, v, hk, _, hlast⟩ := pairUp_getLast items hne hev
    have hpos : 0 < items.length := List.length_pos.mpr hne
    exact ⟨k, v, _, writeNewChild_nonempty cumulativeCount ns level items h k hw hk (by omega),
      hlast, hk, getRef_newMetaValue _ h hh, getCumulativeCount_newMetaValue _ h hc⟩

/-- Witness of C17: the first leaf of the scenario tree, written to a store that
answers with the hash of leaf 0, with the number of items as cumulative count. -/
theorem write_new_child_witness :
    ∃ k v mv, writeNewChild (fun nd => nd.items.length) exWriteStore 0 (exLeaf 0).items =
        .ok (makeProllyNode 0 (exLeaf 0).items, ⟨k, mv⟩) ∧
      (makeProllyNode 0 (exLeaf 0).items).pairs.getLast? = some ⟨k, v⟩ ∧
      (exLeaf 0).items[(exLeaf 0).items.length - 2]? = some k ∧ GetRef mv = exHash 0 ∧
      GetCumulativeCount mv =
        (fun nd : Node => nd.items.length) (makeProllyNode 0 (exLeaf 0).items) :=
  ((write_new_child (fun nd => nd.items.length) exWriteStore 0 (exLeaf 0).items).2 (exHash 0)
    rfl).2 (by decide) (by decide) rfl (by decide)

/-- C20. For a diff row `r` that the diff source returns and that has at least one
side: when `diffRowItr.Next` returns a row, its last column is the diff type, which
is `added` exactly when `r` has a `to` side and no `from` side, `removed` exactly
when it has a `from` side and no `to` side, and `modified` exactly when it has
both sides. -/
theorem diff_type_column {Src : Type} (itr : diffRowItr Src) (r : Row) (src : Src)
    (toRow fromRow : Option Row) (sqlRow : SqlRow) (itr1 : diffRowItr Src)
    (hnext : itr.NextDiff itr.diffSrc = .ok (r, src))
    (hsplit : itr.Split r = .ok (toRow, fromRow))
    (hside : toRow.isSome = true ∨ fromRow.isSome = true)
    (h : itr.Next = .ok (sqlRow, itr1)) :
    ∃ t, sqlRow.getLast? = some t ∧
      (t = diffTypeAdded ↔ toRow.isSome = true ∧ fromRow.isSome = false) ∧
      (t = diffTypeRemoved ↔ fromRow.isSome = true ∧ toRow.isSome = false) ∧
      (t = diffTypeModified ↔ toRow.isSome = true ∧ fromRow.isSome = true) := by
  rw [diffRowItr.Next, hnext] at h
  simp only [bind, Except.bind, hsplit] at h
  obtain ⟨r1, _, h⟩ := except_bind_ok_iff.mp h
  obtain ⟨r2, _, h⟩ := except_bind_ok_iff.mp h
  obtain ⟨r3, _, h⟩ := except_bind_ok_iff.mp h
  obtain ⟨r4, _, h⟩ := except_bind_ok_iff.mp h
  obtain ⟨row, _, h⟩ := except_bind_ok_iff.mp h
  obtain ⟨t, ht, h1, h2, h3⟩ := diffType_cases toRow.isSome fromRow.isSome row
  simp only [pure, Except.pure, Except.ok.injEq, Prod.mk.injEq] at h
  refine ⟨t, ?_, h1, ?_, h2⟩
  · rw [← h.1, ht]
    simp
  · rw [h3]
    cases hs : toRow.isSome <;> cases hf : fromRow.isSome <;> simp_all

/-- Witness of C20: the first row of the example iterator has both sides. -/
theorem diff_type_column_witness :
    ∃ t, (["k1", "new", "k1", "old", "c2", "c1", "2021-12-01", "modified"] : SqlRow).getLast? =
        some t ∧
      (t = diffTypeAdded ↔
        (some [((10 : Nat), "k1"), (11, "new")] : Option Row).isSome = true ∧
          (some [((20 : Nat), "k1"), (21, "old")] : Option Row).isSome = false) ∧
      (t = diffTypeRemoved ↔
        (some [((20 : Nat), "k1"), (21, "old")] : Option Row).isSome = true ∧
          (some [((10 : Nat), "k1"), (11, "new")] : Option Row).isSome = false) ∧
      (t = diffTypeModified ↔
        (some [((10 : Nat), "k1"), (11, "new")] : Option Row).isSome = true ∧
          (some [((20 : Nat), "k1"), (21, "old")] : Option Row).isSome = true) :=
  diff_type_column exDiffItr [(10, "k1"), (11, "new"), (20, "k1"), (21, "old")]
    [[(10, "k2"), (11, "v2")]] (some [(10, "k1"), (11, "new")]) (some [(20, "k1"), (21, "old")])
    ["k1", "new", "k1", "old", "c2", "c1", "2021-12-01", "modified"]
    { exDiffItr with diffSrc := [[(10, "k2"), (11, "v2")]] } rfl rfl (Or.inl rfl) rfl

/-- C15. For every cursor `c`, held in the structs of the chain at address `a`:
`clone` returns the address of a chain that stands for the same cursor value (the
same depth, and the same node and idx at every frame) and that shares no struct
with the chain of `c`, while `c` is as it was. Whatever cursor `c2` a later method
leaves in the frames of the clone, in particular `advance`, `retreat`, `seek` or
`copy` called on the clone, the chain at `a` still stands for `c`, and the clone
stands for `c2`. -/
theorem clone_independent (h : Heap) (n a : Nat) (c : nodeCursor) (hc : h.load n a = some c) :
    ∃ h1 a1, h.clone n a = some (h1, a1) ∧ h1.load n a1 = some c ∧ h1.load n a = some c ∧
      (∀ x ∈ h1.chain n a1, x ∉ h1.chain n a) ∧
      (∀ c2 : nodeCursor, (h1.store (h1.chain n a1) c2).load n a = some c ∧
        (c2.depth = c.depth → (h1.store (h1.chain n a1) c2).load n a1 = some c2)) ∧
      (∀ (getPair : Node → Int → Except Fault nodePair) (item : nodeItem) (cb : compareFn)
        (other : nodeCursor) (b : Bool) (c2 : nodeCursor),
        (c.advance getPair = .ok (b, c2) ∨ c.retreat getPair = .ok (b, c2) ∨
          c.seek getPair item cb = .ok c2 ∨ c.copy other = .ok c2) →
        (h1.store (h1.chain n a1) c2).load n a = some c) := by
  obtain ⟨h1, a1, hcl, _, _, hold, hload, hge, hnd⟩ := Heap.clone_spec n h a c hc
  obtain ⟨hla, hca⟩ := Heap.load_congr h h1 n a c hc
    fun x hx => hold x (Heap.chain_lt h n a x hx)
  have hdis : ∀ x ∈ h1.chain n a1, x ∉ h1.chain n a := by
    intro x hx hxa
    rw [hca] at hxa
    have h1x := hge x hx
    have h2x := Heap.chain_lt h n a x hxa
    omega
  have hkeep : ∀ c2 : nodeCursor, (h1.store (h1.chain n a1) c2).load n a = some c := fun c2 =>
    (Heap.load_congr h1 _ n a c hla fun x hx =>
      Heap.store_other _ c2 h1 x fun hm => hdis x hm hx).1
  exact ⟨h1, a1, hcl, hload, hla, hdis,
    fun c2 => ⟨hkeep c2, fun hd => Heap.load_store n h1 a1 c c2 hload hnd hd⟩,
    fun _ _ _ _ _ c2 _ => hkeep c2⟩

/-- Witness of C15: the cursor on the key `b` of the scenario tree, in a memory of
two structs. -/
theorem clone_independent_witness :
    ∃ h1 a1, exHeap.clone 2 1 = some (h1, a1) ∧ h1.load 2 a1 = some (exCursor 0 2) ∧
      h1.load 2 1 = some (exCursor 0 2) ∧
      (∀ x ∈ h1.chain 2 a1, x ∉ h1.chain 2 1) ∧
      (∀ c2 : nodeCursor, (h1.store (h1.chain 2 a1) c2).load 2 1 = some (exCursor 0 2) ∧
        (c2.depth = (exCursor 0 2).depth → (h1.store (h1.chain 2 a1) c2).load 2 a1 = some c2)) ∧
      (∀ (getPair : Node → Int → Except Fault nodePair) (item : nodeItem) (cb : compareFn)
        (other : nodeCursor) (b : Bool) (c2 : nodeCursor),
        ((exCursor 0 2).advance getPair = .ok (b, c2) ∨
          (exCursor 0 2).retreat getPair = .ok (b, c2) ∨
          (exCursor 0 2).seek getPair item cb = .ok c2 ∨ (exCursor 0 2).copy other = .ok c2) →
        (h1.store (h1.chain 2 a1) c2).load 2 1 = some (exCursor 0 2)) :=
  clone_independent exHeap 2 1 (exCursor 0 2) rfl

/-- C22. For two cursors of equal chain depth that satisfy the parent/child
invariant over the same root node through the same store: `compare` returns a
value, its assertion does not fail; at every height, when the frames above have
equal indexes in the two cursors, the two frames at that height hold the same
node, so the same `nodeCount`. -/
theorem compare_assertion_holds (getPair : Node → Int → Except Fault nodePair) (nrw : NodeStore)
    (a b : nodeCursor) (ha : a.Linked getPair) (hb : b.Linked getPair)
    (hta : a.Through nrw) (htb : b.Through nrw) (hroot : a.rootNode = b.rootNode)
    (hdepth : a.depth = b.depth) :
    (∃ r, a.compare b = .ok r) ∧
      ∀ k, (a.up k).idxs.dropLast = (b.up k).idxs.dropLast →
        (a.up k).nd = (b.up k).nd ∧ (a.up k).nd.nodeCount = (b.up k).nd.nodeCount := by
  obtain ⟨r, hr, _⟩ := nodeCursor.compare_lex nrw a b ha hb hta htb hroot hdepth
  refine ⟨⟨r, hr⟩, fun k hk => ?_⟩
  have h := nodeCursor.same_node nrw (a.up k) (b.up k) (nodeCursor.up_linked k a ha)
    (nodeCursor.up_linked k b hb) (nodeCursor.up_through nrw k a hta)
    (nodeCursor.up_through nrw k b htb)
    (by rw [nodeCursor.up_rootNode, nodeCursor.up_rootNode, hroot])
    (by rw [nodeCursor.up_depth, nodeCursor.up_depth, hdepth]) hk
  exact ⟨h, by rw [h]⟩

/-- Witness of C22 on the scenario tree: the cursors on the keys `c` and `d`, which
share the leaf, and the cursor on `h` in another leaf. -/
theorem compare_assertion_holds_witness :
    ((∃ r, (exCursor 1 0).compare (exCursor 1 2) = .ok r) ∧
      ∀ k, ((exCursor 1 0).up k).idxs.dropLast = ((exCursor 1 2).up k).idxs.dropLast →
        ((exCursor 1 0).up k).nd = ((exCursor 1 2).up k).nd ∧
          ((exCursor 1 0).up k).nd.nodeCount = ((exCursor 1 2).up k).nd.nodeCount) ∧
    ((∃ r, (exCursor 1 0).compare (exCursor 3 2) = .ok r) ∧
      ∀ k, ((exCursor 1 0).up k).idxs.dropLast = ((exCursor 3 2).up k).idxs.dropLast →
        ((exCursor 1 0).up k).nd = ((exCursor 3 2).up k).nd ∧
          ((exCursor 1 0).up k).nd.nodeCount = ((exCursor 3 2).up k).nd.nodeCount) :=
  ⟨compare_assertion_holds Node.pairAt exStore (exCursor 1 0) (exCursor 1 2) ⟨rfl, trivial⟩
      ⟨rfl, trivial⟩ ⟨rfl, rfl⟩ ⟨rfl, rfl⟩ rfl rfl,
    compare_assertion_holds Node.pairAt exStore (exCursor 1 0) (exCursor 3 2) ⟨rfl, trivial⟩
      ⟨rfl, trivial⟩ ⟨rfl, rfl⟩ ⟨rfl, rfl⟩ rfl rfl⟩

/-- C23. For a cursor `a` over a well-formed tree whose own frame is before the
start or on a pair: `advance` on a copy of `a` returns, and the cursor `b` it
leaves, whether it returned true or ran past the end, compares greater than `a`:
`compare(a, b) < 0` and `compare(b, a) > 0`; this includes the step from the last
pair of a node to the first pair of the next node. -/
theorem compare_after_advance (hgp : PairsByItem getPair) (nrw : NodeStore) (L : Nat)
    (a : nodeCursor) (hov : a.Over nrw L) (hst : a.idx = -stride ∨ ∃ k, a.onPair k) :
    ∃ ok b r s, a.advance getPair = .ok (ok, b) ∧ a.compare b = .ok r ∧ b.compare a = .ok s ∧
      r < 0 ∧ 0 < s := by
  have hcnt := hov.wf.nodeCount
  have hpos := hov.wf.pairs_pos
  have inb : ∀ c1, a.advanceInBounds getPair = .ok (true, c1) →
      ∃ ok b r s, a.advance getPair = .ok (ok, b) ∧ a.compare b = .ok r ∧
        b.compare a = .ok s ∧ r < 0 ∧ 0 < s := by
    intro c1 h
    obtain ⟨r, s, hr, hs, hr0, hs0⟩ := nodeCursor.advanceInBounds_compare a c1 h
    exact ⟨true, c1, r, s, by rw [nodeCursor.advance_eq h]; rfl, hr, hs, hr0, hs0⟩
  rcases hst with h | ⟨k, hk⟩
  · exact inb _ (nodeCursor.advanceInBounds_step a (by unfold stride at h ⊢; omega))
  · rcases nodeCursor.advanceInBounds_spec hgp a L k hov hk with
      ⟨c1, _, h, _⟩ | ⟨h, _, hidx⟩
    · exact inb c1 h
    · have h1 := nodeCursor.compare_setIdx a a.idx a.nd.nodeCount
      have h2 := nodeCursor.compare_setIdx a a.nd.nodeCount a.idx
      rw [nodeCursor.setIdx_self] at h1 h2
      unfold stride at hidx
      rw [intSub_of_fits (by omega) (by omega)] at h1 h2
      exact ⟨false, a.setIdx a.nd.nodeCount, _, _, by rw [nodeCursor.advance_eq h]; rfl, h1, h2,
        by omega, by omega⟩

/-- Witness of C23 on the scenario tree: from the key `b`, the last pair of the
first leaf, `advance` crosses to the second leaf. -/
theorem compare_after_advance_witness :
    ∃ ok b r s, (exCursor 0 2).advance Node.pairAt = .ok (ok, b) ∧
      (exCursor 0 2).compare b = .ok r ∧ b.compare (exCursor 0 2) = .ok s ∧ r < 0 ∧ 0 < s :=
  compare_after_advance (fun _ _ => rfl) exStore 0 (exCursor 0 2) (exCursor_over 0 2 (by decide))
    (Or.inr ⟨1, rfl, by decide⟩)

/-- C24. For a cursor over a well-formed tree that is on the last leaf pair (no
leaf pair of the tree comes after it): `advance` returns false and leaves the
cursor with the own idx at `nodeCount` and the node and every ancestor frame as
they were; `retreat` on that cursor returns true and gives back the cursor on the
last leaf pair. For a cursor on the first leaf pair: `retreat` returns false and
leaves the own idx at `-stride` and everything else as it was, and `advance` on
that cursor returns true and gives back the cursor on the first leaf pair. -/
theorem off_the_end_recoverable (hgp : PairsByItem getPair) (nrw : NodeStore) (c : nodeCursor)
    (k : Nat) (hov : c.Over nrw 0) (hon : c.onPair k) :
    (c.after nrw 0 = [] →
      (∃ pr, c.currentPair getPair = .ok pr ∧
        (leafPairs nrw c.depth c.rootNode).getLast? = some pr) ∧
      c.advance getPair = .ok (false, c.setIdx c.nd.nodeCount) ∧
      (c.setIdx c.nd.nodeCount).nd = c.nd ∧ (c.setIdx c.nd.nodeCount).parent = c.parent ∧
      (c.setIdx c.nd.nodeCount).retreat getPair = .ok (true, c)) ∧
    (c.before nrw 0 = [] →
      (∃ pr, c.currentPair getPair = .ok pr ∧
        (leafPairs nrw c.depth c.rootNode).head? = some pr) ∧
      c.retreat getPair = .ok (false, c.setIdx (-stride)) ∧
      (c.setIdx (-stride)).nd = c.nd ∧ (c.setIdx (-stride)).parent = c.parent ∧
      (c.setIdx (-stride)).advance getPair = .ok (true, c)) := by
  have hcnt := hov.wf.nodeCount
  have hpos := hov.wf.pairs_pos
  obtain ⟨pr, hpr⟩ := hon.get
  have hcur := nodeCursor.currentPair_eq hgp hon.1 hpr
  have hcover := nodeCursor.cover c 0 k hov hon
  have hhere : c.here nrw 0 = [pr] := by rw [nodeCursor.here_eq hon.1 hpr]; rfl
  rw [hhere, Nat.zero_add] at hcover
  refine ⟨fun hend => ⟨⟨pr, hcur, ?_⟩, ?_, by simp, nodeCursor.parent_setIdx _ _, ?_⟩,
    fun hstart => ⟨⟨pr, hcur, ?_⟩, ?_, by simp, nodeCursor.parent_setIdx _ _, ?_⟩⟩
  · rw [← hcover, hend]
    simp
  · rw [nodeCursor.advance_eq (nodeCursor.advanceInBounds_at_end hgp hov hon hend).1]
    rfl
  · have hidx := (nodeCursor.advanceInBounds_at_end hgp hov hon hend).2
    have hstep := @nodeCursor.retreatInBounds_step getPair
      (c.setIdx c.nd.nodeCount) (by simp only [nodeCursor.idx_setIdx]; omega)
    rw [nodeCursor.retreat_eq hstep]
    simp only [if_true, nodeCursor.idx_setIdx, nodeCursor.setIdx_setIdx]
    rw [← hidx, nodeCursor.setIdx_self]
  · rw [← hcover, hstart]
    simp
  · rw [nodeCursor.retreat_eq (nodeCursor.retreatInBounds_at_start hgp hov hon hstart).1]
    rfl
  · have hidx := (nodeCursor.retreatInBounds_at_start hgp hov hon hstart).2
    have hstep := @nodeCursor.advanceInBounds_step getPair
      (c.setIdx (-stride)) (by simp only [nodeCursor.idx_setIdx, nodeCursor.nd_setIdx]; omega)
    rw [nodeCursor.advance_eq hstep]
    simp only [if_true, nodeCursor.idx_setIdx, nodeCursor.setIdx_setIdx]
    have : -stride + stride = c.idx := by rw [hidx]; unfold stride; omega
    rw [this, nodeCursor.setIdx_self]

/-- Witness of C24 on the scenario tree: the cursor on the key `j`, the last leaf
pair, and the cursor on the key `a`, the first one. -/
theorem off_the_end_recoverable_witness :
    ((∃ pr, (exCursor 4 2).currentPair Node.pairAt = .ok pr ∧
        (leafPairs exStore (exCursor 4 2).depth (exCursor 4 2).rootNode).getLast? = some pr) ∧
      (exCursor 4 2).advance Node.pairAt =
        .ok (false, (exCursor 4 2).setIdx (exCursor 4 2).nd.nodeCount) ∧
      ((exCursor 4 2).setIdx (exCursor 4 2).nd.nodeCount).nd = (exCursor 4 2).nd ∧
      ((exCursor 4 2).setIdx (exCursor 4 2).nd.nodeCount).parent = (exCursor 4 2).parent ∧
      ((exCursor 4 2).setIdx (exCursor 4 2).nd.nodeCount).retreat Node.pairAt =
        .ok (true, exCursor 4 2)) ∧
    ((∃ pr, (exCursor 0 0).currentPair Node.pairAt = .ok pr ∧
        (leafPairs exStore (exCursor 0 0).depth (exCursor 0 0).rootNode).head? = some pr) ∧
      (exCursor 0 0).retreat Node.pairAt = .ok (false, (exCursor 0 0).setIdx (-stride)) ∧
      ((exCursor 0 0).setIdx (-stride)).nd = (exCursor 0 0).nd ∧
      ((exCursor 0 0).setIdx (-stride)).parent = (exCursor 0 0).parent ∧
      ((exCursor 0 0).setIdx (-stride)).advance Node.pairAt = .ok (true, exCursor 0 0)) :=
  ⟨(off_the_end_recoverable (fun _ _ => rfl) exStore (exCursor 4 2) 1
      (exCursor_over 4 2 (by decide)) ⟨rfl, by decide⟩).1 rfl,
    (off_the_end_recoverable (fun _ _ => rfl) exStore (exCursor 0 0) 0
      (exCursor_over 0 0 (by decide)) ⟨rfl, by decide⟩).2 rfl⟩

/-- C25, counterexample. An internal root without items refers to no node at all,
so every node it refers to is readable and non-empty; none of the three
constructors returns a cursor for it, with any bound on the iterations: the read
of the current pair of the root is out of range. -/
theorem constructors_counterexample :
    ChildrenReadable exStore 1 exEmptyRoot ∧
      newCursorAtStart Node.pairAt 2 exStore exEmptyRoot = .error .runtime ∧
      newCursorAtEnd Node.pairAt 2 exStore exEmptyRoot = .error .runtime ∧
      newCursorAtItem Node.pairAt 2 exStore exEmptyRoot [100] (searchOf bytesCompare) =
        .error .runtime ∧
      ∀ fuel c, newCursorAtStart Node.pairAt fuel exStore exEmptyRoot ≠ .ok c ∧
        newCursorAtEnd Node.pairAt fuel exStore exEmptyRoot ≠ .ok c ∧
        newCursorAtItem Node.pairAt fuel exStore exEmptyRoot [100] (searchOf bytesCompare) ≠
          .ok c := by
  refine ⟨⟨rfl, fun pr hpr => by simp [exEmptyRoot, Node.pairs, pairUp] at hpr⟩, rfl, rfl, rfl,
    fun fuel c => ?_⟩
  cases fuel with
  | zero => exact ⟨fun h => (by cases h), fun h => (by cases h), fun h => (by cases h)⟩
  | succ n => exact ⟨fun h => (by cases h), fun h => (by cases h), fun h => (by cases h)⟩

/-- C25, amended. For every store and root node that is a leaf, or that is the root
of a tree in which every node, the root included, is non-empty with an even number
of items and every internal node of level `L` refers only to readable nodes of
level `L - 1`, and for every search function that returns even indexes:
`newCursorAtStart`, `newCursorAtEnd` and `newCursorAtItem` return, without error,
a cursor whose own frame holds a leaf and whose chain has exactly `root.level`
frames above it, the levels going up by one per parent to the root node at the
top. A bound on the iterations above `root.level` is enough. -/
theorem constructors_reach_leaf (hgp : PairsByItem getPair) (nrw : NodeStore) (fuel : Nat)
    (root : Node) (item : nodeItem) (search : searchFn)
    (htree : root.level = 0 ∨ WellFormed nrw root.level root)
    (hsearch : ∀ nd, search item nd % 2 = 0) (hfuel : root.level < fuel) :
    ∀ r ∈ [newCursorAtStart getPair fuel nrw root, newCursorAtEnd getPair fuel nrw root,
        newCursorAtItem getPair fuel nrw root item search],
      ∃ c, r = .ok c ∧ c.isLeaf = true ∧ c.depth = root.level ∧ c.rootNode = root ∧
        c.levels = List.range' 0 (root.level + 1) := by
  intro r hr
  rcases htree with hlev | hwf
  · obtain ⟨f, h1, h2⟩ := @constructors_leaf getPair nrw fuel root item search hlev
      (by omega) r hr
    refine ⟨.root f, h1, ?_, ?_, h2, ?_⟩
    · simp [nodeCursor.isLeaf, nodeCursor.level, nodeCursor.nd, nodeCursor.frame, h2, hlev]
    · simp [nodeCursor.depth, hlev]
    · simp [nodeCursor.levels, h2, hlev]
  · obtain ⟨c, h1, hov, hroot, hdep⟩ := constructors_wellFormed hgp nrw root.level fuel root item
      search hwf hsearch hfuel r hr
    refine ⟨c, h1, (hov.wf.isLeaf_iff).mpr rfl, hdep, hroot, ?_⟩
    rw [nodeCursor.Over.levels c 0 hov, hdep]

/-- Witness of C25: the scenario tree and the item `"dd"`. -/
theorem constructors_reach_leaf_witness :
    (∃ c, newCursorAtStart Node.pairAt 2 exStore exRoot = .ok c ∧ c.isLeaf = true ∧
      c.depth = exRoot.level ∧ c.rootNode = exRoot ∧
      c.levels = List.range' 0 (exRoot.level + 1)) ∧
    (∃ c, newCursorAtEnd Node.pairAt 2 exStore exRoot = .ok c ∧ c.isLeaf = true ∧
      c.depth = exRoot.level ∧ c.rootNode = exRoot ∧
      c.levels = List.range' 0 (exRoot.level + 1)) ∧
    (∃ c, newCursorAtItem Node.pairAt 2 exStore exRoot [100, 100] (searchOf bytesCompare) =
        .ok c ∧ c.isLeaf = true ∧ c.depth = exRoot.level ∧ c.rootNode = exRoot ∧
      c.levels = List.range' 0 (exRoot.level + 1)) :=
  ⟨constructors_reach_leaf (fun _ _ => rfl) exStore 2 exRoot [100, 100] (searchOf bytesCompare)
      (Or.inr exRoot_wellFormed) (searchOf_even bytesCompare [100, 100]) (by decide) _
      (List.mem_cons_self _ _),
    constructors_reach_leaf (fun _ _ => rfl) exStore 2 exRoot [100, 100] (searchOf bytesCompare)
      (Or.inr exRoot_wellFormed) (searchOf_even bytesCompare [100, 100]) (by decide) _
      (List.mem_cons_of_mem _ (List.mem_cons_self _ _)),
    constructors_reach_leaf (fun _ _ => rfl) exStore 2 exRoot [100, 100] (searchOf bytesCompare)
      (Or.inr exRoot_wellFormed) (searchOf_even bytesCompare [100, 100]) (by decide) _
      (List.mem_cons_of_mem _ (List.mem_cons_of_mem _ (List.mem_cons_self _ _)))⟩

/-- C21. When `diffPartitions.Next` returns a partition, no warning was emitted and
the partition has a nil `from` table or schemas on both sides whose primary key
sets are diffable. When the next selected partition has a non-nil `from` table and
`ArePrimaryKeySetsDiffable(fromSch, toSch)` is false, `Next` emits the
`PrimaryKeyChangeWarning` with the code 1105 and returns `io.EOF` instead of the
partition; when its `from` table is nil, `Next` returns it. A warning is emitted
in no other case. -/
theorem next_partition_diffable (apk : Schema → Schema → Bool) (dp : diffPartitions)
    (ws : List Warning) :
    (∀ p dp1 ws1, dp.Next apk ws = (.ok p, dp1, ws1) →
      ws1 = ws ∧ diffPartitions.selected dp.cmItr dp = .ok (p, dp1) ∧
      (p.fromTable = none ∨ ∃ f t fs ts, p.fromTable = some f ∧ p.toTable = some t ∧
        f.GetSchema = .ok fs ∧ t.GetSchema = .ok ts ∧ apk fs ts = true)) ∧
    (∀ next dp1, diffPartitions.selected dp.cmItr dp = .ok (next, dp1) →
      (∀ f t fs ts, next.fromTable = some f → next.toTable = some t →
        f.GetSchema = .ok fs → t.GetSchema = .ok ts → apk fs ts = false →
        dp.Next apk ws = (.error ioEOF, dp1,
          ws ++ [⟨1105, PrimaryKeyChangeWarning next.fromName next.toName⟩])) ∧
      (next.fromTable = none → dp.Next apk ws = (.ok next, dp1, ws))) ∧
    (∀ r dp1 ws1, dp.Next apk ws = (r, dp1, ws1) → ws1 ≠ ws →
      r = .error ioEOF ∧ ∃ next f, diffPartitions.selected dp.cmItr dp = .ok (next, dp1) ∧
        next.fromTable = some f ∧ next.isDiffablePartition apk = .ok false ∧
        ws1 = ws ++ [⟨1105, PrimaryKeyChangeWarning next.fromName next.toName⟩]) := by
  refine ⟨fun p dp1 ws1 h => ?_, fun next dp1 hsel => ⟨fun f t fs ts hf ht hfs hts hapk => ?_,
    fun hnil => ?_⟩, fun r dp1 ws1 h hne => ?_⟩
  · obtain ⟨h1, h2, h3⟩ :=
      (diffPartitions.nextLoop_result apk dp.cmItr dp dp1 ws ws1 (.ok p) h).1 p rfl
    exact ⟨h3, h1, diffPartition.isDiffable_true h2⟩
  · rw [diffPartitions.Next, diffPartitions.nextLoop_selected apk _ _ _ ws _ hsel,
      diffPartition.isDiffable_eq hf ht hfs hts, hapk]
    rfl
  · rw [diffPartitions.Next, diffPartitions.nextLoop_selected apk _ _ _ ws _ hsel]
    simp [diffPartition.isDiffablePartition, hnil]
  · obtain ⟨h1, next, h2, h3, h4⟩ :=
      (diffPartitions.nextLoop_result apk dp.cmItr dp dp1 ws ws1 r h).2 hne
    cases hf : next.fromTable with
    | none => simp [diffPartition.isDiffablePartition, hf] at h3
    | some f => exact ⟨h1, next, f, h2, hf, h3, h4⟩

/-- Witness of C21: a table whose key column is `id` in the working set and in the
head commit and was `pk` in the parent commit. The first call of `Next` returns
the partition of the working set against the head commit; the second one selects
the partition of the head commit against its parent, warns and returns `io.EOF`. -/
theorem next_partition_diffable_witness :
    (exPartition1.fromTable = none ∨ ∃ f t fs ts, exPartition1.fromTable = some f ∧
      exPartition1.toTable = some t ∧ f.GetSchema = .ok fs ∧ t.GetSchema = .ok ts ∧
      exDiffable fs ts = true) ∧
    (exPartitionsLater.Next exDiffable []).1 = .error ioEOF ∧
    (exPartitionsLater.Next exDiffable []).2.2 =
      [⟨1105, "cannot render full diff between commits c1 and c2 due to primary key set change"⟩] :=
  ⟨((next_partition_diffable exDiffable exPartitions []).1 exPartition1 exPartitionsLater []
      rfl).2.2,
    congrArg Prod.fst (((next_partition_diffable exDiffable exPartitionsLater []).2.1 exPartition2
      (exPartitionsLater.Next exDiffable []).2.1 rfl).1 (exTable "pk") (exTable "id") ["pk"]
      ["id"] rfl rfl rfl rfl rfl),
    congrArg (fun x => x.2.2) (((next_partition_diffable exDiffable exPartitionsLater []).2.1
      exPartition2 (exPartitionsLater.Next exDiffable []).2.1 rfl).1 (exTable "pk")
      (exTable "id") ["pk"] ["id"] rfl rfl rfl rfl rfl)⟩

end Prolly
